import Mathlib

/-!
The jbcs kernels: Mandelbrot escape-time field and Monte Carlo pi.

A shallow embedding of `src/openmp/mandel.c` and `src/openmp/pi.c`.

Modelling conventions.

* `double` values are exact rationals (`ℚ`): the development is about the
  programs in exact arithmetic, rounding is not modelled. The one place where
  the programs divide by `0.0` (lines 26-27 of mandel.c, for a width or height
  of `1`) yields an infinity or a NaN: such a value is `none` in `Option ℚ`.
* `uint32_t` counters are natural numbers reduced modulo `2^32` after each
  increment; `size_t` arithmetic is reduced modulo `2^64`.
* Loops whose counter can wrap before the bound is reached take a fuel
  argument and return `none` when it runs out.
* `log` (libm), `drand48`, `srand48_r` and `drand48_r` (libc) are parameters.
* The array `data` is a function from indices to cell values.
-/

namespace Jbcs

/-! ## mandel.c -/

/-- The value of `width - 1` computed in `size_t`: `0 - 1` wraps to `2 ^ 64 - 1`. -/
def sizePred (n : Nat) : Nat := if n = 0 then 2 ^ 64 - 1 else (n - 1) % 2 ^ 64

/-- Line 26: `px = ((x1 - x0) / (width - 1)) * w + x0`. When `width - 1` is `0`
the division is by `0.0`: the quotient is an infinity or a NaN and so is `px`
(`inf * 0` is a NaN, `inf * w + x0` an infinity); the result is then `none`. -/
def planeX (width : Nat) (x0 x1 : ℚ) (w : Nat) : Option ℚ :=
  if sizePred width = 0 then none
  else some (((x1 - x0) / (sizePred width : ℚ)) * (w : ℚ) + x0)

/-- Line 27: `py = ((y1 - y0) / (height - 1)) * h + y0`, with `none` for the
infinity or NaN of a division by `0.0`, as for `planeX`. -/
def planeY (height : Nat) (y0 y1 : ℚ) (h : Nat) : Option ℚ :=
  if sizePred height = 0 then none
  else some (((y1 - y0) / (sizePred height : ℚ)) * (h : ℚ) + y0)

/-- Lines 29-33: the inner loop
`for (i = 0; (i < max_iters) && (x * x + y * y < 4.0); i++)`, started in the
state `(i, x, y)`; the result is the value of `i` when the loop is left. -/
def escapeLoop (max_iters : Nat) (px py : ℚ) : Nat → Nat → ℚ → ℚ → Option Nat
  | 0, _, _, _ => none
  | fuel + 1, i, x, y =>
    if i < max_iters ∧ x * x + y * y < 4 then
      escapeLoop max_iters px py fuel ((i + 1) % 2 ^ 32) (x * x - y * y + px) (2 * x * y + py)
    else some i

/-- Lines 29-33 when the plane point is not finite (`px` or `py` is an infinity
or a NaN). The loop starts at `z = 0`, where the test `x * x + y * y < 4.0`
holds; after one run of the body `x = px` or `y = py` is not finite,
`x * x + y * y` is `+inf` or a NaN, and the test fails. `atStart` tells whether
`z` is still `0`. -/
def escapeLoopNonFinite (max_iters : Nat) : Nat → Nat → Bool → Option Nat
  | 0, _, _ => none
  | fuel + 1, i, atStart =>
    if i < max_iters ∧ atStart = true then
      escapeLoopNonFinite max_iters fuel ((i + 1) % 2 ^ 32) false
    else some i

/-- Lines 28-33: the inner loop for the plane point `(px, py)`, from `i = 0` and
`z = 0`; the result is the value of `i` when the loop is left. -/
def pixelLoop (fuel max_iters : Nat) (px py : Option ℚ) : Option Nat :=
  match px, py with
  | some a, some b => escapeLoop max_iters a b fuel 0 0 0
  | _, _ => escapeLoopNonFinite max_iters fuel 0 true

/-- The assignment `data[idx] = v`. -/
def store {V : Type} (data : Nat → V) (idx : Nat) (v : V) : Nat → V :=
  fun j => if j = idx then v else data j

/-- Lines 25-34: the body of the two pixel loops for the counters `h` and `w`. -/
def pixelBody {V : Type} (log : ℚ → V) (fuel max_iters width height : Nat)
    (x0 y0 x1 y1 : ℚ) (data : Nat → V) (h w : Nat) : Option (Nat → V) :=
  match pixelLoop fuel max_iters (planeX width x0 x1 w) (planeY height y0 y1 h) with
  | none => none
  | some i => some (store data ((h * width + w) % 2 ^ 64) (log (i : ℚ)))

/-- Line 24: `for (uint32_t w = 0; w < width; w++)`, started at `w`. -/
def colLoop {V : Type} (log : ℚ → V) (fuel max_iters width height : Nat)
    (x0 y0 x1 y1 : ℚ) (h : Nat) : Nat → Nat → (Nat → V) → Option (Nat → V)
  | 0, _, _ => none
  | k + 1, w, data =>
    if w < width then
      match pixelBody log fuel max_iters width height x0 y0 x1 y1 data h w with
      | none => none
      | some data1 =>
        colLoop log fuel max_iters width height x0 y0 x1 y1 h k ((w + 1) % 2 ^ 32) data1
    else some data

/-- Line 23: `for (uint32_t h = 0; h < height; h++)`, started at `h`. -/
def rowLoop {V : Type} (log : ℚ → V) (fuel max_iters width height : Nat)
    (x0 y0 x1 y1 : ℚ) : Nat → Nat → (Nat → V) → Option (Nat → V)
  | 0, _, _ => none
  | k + 1, h, data =>
    if h < height then
      match colLoop log fuel max_iters width height x0 y0 x1 y1 h fuel 0 data with
      | none => none
      | some data1 =>
        rowLoop log fuel max_iters width height x0 y0 x1 y1 k ((h + 1) % 2 ^ 32) data1
    else some data

/-- Lines 21-37: `mandel`. Each of the three loops may run `fuel` times. -/
def mandel {V : Type} (log : ℚ → V) (fuel : Nat) (data : Nat → V)
    (max_iters width height : Nat) (x0 y0 x1 y1 : ℚ) : Option (Nat → V) :=
  rowLoop log fuel max_iters width height x0 y0 x1 y1 fuel 0 data

/-! ### Reference definitions for the escape-time contract -/

/-- One step `z ← z² + c` on pairs `(x, y)`: `x' = x² - y² + px`, `y' = 2xy + py`. -/
def orbitStep (px py : ℚ) (z : ℚ × ℚ) : ℚ × ℚ :=
  (z.1 * z.1 - z.2 * z.2 + px, 2 * z.1 * z.2 + py)

/-- The orbit `z_0 = 0`, `z_{k+1} = z_k² + c` of the plane point `c = (px, py)`. -/
def orbit (px py : ℚ) : Nat → ℚ × ℚ
  | 0 => (0, 0)
  | k + 1 => orbitStep px py (orbit px py k)

/-- The squared modulus `|z|²` of `z = (x, y)`. -/
def normSq (z : ℚ × ℚ) : ℚ := z.1 * z.1 + z.2 * z.2

/-- The iteration count of the contract: the least `k < max_iters` with
`|z_k|² ≥ 4` if there is one, and `max_iters` otherwise. -/
def specCount (max_iters : Nat) (px py : ℚ) : Nat :=
  match (List.range max_iters).find? (fun k => decide (4 ≤ normSq (orbit px py k))) with
  | some k => k
  | none => max_iters

/-- The orbit of a point `c` of the real axis: `a_0 = 0`, `a_{k+1} = a_k² + c`,
over any field. -/
def axisOrbit {F : Type} [Field F] (c : F) : Nat → F
  | 0 => 0
  | k + 1 => axisOrbit c k ^ 2 + c

/-- The pixels of a `width` by `height` grid in row-major order, as `(row, col)`. -/
def rowMajor (width height : Nat) : List (Nat × Nat) :=
  (List.range height).flatMap (fun h => (List.range width).map (fun w => (h, w)))

/-- Running the body of the pixel loops over the pixels of a list, in the order
of the list. -/
def fillPixels {V : Type} (log : ℚ → V) (fuel max_iters width height : Nat)
    (x0 y0 x1 y1 : ℚ) : List (Nat × Nat) → (Nat → V) → Option (Nat → V)
  | [], data => some data
  | p :: ps, data =>
    match pixelBody log fuel max_iters width height x0 y0 x1 y1 data p.1 p.2 with
    | none => none
    | some data1 => fillPixels log fuel max_iters width height x0 y0 x1 y1 ps data1

/-- The index `h * width + w`, computed in `size_t`. -/
def pixelIdx (width : Nat) (p : Nat × Nat) : Nat := (p.1 * width + p.2) % 2 ^ 64

/-- The iteration count for a plane point: the contract's count when the point
is finite, and `1` capped at `max_iters` when it is not (the loop then runs its
body once, if at all). -/
def planeCount (max_iters : Nat) (px py : Option ℚ) : Nat :=
  match px, py with
  | some a, some b => specCount max_iters a b
  | _, _ => min 1 max_iters

/-- The cell value for pixel `p = (row, col)`: `log` of the iteration count at
the plane point of the pixel. -/
def pixelVal {V : Type} (log : ℚ → V) (max_iters width height : Nat)
    (x0 y0 x1 y1 : ℚ) (p : Nat × Nat) : V :=
  log ((planeCount max_iters (planeX width x0 x1 p.2) (planeY height y0 y1 p.1) : Nat) : ℚ)

/-- The value of `i` with which the inner loop is left for pixel `p = (row, col)`,
if it is left within `fuel` iterations. -/
def pixelCount (fuel max_iters width height : Nat) (x0 y0 x1 y1 : ℚ) (p : Nat × Nat) :
    Option Nat :=
  pixelLoop fuel max_iters (planeX width x0 x1 p.2) (planeY height y0 y1 p.1)

/-- The store the loop body performs for pixel `p` when its inner loop is left
within `fuel` iterations (the count defaults to `0` otherwise). -/
def codeStore {V : Type} (log : ℚ → V) (fuel max_iters width height : Nat)
    (x0 y0 x1 y1 : ℚ) (data : Nat → V) (p : Nat × Nat) : Nat → V :=
  store data (pixelIdx width p)
    (log (((pixelCount fuel max_iters width height x0 y0 x1 y1 p).getD 0 : Nat) : ℚ))

/-- Writing the value of pixel `p` into its cell. -/
def pixelStore {V : Type} (log : ℚ → V) (max_iters width height : Nat)
    (x0 y0 x1 y1 : ℚ) (data : Nat → V) (p : Nat × Nat) : Nat → V :=
  store data (pixelIdx width p) (pixelVal log max_iters width height x0 y0 x1 y1 p)

/-! ## pi.c -/

/-- Lines 25-26 (the same statement at 37-38 and 55-56):
`if (x * x + y * y < 1.0) hits++;` on the `size_t` counter `hits`. -/
def hitStep (hits : Nat) (x y : ℚ) : Nat :=
  if x * x + y * y < 1 then (hits + 1) % 2 ^ 64 else hits

/-- Lines 22-27: the loop `for (size_t i = 0; i < N; i++)` of `pi_serial`,
started in the state `(i, hits)` with generator state `s`. The generator
`drand48` is a parameter: one call returns a draw and the next state. -/
def pi_serial_loop {σ : Type} (drand48 : σ → ℚ × σ) (N : Nat) :
    Nat → Nat → Nat → σ → Option (Nat × σ)
  | 0, _, _, _ => none
  | fuel + 1, i, hits, s =>
    if i < N then
      let x := drand48 s
      let y := drand48 x.2
      pi_serial_loop drand48 N fuel ((i + 1) % 2 ^ 64) (hitStep hits x.1 y.1) y.2
    else some (hits, s)

/-- Lines 20-29: `pi_serial`, returning `4.0 * hits / N` and the generator
state it leaves behind. -/
def pi_serial {σ : Type} (drand48 : σ → ℚ × σ) (fuel N : Nat) (s : σ) : Option (ℚ × σ) :=
  match pi_serial_loop drand48 N fuel 0 0 s with
  | none => none
  | some r => some (4 * (r.1 : ℚ) / (N : ℚ), r.2)

/-- A generator that reads a fixed stream `d 0, d 1, ...` of draws; its state
is the position of the next draw. -/
def streamDraw (d : Nat → ℚ) (k : Nat) : ℚ × Nat := (d k, k + 1)

/-- The test of line 25 on a sample pair. -/
def isHit (p : ℚ × ℚ) : Bool := decide (p.1 * p.1 + p.2 * p.2 < 1)

/-- The number of `i < N` whose pair `(d (2i), d (2i+1))` passes the test
`x² + y² < 1`. -/
def streamHits (d : Nat → ℚ) (N : Nat) : Nat :=
  ((List.range N).filter (fun i => isHit (d (2 * i), d (2 * i + 1)))).length

/-- The hit count a worker computes for the sample pairs it draws: its private
copy of `hits` starts at `0` and the loop body runs once per pair. -/
def countHits (samples : List (ℚ × ℚ)) : Nat :=
  samples.foldl (fun hits p => hitStep hits p.1 p.2) 0

/-- The `reduction(+ : hits)` clause, combining the private copies one after the
other into the original variable by `size_t` addition. -/
def reduceSum (init : Nat) (shares : List Nat) : Nat :=
  shares.foldl (fun acc c => (acc + c) % 2 ^ 64) init

/-- An arbitrary bracketing of the `size_t` additions of a reduction. -/
inductive SumTree where
  | leaf (c : Nat) : SumTree
  | node (l r : SumTree) : SumTree

/-- The private copies combined by a bracketing, left to right. -/
def SumTree.leaves : SumTree → List Nat
  | SumTree.leaf c => [c]
  | SumTree.node l r => l.leaves ++ r.leaves

/-- The value of a bracketing, every addition taken in `size_t`. -/
def SumTree.eval : SumTree → Nat
  | SumTree.leaf c => c
  | SumTree.node l r => (l.eval + r.eval) % 2 ^ 64

/-- Lines 52-56: the loop body of `pi_omp2` on a worker's private state
`(rngbuf, hits)`; `drand48_r` is a parameter like `drand48`. -/
def omp2Body {σ : Type} (drand48_r : σ → ℚ × σ) (st : σ × Nat) : σ × Nat :=
  let x := drand48_r st.1
  let y := drand48_r x.2
  (y.2, hitStep st.2 x.1 y.1)

/-- Lines 48-49 and the private copy of `hits`: worker `k` starts with
`srand48_r(seed + omp_get_thread_num(), &rngbuf)` and `hits = 0`. -/
def omp2Init {σ : Type} (srand48_r : Nat → σ) (seed : Nat) (k : Nat) : σ × Nat :=
  (srand48_r ((seed + k) % 2 ^ 64), 0)

/-- The work-shared loop of lines 50-57 under a schedule: the list gives, in
the order of execution, the loop index `i` of each iteration and the worker
that runs it; the iteration acts on that worker's private state only. -/
def omp2Exec {σ : Type} (drand48_r : σ → ℚ × σ) :
    List (Nat × Nat) → (Nat → σ × Nat) → (Nat → σ × Nat)
  | [], ws => ws
  | ik :: rest, ws =>
    omp2Exec drand48_r rest (fun k => if k = ik.2 then omp2Body drand48_r (ws k) else ws k)

/-- The reduced `hits` of `pi_omp2` for `T` workers under a schedule. -/
def omp2Hits {σ : Type} (srand48_r : Nat → σ) (drand48_r : σ → ℚ × σ)
    (seed T : Nat) (sched : List (Nat × Nat)) : Nat :=
  reduceSum 0 ((List.range T).map
    (fun k => (omp2Exec drand48_r sched (omp2Init srand48_r seed) k).2))

/-- Lines 43-60: `pi_omp2` for `T` workers under a schedule; `seed` is the
value `random()` returned at line 45. -/
def pi_omp2 {σ : Type} (srand48_r : Nat → σ) (drand48_r : σ → ℚ × σ)
    (seed T N : Nat) (sched : List (Nat × Nat)) : ℚ :=
  4 * (omp2Hits srand48_r drand48_r seed T sched : ℚ) / (N : ℚ)

/-- The private hit count of a worker whose stream was seeded with `seedk`,
after it has run the loop body `n` times. -/
def workerHits {σ : Type} (srand48_r : Nat → σ) (drand48_r : σ → ℚ × σ)
    (seedk n : Nat) : Nat :=
  ((omp2Body drand48_r)^[n] (srand48_r seedk, 0)).2

/-- The number of iterations a schedule gives to worker `k`. -/
def workerLoad (sched : List (Nat × Nat)) (k : Nat) : Nat :=
  sched.countP (fun ik => ik.2 == k)

/-- The sample pairs of `n` consecutive runs of "draw `x`, draw `y`" from the
generator state `s`, and the state they leave. -/
def drawPairs {σ : Type} (drand48 : σ → ℚ × σ) : Nat → σ → List (ℚ × ℚ) × σ
  | 0, s => ([], s)
  | n + 1, s =>
    (((drand48 s).1, (drand48 (drand48 s).2).1) ::
        (drawPairs drand48 n (drand48 (drand48 s).2).2).1,
      (drawPairs drand48 n (drand48 (drand48 s).2).2).2)

/-- The state of a run of `pi_omp1`: the state of the one generator behind
`drand48`, shared by the workers, and for each worker the draw `x` it holds
while it has not drawn `y` yet, its private copy of `hits`, and (as a record
of the run, not a program variable) the sample pairs it has completed. -/
structure Omp1State (σ : Type) where
  gen : σ
  pending : Nat → Option ℚ
  hits : Nat → Nat
  samples : Nat → List (ℚ × ℚ)

/-- The state at the entry of the parallel loop of `pi_omp1`. -/
def omp1Init {σ : Type} (s : σ) : Omp1State σ :=
  { gen := s, pending := fun _ => none, hits := fun _ => 0, samples := fun _ => [] }

/-- One step of worker `k` in the loop body of `pi_omp1` (lines 35-38): it calls
`drand48` for `x` or, holding `x`, calls it for `y` and runs the test. -/
def omp1Step {σ : Type} (drand48 : σ → ℚ × σ) (st : Omp1State σ) (k : Nat) : Omp1State σ :=
  match st.pending k with
  | none =>
    { gen := (drand48 st.gen).2
      pending := fun j => if j = k then some (drand48 st.gen).1 else st.pending j
      hits := st.hits
      samples := st.samples }
  | some x =>
    { gen := (drand48 st.gen).2
      pending := fun j => if j = k then none else st.pending j
      hits := fun j => if j = k then hitStep (st.hits k) x (drand48 st.gen).1 else st.hits j
      samples := fun j =>
        if j = k then st.samples k ++ [(x, (drand48 st.gen).1)] else st.samples j }

/-- The parallel loop of `pi_omp1` under an interleaving: the list names, in the
order of execution, the worker that takes each step. -/
def omp1Exec {σ : Type} (drand48 : σ → ℚ × σ) (events : List Nat) (s : σ) : Omp1State σ :=
  events.foldl (omp1Step drand48) (omp1Init s)

/-- Lines 31-41: `pi_omp1` for `T` workers under an interleaving, returning
`4.0 * hits / N` for the reduced `hits` and the generator state left behind. -/
def pi_omp1 {σ : Type} (drand48 : σ → ℚ × σ) (T N : Nat) (events : List Nat) (s : σ) :
    ℚ × σ :=
  (4 * (reduceSum 0 ((List.range T).map (omp1Exec drand48 events s).hits) : ℚ) / (N : ℚ),
    (omp1Exec drand48 events s).gen)

/-- An interleaving of `pi_omp1` for `T` workers and `N` iterations: only workers
below `T` take steps, `2N` steps are taken and no worker is left holding an `x`. -/
def Omp1Valid {σ : Type} (drand48 : σ → ℚ × σ) (T N : Nat) (events : List Nat) (s : σ) :
    Prop :=
  (∀ k, k ∈ events → k < T) ∧ events.length = 2 * N ∧
    ∀ k, k < T → (omp1Exec drand48 events s).pending k = none

/-- The number of draws worker `k` has made in a run of `pi_omp1`: two for each
completed sample pair and one for an `x` it holds. -/
def omp1Draws {σ : Type} (st : Omp1State σ) (k : Nat) : Nat :=
  2 * (st.samples k).length + (if (st.pending k).isSome then 1 else 0)

/-- The calls `main` of pi.c makes to the three strategies. -/
inductive PiCall where
  | serial (N : Nat) : PiCall
  | omp1 (N : Nat) : PiCall
  | omp2 (N : Nat) : PiCall
  deriving DecidableEq

/-- Lines 62-82: `main` of pi.c, as its exit code and the calls it makes in
order; `strtoul` is a parameter and `argv` holds the arguments after the
program name (so `argc = 2` has one of them). -/
def pi_main (strtoul : String → Nat) (argc : Int) (argv : List String) : Int × List PiCall :=
  if argc > 2 then (1, [])
  else
    let N := if argc = 2 then strtoul (argv.headD "") else 10 ^ 8
    (0, [PiCall.serial N, PiCall.omp1 N, PiCall.omp2 N])

/-! ## mandel.c: the image encoder -/

/-- Arithmetic of `uint32_t`: reduction modulo `2^32`. -/
def u32 (n : Nat) : Nat := n % 2 ^ 32

/-- The subtraction `a - b` of `uint32_t`. -/
def u32sub (a b : Nat) : Nat := (a % 2 ^ 32 + (2 ^ 32 - b % 2 ^ 32)) % 2 ^ 32

/-- The conversion to `uint8_t` of a value stored into a channel. -/
def u8 (n : Nat) : Nat := n % 256

/-- The conversion of a `double` to `uint32_t` (lines 40-42): truncation, which C
defines for values in `(-1, 2^32)`. -/
def toU32 {F : Type} [LinearOrderedField F] [FloorRing F] (x : F) : Nat :=
  (Int.toNat ⌊x⌋) % 2 ^ 32

/-- Line 48: `f = ((h % 600) * 1000) / 600`. -/
def hsv_f (h : Nat) : Nat := u32 ((h % 600) * 1000) / 600

/-- Line 49: `p = (v * (1000 - s)) / 1000`. -/
def hsv_p (s v : Nat) : Nat := u32 (v * u32sub 1000 s) / 1000

/-- Line 50: `q = (v * (1000 - ((s * f) / 1000))) / 1000`. -/
def hsv_q (h s v : Nat) : Nat := u32 (v * u32sub 1000 (u32 (s * hsv_f h) / 1000)) / 1000

/-- Line 51: `t = (v * (1000 - ((s * (1000 - f)) / 1000))) / 1000`. -/
def hsv_t (h s v : Nat) : Nat :=
  u32 (v * u32sub 1000 (u32 (s * u32sub 1000 (hsv_f h)) / 1000)) / 1000

/-- The byte stored by `rgb[k] = (255 * c) / 1000`. -/
def channel (c : Nat) : Nat := u8 (u32 (255 * c) / 1000)

/-- Lines 44-90: `hsv_to_rgb` on the converted `h`, `s`, `v`; `rgb` holds the
three bytes the caller passed and the result the three bytes on return. -/
def hsvCore (rgb : Nat × Nat × Nat) (h s v : Nat) : Nat × Nat × Nat :=
  if s = 0 then (channel v, channel v, channel v)
  else
    match h / 600 with
    | 0 => (channel v, channel (hsv_t h s v), channel (hsv_p s v))
    | 1 => (channel (hsv_q h s v), channel v, channel (hsv_p s v))
    | 2 => (channel (hsv_p s v), channel v, channel (hsv_t h s v))
    | 3 => (channel (hsv_p s v), channel (hsv_q h s v), channel v)
    | 4 => (channel (hsv_t h s v), channel (hsv_p s v), channel v)
    | 5 => (channel v, channel (hsv_p s v), channel (hsv_q h s v))
    | _ => rgb

/-- Lines 39-91: `hsv_to_rgb`. -/
def hsv_to_rgb {F : Type} [LinearOrderedField F] [FloorRing F]
    (rgb : Nat × Nat × Nat) (hue sat val : F) : Nat × Nat × Nat :=
  hsvCore rgb (toU32 (hue * 3600)) (toU32 (sat * 1000)) (toU32 (val * 1000))

/-- Line 120 of `main`: the hue `data[i] / log(max_iters + 1)` of a cell of the
field, with `max_iters + 1` computed in `size_t`; the cells and `log` take values
in `F`. -/
def hueOf {F : Type} [LinearOrderedField F] (log : ℚ → F) (max_iters : Nat) (cell : F) : F :=
  cell / log ((((max_iters + 1) % 2 ^ 64 : Nat)) : ℚ)

/-- Lines 119-120 of `main`: the colour written for a cell of the field,
`hsv_to_rgb(color, data[i] / log(max_iters + 1), 1.0, 1.0)` from
`color = {0, 0, 6}`. -/
def encodeCell {F : Type} [LinearOrderedField F] [FloorRing F] (log : ℚ → F)
    (max_iters : Nat) (cell : F) : Nat × Nat × Nat :=
  hsv_to_rgb (0, 0, 6) (hueOf log max_iters cell) 1 1

end Jbcs

namespace Jbcs

/-! ## Lemmas on the escape-time loop -/

theorem specCount_eq (M : Nat) (px py : ℚ) (n : Nat) (hn : n ≤ M)
    (hlt : ∀ j, j < n → normSq (orbit px py j) < 4)
    (hge : n < M → 4 ≤ normSq (orbit px py n)) : specCount M px py = n := by
  have hsplit : List.range M = List.range n ++ List.range' n (M - n) := by
    rw [List.range_eq_range', List.range_eq_range']
    have := List.range'_append 0 n (M - n) 1
    simp only [Nat.one_mul, Nat.zero_add] at this
    rw [this]; congr 1; omega
  have hnone : (List.range n).find? (fun k => decide (4 ≤ normSq (orbit px py k))) = none := by
    rw [List.find?_eq_none]
    intro k hk
    have := hlt k (List.mem_range.mp hk)
    simp only [decide_eq_true_eq, not_le]; exact this
  unfold specCount
  rw [hsplit, List.find?_append, hnone]
  simp only [Option.none_or]
  rcases Nat.lt_or_ge n M with h | h
  · obtain ⟨d, hd⟩ : ∃ d, M - n = d + 1 := ⟨M - n - 1, by omega⟩
    rw [hd, List.range'_succ, List.find?_cons_of_pos]
    simpa using hge h
  · have : M - n = 0 := by omega
    rw [this]; simp; omega

theorem specCount_exists (M : Nat) (px py : ℚ) :
    ∃ n, n ≤ M ∧ (∀ j, j < n → normSq (orbit px py j) < 4) ∧
      (n < M → 4 ≤ normSq (orbit px py n)) := by
  classical
  by_cases h : ∃ k, k < M ∧ 4 ≤ normSq (orbit px py k)
  · refine ⟨Nat.find h, (Nat.find_spec h).1.le, ?_, fun _ => (Nat.find_spec h).2⟩
    intro j hj
    have := Nat.find_min h hj
    have hjM : j < M := lt_trans hj (Nat.find_spec h).1
    by_contra hc
    exact this ⟨hjM, not_lt.mp hc⟩
  · refine ⟨M, le_refl _, ?_, fun hh => absurd hh (lt_irrefl _)⟩
    intro j hj
    by_contra hc
    exact h ⟨j, hj, not_lt.mp hc⟩

theorem specCount_le (M : Nat) (px py : ℚ) : specCount M px py ≤ M := by
  obtain ⟨n, h1, h2, h3⟩ := specCount_exists M px py
  rw [specCount_eq M px py n h1 h2 h3]; exact h1

theorem specCount_before (M : Nat) (px py : ℚ) (j : Nat) (hj : j < specCount M px py) :
    normSq (orbit px py j) < 4 := by
  obtain ⟨n, h1, h2, h3⟩ := specCount_exists M px py
  rw [specCount_eq M px py n h1 h2 h3] at hj; exact h2 j hj

theorem specCount_at (M : Nat) (px py : ℚ) (h : specCount M px py < M) :
    4 ≤ normSq (orbit px py (specCount M px py)) := by
  obtain ⟨n, h1, h2, h3⟩ := specCount_exists M px py
  rw [specCount_eq M px py n h1 h2 h3] at h ⊢; exact h3 h

theorem escapeLoop_orbit (M : Nat) (px py : ℚ) (hM : M < 2 ^ 32) :
    ∀ (fuel i : Nat), i ≤ M → M - i < fuel →
      (∀ j, j < i → normSq (orbit px py j) < 4) →
      escapeLoop M px py fuel i (orbit px py i).1 (orbit px py i).2
        = some (specCount M px py) := by
  intro fuel
  induction fuel with
  | zero => intro i _ h; omega
  | succ f ih =>
    intro i hi hf hlt
    unfold escapeLoop
    by_cases hc : i < M ∧ (orbit px py i).1 * (orbit px py i).1
        + (orbit px py i).2 * (orbit px py i).2 < 4
    · rw [if_pos hc]
      have hmod : (i + 1) % 2 ^ 32 = i + 1 := Nat.mod_eq_of_lt (by omega)
      rw [hmod]
      have := ih (i + 1) hc.1 (by omega) (by
        intro j hj
        rcases Nat.lt_succ_iff_lt_or_eq.mp hj with h | h
        · exact hlt j h
        · subst h; exact hc.2)
      simpa [orbit, orbitStep] using this
    · rw [if_neg hc]
      congr 1
      symm
      apply specCount_eq M px py i hi hlt
      intro hiM
      have : ¬ normSq (orbit px py i) < 4 := fun h => hc ⟨hiM, h⟩
      exact not_lt.mp this

theorem escapeLoop_eq (M : Nat) (px py : ℚ) (hM : M < 2 ^ 32) (fuel : Nat) (hf : M < fuel) :
    escapeLoop M px py fuel 0 0 0 = some (specCount M px py) := by
  have := escapeLoop_orbit M px py hM fuel 0 (Nat.zero_le _) (by omega) (by intro j hj; omega)
  simpa [orbit] using this

/-! ## Lemmas on the pixel loops -/

theorem escapeLoopNonFinite_eq (M fuel : Nat) (hf : M < fuel) :
    escapeLoopNonFinite M fuel 0 true = some (min 1 M) := by
  rcases Nat.eq_zero_or_pos M with h0 | hpos
  · subst h0
    obtain ⟨f, rfl⟩ : ∃ f, fuel = f + 1 := ⟨fuel - 1, by omega⟩
    rw [escapeLoopNonFinite]
    simp
  · obtain ⟨f, rfl⟩ : ∃ f, fuel = f + 2 := ⟨fuel - 2, by omega⟩
    rw [escapeLoopNonFinite]
    have hc : 0 < M ∧ true = true := ⟨hpos, rfl⟩
    rw [if_pos hc, escapeLoopNonFinite]
    have hn : ¬ ((0 + 1) % 2 ^ 32 < M ∧ false = true) := fun h => Bool.noConfusion h.2
    rw [if_neg hn]
    have hmin : min 1 M = 1 := Nat.min_eq_left hpos
    rw [hmin]
    rfl

theorem pixelLoop_some (fuel M : Nat) (px py : ℚ) :
    pixelLoop fuel M (some px) (some py) = escapeLoop M px py fuel 0 0 0 := rfl

theorem planeCount_some (M : Nat) (px py : ℚ) :
    planeCount M (some px) (some py) = specCount M px py := rfl

theorem pixelLoop_eq (M : Nat) (px py : Option ℚ) (hM : M < 2 ^ 32) (fuel : Nat)
    (hf : M < fuel) : pixelLoop fuel M px py = some (planeCount M px py) := by
  cases px with
  | none => exact escapeLoopNonFinite_eq M fuel hf
  | some a =>
    cases py with
    | none => exact escapeLoopNonFinite_eq M fuel hf
    | some b => exact escapeLoop_eq M a b hM fuel hf

theorem planeCount_le (M : Nat) (px py : Option ℚ) : planeCount M px py ≤ M := by
  cases px with
  | none => exact Nat.min_le_right 1 M
  | some a =>
    cases py with
    | none => exact Nat.min_le_right 1 M
    | some b => exact specCount_le M a b

theorem pixelBody_eq {V : Type} (log : ℚ → V) (fuel M width height : Nat)
    (x0 y0 x1 y1 : ℚ) (data : Nat → V) (h w : Nat) (hM : M < 2 ^ 32) (hf : M < fuel) :
    pixelBody log fuel M width height x0 y0 x1 y1 data h w
      = some (pixelStore log M width height x0 y0 x1 y1 data (h, w)) := by
  unfold pixelBody
  rw [pixelLoop_eq M (planeX width x0 x1 w) (planeY height y0 y1 h) hM fuel hf]
  simp only [pixelStore, pixelVal, pixelIdx]

theorem fillPixels_eq {V : Type} (log : ℚ → V) (fuel M width height : Nat)
    (x0 y0 x1 y1 : ℚ) (hM : M < 2 ^ 32) (hf : M < fuel) :
    ∀ (ps : List (Nat × Nat)) (data : Nat → V),
      fillPixels log fuel M width height x0 y0 x1 y1 ps data
        = some (ps.foldl (pixelStore log M width height x0 y0 x1 y1) data) := by
  intro ps
  induction ps with
  | nil => intro data; rfl
  | cons p ps ih =>
    intro data
    unfold fillPixels
    rw [pixelBody_eq log fuel M width height x0 y0 x1 y1 data p.1 p.2 hM hf]
    exact ih _

theorem colLoop_eq {V : Type} (log : ℚ → V) (fuel M width height : Nat)
    (x0 y0 x1 y1 : ℚ) (h : Nat) (hM : M < 2 ^ 32) (hf : M < fuel) (hw : width < 2 ^ 32) :
    ∀ (k w : Nat) (data : Nat → V), w ≤ width → width - w < k →
      colLoop log fuel M width height x0 y0 x1 y1 h k w data
        = some (((List.range' w (width - w)).map (fun c => (h, c))).foldl
            (pixelStore log M width height x0 y0 x1 y1) data) := by
  intro k
  induction k with
  | zero => intro w data _ hk; omega
  | succ k ih =>
    intro w data hle hk
    unfold colLoop
    by_cases hc : w < width
    · rw [if_pos hc, pixelBody_eq log fuel M width height x0 y0 x1 y1 data h w hM hf]
      have hmod : (w + 1) % 2 ^ 32 = w + 1 := Nat.mod_eq_of_lt (by omega)
      simp only [hmod]
      rw [ih (w + 1) _ hc (by omega)]
      obtain ⟨d, hd⟩ : ∃ d, width - w = d + 1 := ⟨width - w - 1, by omega⟩
      have hd2 : width - (w + 1) = d := by omega
      rw [hd, hd2, List.range'_succ]
      rfl
    · rw [if_neg hc]
      have : width - w = 0 := by omega
      rw [this]; rfl

theorem rowLoop_eq {V : Type} (log : ℚ → V) (fuel M width height : Nat)
    (x0 y0 x1 y1 : ℚ) (hM : M < 2 ^ 32) (hf : M < fuel) (hw : width < 2 ^ 32)
    (hfw : width < fuel) (hh : height < 2 ^ 32) :
    ∀ (k h : Nat) (data : Nat → V), h ≤ height → height - h < k →
      rowLoop log fuel M width height x0 y0 x1 y1 k h data
        = some (((List.range' h (height - h)).flatMap
            (fun r => (List.range width).map (fun c => (r, c)))).foldl
            (pixelStore log M width height x0 y0 x1 y1) data) := by
  intro k
  induction k with
  | zero => intro h data _ hk; omega
  | succ k ih =>
    intro h data hle hk
    unfold rowLoop
    by_cases hc : h < height
    · rw [if_pos hc,
        colLoop_eq log fuel M width height x0 y0 x1 y1 h hM hf hw fuel 0 data
          (Nat.zero_le _) (by omega)]
      have hmod : (h + 1) % 2 ^ 32 = h + 1 := Nat.mod_eq_of_lt (by omega)
      simp only [hmod]
      rw [ih (h + 1) _ hc (by omega)]
      obtain ⟨d, hd⟩ : ∃ d, height - h = d + 1 := ⟨height - h - 1, by omega⟩
      have hd2 : height - (h + 1) = d := by omega
      rw [hd, hd2, List.range'_succ, List.flatMap_cons, List.foldl_append,
        List.range_eq_range', Nat.sub_zero]
    · rw [if_neg hc]
      have : height - h = 0 := by omega
      rw [this]; rfl

/-- With dimensions and iteration bound below `2^32` and enough fuel, `mandel`
returns the fold of the contract's pixel stores over the row-major pixel list. -/
theorem mandel_eq {V : Type} (log : ℚ → V) (fuel : Nat) (data : Nat → V)
    (M width height : Nat) (x0 y0 x1 y1 : ℚ)
    (hM : M < 2 ^ 32) (hw : width < 2 ^ 32) (hh : height < 2 ^ 32)
    (hfM : M < fuel) (hfw : width < fuel) (hfh : height < fuel) :
    mandel log fuel data M width height x0 y0 x1 y1
      = some ((rowMajor width height).foldl
          (pixelStore log M width height x0 y0 x1 y1) data) := by
  unfold mandel
  rw [rowLoop_eq log fuel M width height x0 y0 x1 y1 hM hfM hw hfw hh fuel 0 data
    (Nat.zero_le _) (by omega)]
  rw [Nat.sub_zero, ← List.range_eq_range']
  rfl

/-! ## Lemmas on the cell indices and on folds of stores -/

theorem pixelIdx_lt (width height : Nat) (p : Nat × Nat)
    (hp1 : p.1 < height) (hp2 : p.2 < width) :
    p.1 * width + p.2 < height * width := by
  calc p.1 * width + p.2 < p.1 * width + width := by omega
    _ = (p.1 + 1) * width := by ring
    _ ≤ height * width := Nat.mul_le_mul_right _ hp1

theorem pixelIdx_eq (width height : Nat) (hw : width < 2 ^ 32) (hh : height < 2 ^ 32)
    (p : Nat × Nat) (hp1 : p.1 < height) (hp2 : p.2 < width) :
    pixelIdx width p = p.1 * width + p.2 := by
  unfold pixelIdx
  apply Nat.mod_eq_of_lt
  have h1 := pixelIdx_lt width height p hp1 hp2
  have h2 : height * width ≤ 2 ^ 32 * 2 ^ 32 := Nat.mul_le_mul hh.le hw.le
  have h3 : (2 : Nat) ^ 32 * 2 ^ 32 = 2 ^ 64 := by norm_num
  omega

theorem pixelIdx_inj (width height : Nat) (hw : width < 2 ^ 32) (hh : height < 2 ^ 32)
    (p q : Nat × Nat) (hp1 : p.1 < height) (hp2 : p.2 < width)
    (hq1 : q.1 < height) (hq2 : q.2 < width)
    (he : pixelIdx width p = pixelIdx width q) : p = q := by
  rw [pixelIdx_eq width height hw hh p hp1 hp2,
    pixelIdx_eq width height hw hh q hq1 hq2] at he
  have hpos : 0 < width := by omega
  have e1 : (p.1 * width + p.2) / width = p.1 := by
    rw [Nat.mul_comm, Nat.mul_add_div hpos, Nat.div_eq_of_lt hp2, Nat.add_zero]
  have e2 : (q.1 * width + q.2) / width = q.1 := by
    rw [Nat.mul_comm, Nat.mul_add_div hpos, Nat.div_eq_of_lt hq2, Nat.add_zero]
  have e3 : p.1 = q.1 := by rw [← e1, ← e2, he]
  have e4 : p.2 = q.2 := by rw [e3] at he; omega
  exact Prod.ext e3 e4

theorem mem_rowMajor (width height : Nat) (p : Nat × Nat) :
    p ∈ rowMajor width height ↔ p.1 < height ∧ p.2 < width := by
  unfold rowMajor
  simp only [List.mem_flatMap, List.mem_range, List.mem_map]
  constructor
  · rintro ⟨r, hr, c, hc, rfl⟩; exact ⟨hr, hc⟩
  · rintro ⟨h1, h2⟩; exact ⟨p.1, h1, p.2, h2, rfl⟩

theorem foldl_store_other {V α : Type} (idx : α → Nat) (val : α → V) (j : Nat) :
    ∀ (ps : List α) (data : Nat → V), (∀ q, q ∈ ps → idx q ≠ j) →
      (ps.foldl (fun d p => store d (idx p) (val p)) data) j = data j := by
  intro ps
  induction ps with
  | nil => intro data _; rfl
  | cons p ps ih =>
    intro data hne
    rw [List.foldl_cons, ih _ (fun q hq => hne q (List.mem_cons_of_mem _ hq))]
    have : j ≠ idx p := fun h => hne p (List.mem_cons_self _ _) h.symm
    simp [store, this]

theorem foldl_store_mem {V α : Type} (idx : α → Nat) (val : α → V) :
    ∀ (ps : List α) (data : Nat → V),
      (∀ p, p ∈ ps → ∀ q, q ∈ ps → idx p = idx q → val p = val q) →
      ∀ p, p ∈ ps → (ps.foldl (fun d p => store d (idx p) (val p)) data) (idx p) = val p := by
  intro ps
  induction ps with
  | nil => intro data _ p hp; cases hp
  | cons p0 ps ih =>
    intro data hcons p hp
    rw [List.foldl_cons]
    have hcons2 : ∀ a, a ∈ ps → ∀ b, b ∈ ps → idx a = idx b → val a = val b :=
      fun a ha b hb => hcons a (List.mem_cons_of_mem _ ha) b (List.mem_cons_of_mem _ hb)
    by_cases hex : ∃ q, q ∈ ps ∧ idx q = idx p
    · obtain ⟨q, hq, hqi⟩ := hex
      rw [← hqi, ih _ hcons2 q hq]
      exact hcons q (List.mem_cons_of_mem _ hq) p hp hqi
    · have hne : ∀ q, q ∈ ps → idx q ≠ idx p := fun q hq he => hex ⟨q, hq, he⟩
      rw [foldl_store_other idx val (idx p) ps _ hne]
      rcases List.mem_cons.mp hp with h | h
      · subst h; simp [store]
      · exact absurd rfl (hne p h)

end Jbcs

namespace Jbcs


/-! ## Lemmas on runs of `mandel` that return -/

theorem fillPixels_cons {V : Type} (log : ℚ → V) (fuel M width height : Nat)
    (x0 y0 x1 y1 : ℚ) (p : Nat × Nat) (ps : List (Nat × Nat)) (data : Nat → V) :
    fillPixels log fuel M width height x0 y0 x1 y1 (p :: ps) data
      = (pixelBody log fuel M width height x0 y0 x1 y1 data p.1 p.2).bind
          (fillPixels log fuel M width height x0 y0 x1 y1 ps) := by
  rw [fillPixels]
  cases pixelBody log fuel M width height x0 y0 x1 y1 data p.1 p.2 <;> rfl

theorem fillPixels_append {V : Type} (log : ℚ → V) (fuel M width height : Nat)
    (x0 y0 x1 y1 : ℚ) (a b : List (Nat × Nat)) :
    ∀ data : Nat → V,
      fillPixels log fuel M width height x0 y0 x1 y1 (a ++ b) data
        = (fillPixels log fuel M width height x0 y0 x1 y1 a data).bind
            (fillPixels log fuel M width height x0 y0 x1 y1 b) := by
  induction a with
  | nil => intro data; rfl
  | cons p ps ih =>
    intro data
    rw [List.cons_append, fillPixels_cons, fillPixels_cons]
    cases pixelBody log fuel M width height x0 y0 x1 y1 data p.1 p.2 with
    | none => rfl
    | some d1 => exact ih d1

theorem colLoop_some {V : Type} (log : ℚ → V) (fuel M width height : Nat)
    (x0 y0 x1 y1 : ℚ) (h : Nat) :
    ∀ (k w : Nat) (data d : Nat → V), w < 2 ^ 32 → w ≤ width →
      colLoop log fuel M width height x0 y0 x1 y1 h k w data = some d →
      width < 2 ^ 32 ∧
        fillPixels log fuel M width height x0 y0 x1 y1
          ((List.range' w (width - w)).map (fun c => (h, c))) data = some d := by
  intro k
  induction k with
  | zero => intro w data d _ _ hrun; cases hrun
  | succ k ih =>
    intro w data d hw32 hle hrun
    unfold colLoop at hrun
    by_cases hc : w < width
    · rw [if_pos hc] at hrun
      cases hpb : pixelBody log fuel M width height x0 y0 x1 y1 data h w with
      | none => rw [hpb] at hrun; cases hrun
      | some d1 =>
        rw [hpb] at hrun
        simp only at hrun
        by_cases hwrap : w + 1 < 2 ^ 32
        · rw [Nat.mod_eq_of_lt hwrap] at hrun
          obtain ⟨hW, hfill⟩ := ih (w + 1) d1 d hwrap hc hrun
          refine ⟨hW, ?_⟩
          obtain ⟨e, he⟩ : ∃ e, width - w = e + 1 := ⟨width - w - 1, by omega⟩
          have he2 : width - (w + 1) = e := by omega
          rw [he, List.range'_succ, List.map_cons, fillPixels_cons, hpb]
          rw [he2] at hfill
          exact hfill
        · have h0 : (w + 1) % 2 ^ 32 = 0 := by omega
          rw [h0] at hrun
          obtain ⟨hW, _⟩ := ih 0 d1 d (by norm_num) (Nat.zero_le _) hrun
          omega
    · rw [if_neg hc] at hrun
      have hd : data = d := Option.some.inj hrun
      have h0 : width - w = 0 := by omega
      refine ⟨by omega, ?_⟩
      rw [h0, hd]
      rfl

theorem rowLoop_some {V : Type} (log : ℚ → V) (fuel M width height : Nat)
    (x0 y0 x1 y1 : ℚ) :
    ∀ (k h : Nat) (data d : Nat → V), h < 2 ^ 32 → h ≤ height →
      rowLoop log fuel M width height x0 y0 x1 y1 k h data = some d →
      height < 2 ^ 32 ∧ (h < height → width < 2 ^ 32) ∧
        fillPixels log fuel M width height x0 y0 x1 y1
          ((List.range' h (height - h)).flatMap
            (fun r => (List.range width).map (fun c => (r, c)))) data = some d := by
  intro k
  induction k with
  | zero => intro h data d _ _ hrun; cases hrun
  | succ k ih =>
    intro h data d hh32 hle hrun
    unfold rowLoop at hrun
    by_cases hc : h < height
    · rw [if_pos hc] at hrun
      cases hcl : colLoop log fuel M width height x0 y0 x1 y1 h fuel 0 data with
      | none => rw [hcl] at hrun; cases hrun
      | some d1 =>
        rw [hcl] at hrun
        simp only at hrun
        obtain ⟨hW, hrow⟩ := colLoop_some log fuel M width height x0 y0 x1 y1 h fuel 0 data d1
          (by norm_num) (Nat.zero_le _) hcl
        rw [Nat.sub_zero, ← List.range_eq_range'] at hrow
        by_cases hwrap : h + 1 < 2 ^ 32
        · rw [Nat.mod_eq_of_lt hwrap] at hrun
          obtain ⟨hH, _, hfill⟩ := ih (h + 1) d1 d hwrap hc hrun
          refine ⟨hH, fun _ => hW, ?_⟩
          obtain ⟨e, he⟩ : ∃ e, height - h = e + 1 := ⟨height - h - 1, by omega⟩
          have he2 : height - (h + 1) = e := by omega
          rw [he, List.range'_succ, List.flatMap_cons, fillPixels_append, hrow]
          rw [he2] at hfill
          exact hfill
        · have h0 : (h + 1) % 2 ^ 32 = 0 := by omega
          rw [h0] at hrun
          obtain ⟨hH, _, _⟩ := ih 0 d1 d (by norm_num) (Nat.zero_le _) hrun
          omega
    · rw [if_neg hc] at hrun
      have hd : data = d := Option.some.inj hrun
      have h0 : height - h = 0 := by omega
      refine ⟨by omega, fun hlt => absurd hlt hc, ?_⟩
      rw [h0, hd]
      rfl

/-- Whenever `mandel` returns, the dimensions it ran over are below `2^32` (the
width only if there is a row) and its result is that of running the loop body
over the row-major pixel list. -/
theorem mandel_some {V : Type} (log : ℚ → V) (fuel : Nat) (data field : Nat → V)
    (M width height : Nat) (x0 y0 x1 y1 : ℚ)
    (hrun : mandel log fuel data M width height x0 y0 x1 y1 = some field) :
    height < 2 ^ 32 ∧ (0 < height → width < 2 ^ 32) ∧
      fillPixels log fuel M width height x0 y0 x1 y1 (rowMajor width height) data
        = some field := by
  unfold mandel at hrun
  have h := rowLoop_some log fuel M width height x0 y0 x1 y1 fuel 0 data field
    (by norm_num) (Nat.zero_le _) hrun
  rw [Nat.sub_zero, ← List.range_eq_range'] at h
  exact h

theorem escapeLoop_mono (M : Nat) (px py : ℚ) :
    ∀ (fuel i : Nat) (x y : ℚ) (n : Nat), escapeLoop M px py fuel i x y = some n →
      escapeLoop M px py (fuel + 1) i x y = some n := by
  intro fuel
  induction fuel with
  | zero => intro i x y n h; cases h
  | succ f ih =>
    intro i x y n h
    rw [escapeLoop] at h ⊢
    by_cases hc : i < M ∧ x * x + y * y < 4
    · rw [if_pos hc] at h ⊢
      exact ih _ _ _ _ h
    · rw [if_neg hc] at h ⊢
      exact h

theorem escapeLoop_mono_le (M : Nat) (px py : ℚ) (i : Nat) (x y : ℚ) (n : Nat) :
    ∀ (fuel fuel' : Nat), fuel ≤ fuel' → escapeLoop M px py fuel i x y = some n →
      escapeLoop M px py fuel' i x y = some n := by
  intro fuel fuel' hle h
  induction hle with
  | refl => exact h
  | step _ ih => exact escapeLoop_mono M px py _ i x y n ih

theorem escapeLoop_unique (M : Nat) (px py : ℚ) (i : Nat) (x y : ℚ) (fuel fuel' n n' : Nat)
    (h : escapeLoop M px py fuel i x y = some n)
    (h' : escapeLoop M px py fuel' i x y = some n') : n = n' := by
  rcases Nat.le_total fuel fuel' with hle | hle
  · have := escapeLoop_mono_le M px py i x y n fuel fuel' hle h
    rw [this] at h'
    exact Option.some.inj h'
  · have := escapeLoop_mono_le M px py i x y n' fuel' fuel hle h'
    rw [this] at h
    exact (Option.some.inj h).symm

theorem escapeLoopNonFinite_mono (M : Nat) :
    ∀ (fuel i : Nat) (b : Bool) (n : Nat), escapeLoopNonFinite M fuel i b = some n →
      escapeLoopNonFinite M (fuel + 1) i b = some n := by
  intro fuel
  induction fuel with
  | zero => intro i b n h; cases h
  | succ f ih =>
    intro i b n h
    rw [escapeLoopNonFinite] at h ⊢
    by_cases hc : i < M ∧ b = true
    · rw [if_pos hc] at h ⊢
      exact ih _ _ _ h
    · rw [if_neg hc] at h ⊢
      exact h

theorem pixelLoop_mono (M : Nat) (px py : Option ℚ) (fuel n : Nat)
    (h : pixelLoop fuel M px py = some n) : pixelLoop (fuel + 1) M px py = some n := by
  cases px with
  | none => exact escapeLoopNonFinite_mono M fuel 0 true n h
  | some a =>
    cases py with
    | none => exact escapeLoopNonFinite_mono M fuel 0 true n h
    | some b => exact escapeLoop_mono M a b fuel 0 0 0 n h

theorem pixelLoop_mono_le (M : Nat) (px py : Option ℚ) (n : Nat) :
    ∀ (fuel fuel' : Nat), fuel ≤ fuel' → pixelLoop fuel M px py = some n →
      pixelLoop fuel' M px py = some n := by
  intro fuel fuel' hle h
  induction hle with
  | refl => exact h
  | step _ ih => exact pixelLoop_mono M px py _ n ih

theorem pixelLoop_unique (M : Nat) (px py : Option ℚ) (fuel fuel' n n' : Nat)
    (h : pixelLoop fuel M px py = some n) (h' : pixelLoop fuel' M px py = some n') :
    n = n' := by
  rcases Nat.le_total fuel fuel' with hle | hle
  · have := pixelLoop_mono_le M px py n fuel fuel' hle h
    rw [this] at h'
    exact Option.some.inj h'
  · have := pixelLoop_mono_le M px py n' fuel' fuel hle h'
    rw [this] at h
    exact (Option.some.inj h).symm

theorem pixelBody_of_count {V : Type} (log : ℚ → V) (fuel M width height : Nat)
    (x0 y0 x1 y1 : ℚ) (data : Nat → V) (p : Nat × Nat) (i : Nat)
    (hi : pixelCount fuel M width height x0 y0 x1 y1 p = some i) :
    pixelBody log fuel M width height x0 y0 x1 y1 data p.1 p.2
      = some (codeStore log fuel M width height x0 y0 x1 y1 data p) := by
  unfold pixelCount at hi
  unfold pixelBody codeStore pixelCount
  rw [hi]
  rfl

theorem count_of_pixelBody {V : Type} (log : ℚ → V) (fuel M width height : Nat)
    (x0 y0 x1 y1 : ℚ) (data d : Nat → V) (p : Nat × Nat)
    (h : pixelBody log fuel M width height x0 y0 x1 y1 data p.1 p.2 = some d) :
    ∃ i, pixelCount fuel M width height x0 y0 x1 y1 p = some i ∧
      d = store data ((p.1 * width + p.2) % 2 ^ 64) (log (i : ℚ)) := by
  unfold pixelBody at h
  unfold pixelCount
  cases hc : pixelLoop fuel M (planeX width x0 x1 p.2) (planeY height y0 y1 p.1) with
  | none => rw [hc] at h; cases h
  | some i =>
    rw [hc] at h
    exact ⟨i, rfl, (Option.some.inj h).symm⟩

theorem fill_of_counts {V : Type} (log : ℚ → V) (fuel M width height : Nat)
    (x0 y0 x1 y1 : ℚ) (ps : List (Nat × Nat)) :
    (∀ p, p ∈ ps → ∃ i, pixelCount fuel M width height x0 y0 x1 y1 p = some i) →
    ∀ data : Nat → V,
      fillPixels log fuel M width height x0 y0 x1 y1 ps data
        = some (ps.foldl (codeStore log fuel M width height x0 y0 x1 y1) data) := by
  induction ps with
  | nil => intro _ data; rfl
  | cons p ps ih =>
    intro hall data
    obtain ⟨i, hi⟩ := hall p (List.mem_cons_self _ _)
    rw [fillPixels_cons,
      pixelBody_of_count log fuel M width height x0 y0 x1 y1 data p i hi]
    exact ih (fun q hq => hall q (List.mem_cons_of_mem _ hq)) _

theorem counts_of_fill {V : Type} (log : ℚ → V) (fuel M width height : Nat)
    (x0 y0 x1 y1 : ℚ) (ps : List (Nat × Nat)) :
    ∀ data d : Nat → V, fillPixels log fuel M width height x0 y0 x1 y1 ps data = some d →
      ∀ p, p ∈ ps → ∃ i, pixelCount fuel M width height x0 y0 x1 y1 p = some i := by
  induction ps with
  | nil => intro _ _ _ p hp; cases hp
  | cons p0 ps ih =>
    intro data d h p hp
    rw [fillPixels_cons] at h
    cases hpb : pixelBody log fuel M width height x0 y0 x1 y1 data p0.1 p0.2 with
    | none => rw [hpb] at h; cases h
    | some d1 =>
      rw [hpb] at h
      rcases List.mem_cons.mp hp with he | hmem
      · obtain ⟨i, hi, _⟩ := count_of_pixelBody log fuel M width height x0 y0 x1 y1 data d1 p0 hpb
        exact ⟨i, he ▸ hi⟩
      · exact ih d1 d h p hmem

theorem store_comm {V : Type} (data : Nat → V) (i j : Nat) (a b : V) (h : i ≠ j) :
    store (store data i a) j b = store (store data j b) i a := by
  funext k
  unfold store
  by_cases hj : k = j
  · by_cases hi : k = i
    · exact absurd (hi.symm.trans hj) h
    · simp [hj, h.symm]
  · simp [hj]

/-- On a grid whose dimensions are below `2^32`, running the loop body over a
permutation of the row-major pixel list gives the result of the row-major run. -/
theorem fillPixels_perm {V : Type} (log : ℚ → V) (fuel M width height : Nat)
    (x0 y0 x1 y1 : ℚ) (hw : width < 2 ^ 32) (hh : height < 2 ^ 32)
    (data field : Nat → V) (ps : List (Nat × Nat))
    (hperm : List.Perm ps (rowMajor width height))
    (hrun : fillPixels log fuel M width height x0 y0 x1 y1 (rowMajor width height) data
      = some field) :
    fillPixels log fuel M width height x0 y0 x1 y1 ps data = some field := by
  have hcounts := counts_of_fill log fuel M width height x0 y0 x1 y1 _ data field hrun
  rw [fill_of_counts log fuel M width height x0 y0 x1 y1 _ hcounts] at hrun
  rw [fill_of_counts log fuel M width height x0 y0 x1 y1 ps
    (fun p hp => hcounts p (hperm.subset hp)), ← hrun]
  congr 1
  apply List.Perm.foldl_eq' hperm
  intro p hp q hq d
  have hp' := (mem_rowMajor width height p).mp (hperm.subset hp)
  have hq' := (mem_rowMajor width height q).mp (hperm.subset hq)
  by_cases hpq : p = q
  · rw [hpq]
  · unfold codeStore
    apply store_comm
    intro he
    exact hpq (pixelIdx_inj width height hw hh p q hp'.1 hp'.2 hq'.1 hq'.2 he)

/-- A run of `mandel` that returns holds, in the cell of each pixel of the grid,
the contract's value of that pixel (for `max_iters < 2^32`). -/
theorem mandel_some_cell {V : Type} (log : ℚ → V) (fuel : Nat) (data field : Nat → V)
    (M width height : Nat) (x0 y0 x1 y1 : ℚ) (hM : M < 2 ^ 32) (hf : M < fuel)
    (hrun : mandel log fuel data M width height x0 y0 x1 y1 = some field)
    (row col : Nat) (hr : row < height) (hc : col < width) :
    field (row * width + col) = pixelVal log M width height x0 y0 x1 y1 (row, col) := by
  obtain ⟨hh, hw, hfill⟩ := mandel_some log fuel data field M width height x0 y0 x1 y1 hrun
  have hw := hw (by omega)
  rw [fillPixels_eq log fuel M width height x0 y0 x1 y1 hM hf] at hfill
  rw [← Option.some.inj hfill]
  have hmem : (row, col) ∈ rowMajor width height :=
    (mem_rowMajor width height (row, col)).mpr ⟨hr, hc⟩
  have hidx := pixelIdx_eq width height hw hh (row, col) hr hc
  simp only at hidx
  rw [← hidx]
  unfold pixelStore
  apply foldl_store_mem (pixelIdx width) (pixelVal log M width height x0 y0 x1 y1)
  · intro p hp q hq he
    rw [mem_rowMajor] at hp hq
    rw [pixelIdx_inj width height hw hh p q hp.1 hp.2 hq.1 hq.2 he]
  · exact hmem

/-! ## The escape-time contract -/

theorem specCount_least (M : Nat) (px py : ℚ) :
    ((∃ k, k < M ∧ 4 ≤ normSq (orbit px py k)) →
      specCount M px py < M ∧ 4 ≤ normSq (orbit px py (specCount M px py)) ∧
        ∀ j, j < specCount M px py → normSq (orbit px py j) < 4) ∧
    ((¬ ∃ k, k < M ∧ 4 ≤ normSq (orbit px py k)) → specCount M px py = M) := by
  have hle := specCount_le M px py
  constructor
  · rintro ⟨k, hk, hesc⟩
    have hlt : specCount M px py < M := by
      rcases Nat.lt_or_ge (specCount M px py) M with h | h
      · exact h
      · have := specCount_before M px py k (by omega)
        exact absurd hesc (not_le.mpr this)
    exact ⟨hlt, specCount_at M px py hlt, specCount_before M px py⟩
  · intro hno
    rcases Nat.lt_or_ge (specCount M px py) M with h | h
    · exact absurd ⟨_, h, specCount_at M px py h⟩ hno
    · omega

/-- C1: for `max_iters < 2^32` and any grid, window and pixel `(row, col)` with
plane point `c = (px, py)` (the values lines 26-27 compute for the pixel), the
inner loop of `mandel` leaves `i = n` and the body stores `log n` in
`data[row * width + col]`, where `n` is the least `k < max_iters` with
`|z_k|² ≥ 4` on the orbit `z_0 = 0`, `z_{k+1} = z_k² + c` if there is such a `k`
and `n = max_iters` otherwise; every field `mandel` returns holds `log n` in
that cell, and `mandel` does return a field when the grid dimensions are below
`2^32`. -/
theorem mandel_stores_log_of_escape_count {V : Type} (log : ℚ → V) (fuel : Nat)
    (data : Nat → V) (max_iters width height : Nat) (x0 y0 x1 y1 : ℚ) (row col : Nat)
    (px py : ℚ) (hx : planeX width x0 x1 col = some px)
    (hy : planeY height y0 y1 row = some py)
    (hM : max_iters < 2 ^ 32) (hf : max_iters < fuel) :
    ∃ n : Nat,
      ((∃ k, k < max_iters ∧ 4 ≤ normSq (orbit px py k)) →
        n < max_iters ∧ 4 ≤ normSq (orbit px py n) ∧
          ∀ j, j < n → normSq (orbit px py j) < 4) ∧
      ((¬ ∃ k, k < max_iters ∧ 4 ≤ normSq (orbit px py k)) → n = max_iters) ∧
      escapeLoop max_iters px py fuel 0 0 0 = some n ∧
      pixelBody log fuel max_iters width height x0 y0 x1 y1 data row col
        = some (store data ((row * width + col) % 2 ^ 64) (log (n : ℚ))) ∧
      (∀ field, mandel log fuel data max_iters width height x0 y0 x1 y1 = some field →
        row < height → col < width → field (row * width + col) = log (n : ℚ)) ∧
      (width < 2 ^ 32 → height < 2 ^ 32 → width < fuel → height < fuel →
        ∃ field, mandel log fuel data max_iters width height x0 y0 x1 y1 = some field) := by
  refine ⟨specCount max_iters px py, (specCount_least _ _ _).1, (specCount_least _ _ _).2,
    escapeLoop_eq _ _ _ hM fuel hf, ?_, ?_, ?_⟩
  · rw [pixelBody_eq log fuel max_iters width height x0 y0 x1 y1 data row col hM hf]
    simp only [pixelStore, pixelVal, pixelIdx, hx, hy, planeCount_some]
  · intro field hrun hr hc
    rw [mandel_some_cell log fuel data field max_iters width height x0 y0 x1 y1 hM hf hrun
      row col hr hc]
    simp only [pixelVal, hx, hy, planeCount_some]
  · intro hw hh hfw hfh
    exact ⟨_, mandel_eq log fuel data max_iters width height x0 y0 x1 y1 hM hw hh hf hfw hfh⟩

theorem mandel_stores_log_of_escape_count_witness :
    (planeX 3 (-1) 1 0 = some (-1) ∧ planeY 3 (-1) 1 0 = some (-1) ∧
      10 < 2 ^ 32 ∧ 10 < 11) ∧
    ∃ n : Nat,
      ((∃ k, k < 10 ∧ 4 ≤ normSq (orbit (-1) (-1) k)) →
        n < 10 ∧ 4 ≤ normSq (orbit (-1) (-1) n) ∧
          ∀ j, j < n → normSq (orbit (-1) (-1) j) < 4) ∧
      ((¬ ∃ k, k < 10 ∧ 4 ≤ normSq (orbit (-1) (-1) k)) → n = 10) ∧
      escapeLoop 10 (-1) (-1) 11 0 0 0 = some n ∧
      pixelBody (fun q => q) 11 10 3 3 (-1) (-1) 1 1 (fun _ => 0) 0 0
        = some (store (fun _ => 0) ((0 * 3 + 0) % 2 ^ 64) ((fun q => q) (n : ℚ))) ∧
      (∀ field, mandel (fun q => q) 11 (fun _ => 0) 10 3 3 (-1) (-1) 1 1 = some field →
        0 < 3 → 0 < 3 → field (0 * 3 + 0) = (fun q => q) (n : ℚ)) ∧
      (3 < 2 ^ 32 → 3 < 2 ^ 32 → 3 < 11 → 3 < 11 →
        ∃ field, mandel (fun q => q) 11 (fun _ => 0) 10 3 3 (-1) (-1) 1 1 = some field) :=
  ⟨⟨by decide!, by decide!, by decide, by decide⟩,
    mandel_stores_log_of_escape_count (fun q => q) 11 (fun _ => 0) 10 3 3 (-1) (-1) 1 1 0 0
      (-1) (-1) (by decide!) (by decide!) (by decide) (by decide)⟩

end Jbcs

namespace Jbcs

theorem specCount_pos (M : Nat) (px py : ℚ) (h1 : 1 ≤ M) : 1 ≤ specCount M px py := by
  by_contra hc
  have h0 : specCount M px py = 0 := by omega
  have hlt : specCount M px py < M := by omega
  have := specCount_at M px py hlt
  rw [h0] at this
  norm_num [orbit, normSq] at this

theorem planeCount_pos (M : Nat) (px py : Option ℚ) (h1 : 1 ≤ M) :
    1 ≤ planeCount M px py := by
  cases px with
  | none => exact Nat.le_min.mpr ⟨Nat.le_refl 1, h1⟩
  | some a =>
    cases py with
    | none => exact Nat.le_min.mpr ⟨Nat.le_refl 1, h1⟩
    | some b => exact specCount_pos M a b h1

theorem log_count_range (M n : Nat) (h1 : 1 ≤ n) (hn : n ≤ M) :
    Real.log 1 ≤ Real.log (((n : ℚ) : ℝ)) ∧ Real.log (((n : ℚ) : ℝ)) ≤ Real.log (M : ℝ) := by
  have hc : (((n : ℚ) : ℝ)) = (n : ℝ) := by norm_cast
  rw [hc]
  have hn1 : (1 : ℝ) ≤ (n : ℝ) := by exact_mod_cast h1
  have hnM : (n : ℝ) ≤ (M : ℝ) := by exact_mod_cast hn
  exact ⟨Real.log_le_log (by norm_num) hn1, Real.log_le_log (by linarith) hnM⟩

/-- C2: for `width ≥ 2`, `height ≥ 2` and `1 ≤ max_iters < 2^32`, with the real
logarithm for `log`: the count `n` whose logarithm the loop body stores for a
pixel satisfies `1 ≤ n ≤ max_iters`, so the stored value lies in
`[log 1, log max_iters]`; every cell `row * width + col` of a field `mandel`
returns lies in that interval, and `mandel` does return a field when the
dimensions are below `2^32`. -/
theorem mandel_cells_in_log_range (fuel max_iters width height : Nat) (x0 y0 x1 y1 : ℚ)
    (hw2 : 2 ≤ width) (hh2 : 2 ≤ height) (h1 : 1 ≤ max_iters)
    (hM : max_iters < 2 ^ 32) (hf : max_iters < fuel) :
    (∀ (data : Nat → ℝ) (row col : Nat), ∃ n : Nat, 1 ≤ n ∧ n ≤ max_iters ∧
      pixelBody (fun q => Real.log (q : ℝ)) fuel max_iters width height x0 y0 x1 y1
          data row col
        = some (store data ((row * width + col) % 2 ^ 64) (Real.log ((n : ℚ) : ℝ))) ∧
      Real.log 1 ≤ Real.log ((n : ℚ) : ℝ) ∧
      Real.log ((n : ℚ) : ℝ) ≤ Real.log (max_iters : ℝ)) ∧
    (∀ (data field : Nat → ℝ),
      mandel (fun q => Real.log (q : ℝ)) fuel data max_iters width height x0 y0 x1 y1
          = some field →
        ∀ row col, row < height → col < width →
          ∃ n : Nat, 1 ≤ n ∧ n ≤ max_iters ∧
            field (row * width + col) = Real.log ((n : ℚ) : ℝ) ∧
            Real.log 1 ≤ field (row * width + col) ∧
            field (row * width + col) ≤ Real.log (max_iters : ℝ)) ∧
    (width < 2 ^ 32 → height < 2 ^ 32 → width < fuel → height < fuel →
      ∀ data : Nat → ℝ, ∃ field,
        mandel (fun q => Real.log (q : ℝ)) fuel data max_iters width height x0 y0 x1 y1
          = some field) := by
  have _ := hw2
  have _ := hh2
  refine ⟨?_, ?_, ?_⟩
  · intro data row col
    have hp := planeCount_pos max_iters (planeX width x0 x1 col) (planeY height y0 y1 row) h1
    have hl := planeCount_le max_iters (planeX width x0 x1 col) (planeY height y0 y1 row)
    exact ⟨_, hp, hl, pixelBody_eq _ fuel max_iters width height x0 y0 x1 y1 data row col hM hf,
      log_count_range max_iters _ hp hl⟩
  · intro data field hrun row col hr hc
    rw [mandel_some_cell _ fuel data field max_iters width height x0 y0 x1 y1 hM hf hrun
      row col hr hc]
    have hp := planeCount_pos max_iters (planeX width x0 x1 col) (planeY height y0 y1 row) h1
    have hl := planeCount_le max_iters (planeX width x0 x1 col) (planeY height y0 y1 row)
    exact ⟨_, hp, hl, rfl, log_count_range max_iters _ hp hl⟩
  · intro hw hh hfw hfh data
    exact ⟨_, mandel_eq _ fuel data max_iters width height x0 y0 x1 y1 hM hw hh hf hfw hfh⟩

theorem mandel_cells_in_log_range_witness :
    (2 ≤ 3 ∧ 2 ≤ 3 ∧ 1 ≤ 10 ∧ 10 < 2 ^ 32 ∧ 10 < 11) ∧
    ((∀ (data : Nat → ℝ) (row col : Nat), ∃ n : Nat, 1 ≤ n ∧ n ≤ 10 ∧
      pixelBody (fun q => Real.log (q : ℝ)) 11 10 3 3 (-1) (-1) 1 1 data row col
        = some (store data ((row * 3 + col) % 2 ^ 64) (Real.log ((n : ℚ) : ℝ))) ∧
      Real.log 1 ≤ Real.log ((n : ℚ) : ℝ) ∧
      Real.log ((n : ℚ) : ℝ) ≤ Real.log ((10 : Nat) : ℝ)) ∧
    (∀ (data field : Nat → ℝ),
      mandel (fun q => Real.log (q : ℝ)) 11 data 10 3 3 (-1) (-1) 1 1 = some field →
        ∀ row col, row < 3 → col < 3 →
          ∃ n : Nat, 1 ≤ n ∧ n ≤ 10 ∧
            field (row * 3 + col) = Real.log ((n : ℚ) : ℝ) ∧
            Real.log 1 ≤ field (row * 3 + col) ∧
            field (row * 3 + col) ≤ Real.log ((10 : Nat) : ℝ)) ∧
    (3 < 2 ^ 32 → 3 < 2 ^ 32 → 3 < 11 → 3 < 11 →
      ∀ data : Nat → ℝ, ∃ field,
        mandel (fun q => Real.log (q : ℝ)) 11 data 10 3 3 (-1) (-1) 1 1 = some field)) :=
  ⟨by decide, mandel_cells_in_log_range 11 10 3 3 (-1) (-1) 1 1
    (by decide) (by decide) (by decide) (by decide) (by decide)⟩

end Jbcs

namespace Jbcs

/-! ## pi.c: the serial estimator -/

theorem streamHits_succ (d : Nat → ℚ) (i : Nat) :
    streamHits d (i + 1)
      = streamHits d i + (if isHit (d (2 * i), d (2 * i + 1)) then 1 else 0) := by
  unfold streamHits
  rw [List.range_succ, List.filter_append, List.length_append]
  by_cases h : isHit (d (2 * i), d (2 * i + 1)) = true
  · simp [List.filter_cons, h]
  · simp [List.filter_cons, h]

theorem streamHits_le (d : Nat → ℚ) (i : Nat) : streamHits d i ≤ i := by
  unfold streamHits
  calc ((List.range i).filter _).length ≤ (List.range i).length := List.length_filter_le _ _
    _ = i := List.length_range i

theorem streamHits_congr (d d' : Nat → ℚ) (N : Nat)
    (h : ∀ k, k < 2 * N → d' k = d k) : streamHits d' N = streamHits d N := by
  unfold streamHits
  congr 1
  apply List.filter_congr
  intro i hi
  have hi' := List.mem_range.mp hi
  rw [h (2 * i) (by omega), h (2 * i + 1) (by omega)]

theorem hitStep_stream (d : Nat → ℚ) (i : Nat) (hi : i + 1 < 2 ^ 64) :
    hitStep (streamHits d i) (d (2 * i)) (d (2 * i + 1)) = streamHits d (i + 1) := by
  have hle := streamHits_le d i
  rw [streamHits_succ]
  unfold hitStep isHit
  by_cases h : d (2 * i) * d (2 * i) + d (2 * i + 1) * d (2 * i + 1) < 1
  · simp only [h, if_true, decide_True]
    exact Nat.mod_eq_of_lt (by omega)
  · simp [h]

theorem pi_serial_loop_stream (d : Nat → ℚ) (N : Nat) (hN : N < 2 ^ 64) :
    ∀ (fuel i : Nat), i ≤ N → N - i < fuel →
      pi_serial_loop (streamDraw d) N fuel i (streamHits d i) (2 * i)
        = some (streamHits d N, 2 * N) := by
  intro fuel
  induction fuel with
  | zero => intro i _ h; omega
  | succ f ih =>
    intro i hi hf
    unfold pi_serial_loop
    by_cases hc : i < N
    · rw [if_pos hc]
      have hmod : (i + 1) % 2 ^ 64 = i + 1 := Nat.mod_eq_of_lt (by omega)
      simp only [streamDraw, hmod]
      rw [hitStep_stream d i (by omega)]
      exact ih (i + 1) hc (by omega)
    · rw [if_neg hc]
      have : i = N := by omega
      rw [this]

/-- C3: for `N ≥ 1` and every stream of draws `d 0, d 1, ...`, `pi_serial(N)`
started at the head of the stream returns `4 * hits / N`, where `hits` is the
number of `i < N` with `d(2i)² + d(2i+1)² < 1`, and leaves the stream at position
`2N`; its result is the same for any stream with the same first `2N` draws. -/
theorem pi_serial_consumes_2N_draws (d : Nat → ℚ) (fuel N : Nat)
    (hN1 : 1 ≤ N) (hN : N < 2 ^ 64) (hf : N < fuel) :
    pi_serial (streamDraw d) fuel N 0
        = some (4 * (streamHits d N : ℚ) / (N : ℚ), 2 * N) ∧
      streamHits d N
        = ((List.range N).filter
            (fun i => decide (d (2 * i) * d (2 * i) + d (2 * i + 1) * d (2 * i + 1) < 1))).length ∧
      ∀ d' : Nat → ℚ, (∀ k, k < 2 * N → d' k = d k) →
        pi_serial (streamDraw d') fuel N 0 = pi_serial (streamDraw d) fuel N 0 := by
  have _ := hN1
  have key : ∀ e : Nat → ℚ, pi_serial (streamDraw e) fuel N 0
      = some (4 * (streamHits e N : ℚ) / (N : ℚ), 2 * N) := by
    intro e
    have h := pi_serial_loop_stream e N hN fuel 0 (Nat.zero_le _) (by omega)
    have h0 : streamHits e 0 = 0 := rfl
    rw [h0] at h
    unfold pi_serial
    rw [h]
  refine ⟨key d, rfl, ?_⟩
  intro d' hd
  rw [key d', key d, streamHits_congr d d' N hd]

theorem pi_serial_consumes_2N_draws_witness :
    (1 ≤ 2 ∧ 2 < 2 ^ 64 ∧ 2 < 3) ∧
    (pi_serial (streamDraw (fun k => if k = 2 then 1 else 1 / 2)) 3 2 0
        = some (4 * (streamHits (fun k => if k = 2 then 1 else 1 / 2) 2 : ℚ) / ((2 : Nat) : ℚ),
            2 * 2) ∧
      streamHits (fun k => if k = 2 then 1 else 1 / 2) 2
        = ((List.range 2).filter
            (fun i => decide
              ((fun k => if k = 2 then (1 : ℚ) else 1 / 2) (2 * i)
                  * (fun k => if k = 2 then (1 : ℚ) else 1 / 2) (2 * i)
                + (fun k => if k = 2 then (1 : ℚ) else 1 / 2) (2 * i + 1)
                  * (fun k => if k = 2 then (1 : ℚ) else 1 / 2) (2 * i + 1) < 1))).length ∧
      ∀ d' : Nat → ℚ, (∀ k, k < 2 * 2 → d' k = (fun k => if k = 2 then 1 else 1 / 2) k) →
        pi_serial (streamDraw d') 3 2 0
          = pi_serial (streamDraw (fun k => if k = 2 then 1 else 1 / 2)) 3 2 0) :=
  ⟨by decide, pi_serial_consumes_2N_draws (fun k => if k = 2 then 1 else 1 / 2) 3 2
    (by decide) (by decide) (by decide)⟩

end Jbcs

namespace Jbcs

/-! ## pi.c: the hit counter and its reduction -/

theorem foldl_hitStep (samples : List (ℚ × ℚ)) :
    ∀ hits : Nat, hits < 2 ^ 64 →
      samples.foldl (fun hits p => hitStep hits p.1 p.2) hits
        = (hits + samples.countP isHit) % 2 ^ 64 := by
  induction samples with
  | nil =>
    intro hits hh
    simp only [List.foldl_nil, List.countP_nil, Nat.add_zero]
    exact (Nat.mod_eq_of_lt hh).symm
  | cons p ps ih =>
    intro hits hh
    rw [List.foldl_cons]
    by_cases h : p.1 * p.1 + p.2 * p.2 < 1
    · have h1 : hitStep hits p.1 p.2 = (hits + 1) % 2 ^ 64 := by simp [hitStep, h]
      have h2 : isHit p = true := by simp [isHit, h]
      rw [h1, ih _ (Nat.mod_lt _ (by norm_num)), List.countP_cons_of_pos _ _ h2]
      omega
    · have h1 : hitStep hits p.1 p.2 = hits := by simp [hitStep, h]
      have h2 : ¬ isHit p = true := by simp [isHit, h]
      rw [h1, ih _ hh, List.countP_cons_of_neg _ _ h2]

theorem countHits_eq (samples : List (ℚ × ℚ)) :
    countHits samples = samples.countP isHit % 2 ^ 64 := by
  unfold countHits
  rw [foldl_hitStep samples 0 (by norm_num), Nat.zero_add]

theorem reduceSum_eq (shares : List Nat) :
    ∀ init : Nat, init < 2 ^ 64 → reduceSum init shares = (init + shares.sum) % 2 ^ 64 := by
  induction shares with
  | nil =>
    intro init hi
    simp only [reduceSum, List.foldl_nil, List.sum_nil, Nat.add_zero]
    exact (Nat.mod_eq_of_lt hi).symm
  | cons c cs ih =>
    intro init hi
    have hstep : reduceSum init (c :: cs) = reduceSum ((init + c) % 2 ^ 64) cs := rfl
    rw [hstep, ih _ (Nat.mod_lt _ (by norm_num)), List.sum_cons]
    omega

theorem sumTree_eval_mod (t : SumTree) : t.eval % 2 ^ 64 = t.leaves.sum % 2 ^ 64 := by
  induction t with
  | leaf c => simp [SumTree.eval, SumTree.leaves]
  | node l r ihl ihr =>
    simp only [SumTree.eval, SumTree.leaves, List.sum_append]
    omega

theorem sum_countHits_mod (parts : List (List (ℚ × ℚ))) :
    (parts.map countHits).sum % 2 ^ 64 = countHits parts.flatten := by
  rw [countHits_eq, List.countP_flatten]
  induction parts with
  | nil => rfl
  | cons p ps ih =>
    simp only [List.map_cons, List.sum_cons] at ih ⊢
    rw [countHits_eq]
    omega

/-- C4: the hit count is additive over any split of the samples into consecutive
sub-ranges: whatever the order or bracketing in which the reduction adds the
per-range counts computed by the loop body, the total is the hit count of the
undivided range. -/
theorem hit_count_additive_over_splits (samples : List (ℚ × ℚ))
    (parts : List (List (ℚ × ℚ))) (hsplit : parts.flatten = samples) :
    (∀ order : List Nat, List.Perm order (parts.map countHits) →
      reduceSum 0 order = countHits samples) ∧
    (∀ t : SumTree, List.Perm t.leaves (parts.map countHits) →
      (0 + t.eval) % 2 ^ 64 = countHits samples) := by
  subst hsplit
  constructor
  · intro order hperm
    rw [reduceSum_eq order 0 (by norm_num), Nat.zero_add, hperm.sum_eq, sum_countHits_mod]
  · intro t hperm
    rw [Nat.zero_add, sumTree_eval_mod, hperm.sum_eq, sum_countHits_mod]

theorem hit_count_additive_over_splits_witness :
    ([[((1 : ℚ) / 2, (1 : ℚ) / 2)], [], [(1, 1), (0, 0)]].flatten
        = [((1 : ℚ) / 2, (1 : ℚ) / 2), (1, 1), (0, 0)]) ∧
    ((∀ order : List Nat,
        List.Perm order
          ([[((1 : ℚ) / 2, (1 : ℚ) / 2)], [], [(1, 1), (0, 0)]].map countHits) →
        reduceSum 0 order = countHits [((1 : ℚ) / 2, (1 : ℚ) / 2), (1, 1), (0, 0)]) ∧
      (∀ t : SumTree,
        List.Perm t.leaves
          ([[((1 : ℚ) / 2, (1 : ℚ) / 2)], [], [(1, 1), (0, 0)]].map countHits) →
        (0 + t.eval) % 2 ^ 64 = countHits [((1 : ℚ) / 2, (1 : ℚ) / 2), (1, 1), (0, 0)])) :=
  ⟨rfl, hit_count_additive_over_splits _ _ rfl⟩

/-! ## pi.c: the isolated-stream strategy -/

theorem workerLoad_cons (ik : Nat × Nat) (rest : List (Nat × Nat)) (k : Nat) :
    workerLoad (ik :: rest) k = workerLoad rest k + (if k = ik.2 then 1 else 0) := by
  unfold workerLoad
  rw [List.countP_cons]
  by_cases h : k = ik.2
  · simp [h]
  · have : ¬ ik.2 = k := fun e => h e.symm
    simp [h, this]

theorem omp2Exec_worker {σ : Type} (drand48_r : σ → ℚ × σ) (sched : List (Nat × Nat)) :
    ∀ (ws : Nat → σ × Nat) (k : Nat),
      omp2Exec drand48_r sched ws k = (omp2Body drand48_r)^[workerLoad sched k] (ws k) := by
  induction sched with
  | nil => intro ws k; rfl
  | cons ik rest ih =>
    intro ws k
    unfold omp2Exec
    rw [ih, workerLoad_cons]
    by_cases h : k = ik.2
    · simp only [h, if_true, Function.iterate_succ_apply]
    · simp only [h, if_false, Nat.add_zero]

theorem omp2_worker_hits {σ : Type} (srand48_r : Nat → σ) (drand48_r : σ → ℚ × σ)
    (seed : Nat) (sched : List (Nat × Nat)) (k : Nat) :
    (omp2Exec drand48_r sched (omp2Init srand48_r seed) k).2
      = workerHits srand48_r drand48_r ((seed + k) % 2 ^ 64) (workerLoad sched k) := by
  rw [omp2Exec_worker]
  rfl

end Jbcs

namespace Jbcs

/-- C5: in `pi_omp2` the private hit count of worker `k` is
`workerHits (seed + k) (number of iterations it runs)`, whatever loop indices it
is given and however the iterations of the workers interleave; hence two runs
with the same base seed and worker count that give every worker the same number
of iterations reduce to the same hit count and return the same estimate. -/
theorem pi_omp2_independent_of_schedule {σ : Type} (srand48_r : Nat → σ)
    (drand48_r : σ → ℚ × σ) (seed T N : Nat) (sched1 sched2 : List (Nat × Nat))
    (hload : ∀ k, k < T → workerLoad sched1 k = workerLoad sched2 k) :
    (∀ (sched : List (Nat × Nat)) (k : Nat),
      (omp2Exec drand48_r sched (omp2Init srand48_r seed) k).2
        = workerHits srand48_r drand48_r ((seed + k) % 2 ^ 64) (workerLoad sched k)) ∧
    (∀ k, k < T →
      (omp2Exec drand48_r sched1 (omp2Init srand48_r seed) k).2
        = (omp2Exec drand48_r sched2 (omp2Init srand48_r seed) k).2) ∧
    omp2Hits srand48_r drand48_r seed T sched1 = omp2Hits srand48_r drand48_r seed T sched2 ∧
    pi_omp2 srand48_r drand48_r seed T N sched1
      = pi_omp2 srand48_r drand48_r seed T N sched2 := by
  have hw : ∀ k, k < T →
      (omp2Exec drand48_r sched1 (omp2Init srand48_r seed) k).2
        = (omp2Exec drand48_r sched2 (omp2Init srand48_r seed) k).2 := by
    intro k hk
    rw [omp2_worker_hits, omp2_worker_hits, hload k hk]
  have hh : omp2Hits srand48_r drand48_r seed T sched1
      = omp2Hits srand48_r drand48_r seed T sched2 := by
    unfold omp2Hits
    congr 1
    apply List.map_congr_left
    intro k hk
    exact hw k (List.mem_range.mp hk)
  refine ⟨fun sched k => omp2_worker_hits srand48_r drand48_r seed sched k, hw, hh, ?_⟩
  unfold pi_omp2
  rw [hh]

theorem pi_omp2_independent_of_schedule_witness :
    (∀ k, k < 2 → workerLoad [(0, 0), (1, 1), (2, 0)] k = workerLoad [(2, 1), (0, 0), (1, 0)] k) ∧
    ((∀ (sched : List (Nat × Nat)) (k : Nat),
      (omp2Exec (fun s : Nat => (((s % 4 : Nat) : ℚ) / 4, s + 1)) sched
          (omp2Init (fun s : Nat => s) 7) k).2
        = workerHits (fun s : Nat => s) (fun s : Nat => (((s % 4 : Nat) : ℚ) / 4, s + 1))
            ((7 + k) % 2 ^ 64) (workerLoad sched k)) ∧
    (∀ k, k < 2 →
      (omp2Exec (fun s : Nat => (((s % 4 : Nat) : ℚ) / 4, s + 1)) [(0, 0), (1, 1), (2, 0)]
          (omp2Init (fun s : Nat => s) 7) k).2
        = (omp2Exec (fun s : Nat => (((s % 4 : Nat) : ℚ) / 4, s + 1)) [(2, 1), (0, 0), (1, 0)]
            (omp2Init (fun s : Nat => s) 7) k).2) ∧
    omp2Hits (fun s : Nat => s) (fun s : Nat => (((s % 4 : Nat) : ℚ) / 4, s + 1)) 7 2
        [(0, 0), (1, 1), (2, 0)]
      = omp2Hits (fun s : Nat => s) (fun s : Nat => (((s % 4 : Nat) : ℚ) / 4, s + 1)) 7 2
        [(2, 1), (0, 0), (1, 0)] ∧
    pi_omp2 (fun s : Nat => s) (fun s : Nat => (((s % 4 : Nat) : ℚ) / 4, s + 1)) 7 2 3
        [(0, 0), (1, 1), (2, 0)]
      = pi_omp2 (fun s : Nat => s) (fun s : Nat => (((s % 4 : Nat) : ℚ) / 4, s + 1)) 7 2 3
        [(2, 1), (0, 0), (1, 0)]) :=
  ⟨by decide, pi_omp2_independent_of_schedule (fun s : Nat => s)
    (fun s : Nat => (((s % 4 : Nat) : ℚ) / 4, s + 1)) 7 2 3
    [(0, 0), (1, 1), (2, 0)] [(2, 1), (0, 0), (1, 0)] (by decide)⟩

/-! ## mandel.c: independence of the pixel order -/

/-- C6: the value the loop body stores for pixel `(row, col)` does not depend on
the contents of `data` (nor on the fuel) and, for `max_iters < 2^32`, is
`pixelVal`, a function of `max_iters`, the grid, the window and the pixel alone
(the logarithm of the escape count of the pixel's plane point, and `log 1` or
`log 0` where a division by `0.0` leaves no finite plane point);
whenever the serial row-major double loop of `mandel` returns a field, distinct
pixels of the grid have distinct cell indices and running the body over any
permutation of the pixel set returns that very field; and `mandel` does return a
field when the dimensions and `max_iters` are below `2^32`. -/
theorem mandel_independent_of_pixel_order {V : Type} (log : ℚ → V)
    (max_iters width height : Nat) (x0 y0 x1 y1 : ℚ) :
    (∀ (fuel fuel' : Nat) (data data' d d' : Nat → V) (row col : Nat),
      pixelBody log fuel max_iters width height x0 y0 x1 y1 data row col = some d →
      pixelBody log fuel' max_iters width height x0 y0 x1 y1 data' row col = some d' →
      ∃ v, d = store data ((row * width + col) % 2 ^ 64) v ∧
        d' = store data' ((row * width + col) % 2 ^ 64) v) ∧
    (max_iters < 2 ^ 32 → ∀ (fuel : Nat) (data : Nat → V) (row col : Nat), max_iters < fuel →
      pixelBody log fuel max_iters width height x0 y0 x1 y1 data row col
        = some (store data ((row * width + col) % 2 ^ 64)
            (pixelVal log max_iters width height x0 y0 x1 y1 (row, col)))) ∧
    (∀ (fuel : Nat) (data field : Nat → V),
      mandel log fuel data max_iters width height x0 y0 x1 y1 = some field →
      (∀ r1 c1 r2 c2 : Nat, r1 < height → c1 < width → r2 < height → c2 < width →
        (r1, c1) ≠ (r2, c2) →
        (r1 * width + c1) % 2 ^ 64 ≠ (r2 * width + c2) % 2 ^ 64) ∧
      ∀ ps : List (Nat × Nat), List.Perm ps (rowMajor width height) →
        fillPixels log fuel max_iters width height x0 y0 x1 y1 ps data = some field) ∧
    (max_iters < 2 ^ 32 → width < 2 ^ 32 → height < 2 ^ 32 →
      ∀ (fuel : Nat) (data : Nat → V), max_iters < fuel → width < fuel → height < fuel →
        ∃ field, mandel log fuel data max_iters width height x0 y0 x1 y1 = some field) := by
  refine ⟨?_, ?_, ?_, ?_⟩
  · intro fuel fuel' data data' d d' row col h h'
    obtain ⟨i, hi, hd⟩ :=
      count_of_pixelBody log fuel max_iters width height x0 y0 x1 y1 data d (row, col) h
    obtain ⟨i', hi', hd'⟩ :=
      count_of_pixelBody log fuel' max_iters width height x0 y0 x1 y1 data' d' (row, col) h'
    have hii : i = i' := pixelLoop_unique _ _ _ _ _ _ _ hi hi'
    exact ⟨log (i : ℚ), hd, hii ▸ hd'⟩
  · intro hM fuel data row col hf
    exact pixelBody_eq log fuel max_iters width height x0 y0 x1 y1 data row col hM hf
  · intro fuel data field hrun
    obtain ⟨hh, hw, hfill⟩ :=
      mandel_some log fuel data field max_iters width height x0 y0 x1 y1 hrun
    constructor
    · intro r1 c1 r2 c2 h1 h2 h3 h4 hne he
      exact hne (pixelIdx_inj width height (hw (by omega)) hh (r1, c1) (r2, c2) h1 h2 h3 h4 he)
    · intro ps hperm
      rcases Nat.eq_zero_or_pos height with h0 | hpos
      · subst h0
        have hnil : rowMajor width 0 = [] := rfl
        rw [hnil] at hperm hfill
        rw [List.Perm.eq_nil hperm]
        exact hfill
      · exact fillPixels_perm log fuel max_iters width height x0 y0 x1 y1 (hw hpos) hh
          data field ps hperm hfill
  · intro hM hw hh fuel data hfM hfw hfh
    exact ⟨_, mandel_eq log fuel data max_iters width height x0 y0 x1 y1 hM hw hh hfM hfw hfh⟩

end Jbcs

namespace Jbcs

/-! ## mandel.c: the pixel-to-plane map and single points -/

theorem sizePred_wrap (n : Nat) : sizePred n = (n + (2 ^ 64 - 1)) % 2 ^ 64 := by
  unfold sizePred
  split <;> omega

theorem sizePred_eq (n : Nat) (h1 : 1 ≤ n) (h : n < 2 ^ 64) : sizePred n = n - 1 := by
  unfold sizePred
  rw [if_neg (by omega)]
  exact Nat.mod_eq_of_lt (by omega)

theorem planeX_of_ne_zero (width : Nat) (x0 x1 : ℚ) (w : Nat) (h : sizePred width ≠ 0) :
    planeX width x0 x1 w = some (((x1 - x0) / (sizePred width : ℚ)) * (w : ℚ) + x0) := by
  unfold planeX
  rw [if_neg h]

theorem planeY_of_ne_zero (height : Nat) (y0 y1 : ℚ) (r : Nat) (h : sizePred height ≠ 0) :
    planeY height y0 y1 r = some (((y1 - y0) / (sizePred height : ℚ)) * (r : ℚ) + y0) := by
  unfold planeY
  rw [if_neg h]

/-- For `width = 1` line 26 divides by `0.0`: there is no finite plane point, the
inner loop runs its body once (if `max_iters ≥ 1`) and is left with `i = 1`. -/
theorem pixelCount_width_one (fuel M height : Nat) (x0 y0 x1 y1 : ℚ) (p : Nat × Nat)
    (hf : M < fuel) :
    planeX 1 x0 x1 p.2 = none ∧
      pixelCount fuel M 1 height x0 y0 x1 y1 p = some (min 1 M) := by
  have hx : planeX 1 x0 x1 p.2 = none := by
    unfold planeX
    rw [if_pos (by decide)]
  refine ⟨hx, ?_⟩
  unfold pixelCount
  rw [hx]
  exact escapeLoopNonFinite_eq M fuel hf

theorem sizePred_ne_zero (n : Nat) (h2 : 2 ≤ n) (h : n < 2 ^ 64) : sizePred n ≠ 0 := by
  rw [sizePred_eq n (by omega) h]
  omega

theorem sizePred_cast (n : Nat) (h2 : 2 ≤ n) (h : n < 2 ^ 64) :
    ((sizePred n : Nat) : ℚ) = (n : ℚ) - 1 ∧ ((sizePred n : Nat) : ℚ) ≠ 0 := by
  rw [sizePred_eq n (by omega) h]
  have hc : ((n - 1 : Nat) : ℚ) = (n : ℚ) - 1 := by
    rw [Nat.cast_sub (by omega)]; norm_num
  refine ⟨hc, ?_⟩
  have : (0 : ℚ) < ((n - 1 : Nat) : ℚ) := by
    have : 0 < n - 1 := by omega
    exact_mod_cast this
  exact ne_of_gt this

/-- C7: for `width ≥ 2` and `height ≥ 2` the pixel-to-plane map of `mandel` is
`px = x0 + (x1 - x0) / (width - 1) * col`, `py = y0 + (y1 - y0) / (height - 1) * row`;
it sends pixel `(0, 0)` to `(x0, y0)` and pixel `(height - 1, width - 1)` to
`(x1, y1)`, and it is the plane point the loop body iterates on. -/
theorem pixel_to_plane_is_linear (width height : Nat) (x0 y0 x1 y1 : ℚ)
    (hw2 : 2 ≤ width) (hh2 : 2 ≤ height) (hw : width < 2 ^ 64) (hh : height < 2 ^ 64) :
    (∀ col : Nat,
      planeX width x0 x1 col = some (x0 + (x1 - x0) / ((width : ℚ) - 1) * (col : ℚ))) ∧
    (∀ row : Nat,
      planeY height y0 y1 row = some (y0 + (y1 - y0) / ((height : ℚ) - 1) * (row : ℚ))) ∧
    planeX width x0 x1 0 = some x0 ∧ planeY height y0 y1 0 = some y0 ∧
    planeX width x0 x1 (width - 1) = some x1 ∧ planeY height y0 y1 (height - 1) = some y1 ∧
    (∀ (fuel max_iters : Nat) (data : Nat → ℚ) (row col : Nat),
      pixelBody (fun q => q) fuel max_iters width height x0 y0 x1 y1 data row col
        = (escapeLoop max_iters (x0 + (x1 - x0) / ((width : ℚ) - 1) * (col : ℚ))
            (y0 + (y1 - y0) / ((height : ℚ) - 1) * (row : ℚ)) fuel 0 0 0).map
            (fun i => store data ((row * width + col) % 2 ^ 64) (i : ℚ))) := by
  obtain ⟨hcw, hnw⟩ := sizePred_cast width hw2 hw
  obtain ⟨hch, hnh⟩ := sizePred_cast height hh2 hh
  have hzw := sizePred_ne_zero width hw2 hw
  have hzh := sizePred_ne_zero height hh2 hh
  have hX : ∀ col : Nat,
      planeX width x0 x1 col = some (x0 + (x1 - x0) / ((width : ℚ) - 1) * (col : ℚ)) := by
    intro col; rw [planeX_of_ne_zero width x0 x1 col hzw, hcw]; congr 1; ring
  have hY : ∀ row : Nat,
      planeY height y0 y1 row = some (y0 + (y1 - y0) / ((height : ℚ) - 1) * (row : ℚ)) := by
    intro row; rw [planeY_of_ne_zero height y0 y1 row hzh, hch]; congr 1; ring
  refine ⟨hX, hY, ?_, ?_, ?_, ?_, ?_⟩
  · rw [planeX_of_ne_zero width x0 x1 0 hzw]; congr 1; simp
  · rw [planeY_of_ne_zero height y0 y1 0 hzh]; congr 1; simp
  · rw [planeX_of_ne_zero width x0 x1 (width - 1) hzw]; congr 1
    rw [← sizePred_eq width (by omega) hw, div_mul_cancel₀ _ hnw]; ring
  · rw [planeY_of_ne_zero height y0 y1 (height - 1) hzh]; congr 1
    rw [← sizePred_eq height (by omega) hh, div_mul_cancel₀ _ hnh]; ring
  · intro fuel max_iters data row col
    unfold pixelBody
    rw [hX col, hY row, pixelLoop_some]
    cases escapeLoop max_iters (x0 + (x1 - x0) / ((width : ℚ) - 1) * (col : ℚ))
      (y0 + (y1 - y0) / ((height : ℚ) - 1) * (row : ℚ)) fuel 0 0 0 <;> rfl

theorem pixel_to_plane_is_linear_witness :
    (2 ≤ 3 ∧ 2 ≤ 5 ∧ 3 < 2 ^ 64 ∧ 5 < 2 ^ 64) ∧
    ((∀ col : Nat,
      planeX 3 (-1) 1 col = some (-1 + (1 - (-1)) / (((3 : Nat) : ℚ) - 1) * (col : ℚ))) ∧
    (∀ row : Nat,
      planeY 5 (-2) 2 row = some (-2 + (2 - (-2)) / (((5 : Nat) : ℚ) - 1) * (row : ℚ))) ∧
    planeX 3 (-1) 1 0 = some (-1) ∧ planeY 5 (-2) 2 0 = some (-2) ∧
    planeX 3 (-1) 1 (3 - 1) = some 1 ∧ planeY 5 (-2) 2 (5 - 1) = some 2 ∧
    (∀ (fuel max_iters : Nat) (data : Nat → ℚ) (row col : Nat),
      pixelBody (fun q => q) fuel max_iters 3 5 (-1) (-2) 1 2 data row col
        = (escapeLoop max_iters (-1 + (1 - (-1)) / (((3 : Nat) : ℚ) - 1) * (col : ℚ))
            (-2 + (2 - (-2)) / (((5 : Nat) : ℚ) - 1) * (row : ℚ)) fuel 0 0 0).map
            (fun i => store data ((row * 3 + col) % 2 ^ 64) (i : ℚ)))) :=
  ⟨by decide, pixel_to_plane_is_linear 3 5 (-1) (-2) 1 2
    (by decide) (by decide) (by decide) (by decide)⟩

theorem orbit_origin (k : Nat) : orbit 0 0 k = (0, 0) := by
  induction k with
  | zero => rfl
  | succ k ih => rw [orbit, ih]; simp [orbitStep]

theorem specCount_origin (M : Nat) : specCount M 0 0 = M := by
  apply specCount_eq M 0 0 M (le_refl _)
  · intro j _; rw [orbit_origin]; norm_num [normSq]
  · intro h; exact absurd h (lt_irrefl _)

/-- C8: the point `c = 0` never escapes: for `1 ≤ max_iters < 2^32` the inner loop
on the plane point `(0, 0)` is left with `n = max_iters`, so a pixel that maps to
`(0, 0)` gets the value `log max_iters`; the centre pixel of the 3 by 3 grid over
the window `(-1, -1, 1, 1)` is such a pixel, and cell `4` of the field `mandel`
returns for that grid is `log max_iters`. -/
theorem origin_never_escapes {V : Type} (log : ℚ → V) (fuel max_iters : Nat)
    (h1 : 1 ≤ max_iters) (hM : max_iters < 2 ^ 32) (hf : max_iters < fuel) :
    escapeLoop max_iters 0 0 fuel 0 0 0 = some max_iters ∧
    (∀ (width height : Nat) (x0 y0 x1 y1 : ℚ) (data : Nat → V) (row col : Nat),
      planeX width x0 x1 col = some 0 → planeY height y0 y1 row = some 0 →
      pixelBody log fuel max_iters width height x0 y0 x1 y1 data row col
        = some (store data ((row * width + col) % 2 ^ 64) (log (max_iters : ℚ)))) ∧
    (planeX 3 (-1) 1 1 = some 0 ∧ planeY 3 (-1) 1 1 = some 0) ∧
    (3 < fuel → ∀ data : Nat → V,
      ∃ field, mandel log fuel data max_iters 3 3 (-1) (-1) 1 1 = some field ∧
        field 4 = log (max_iters : ℚ)) := by
  have _ := h1
  have hc : planeX 3 (-1) 1 1 = some 0 ∧ planeY 3 (-1) 1 1 = some 0 :=
    ⟨by decide!, by decide!⟩
  have he : escapeLoop max_iters 0 0 fuel 0 0 0 = some max_iters := by
    rw [escapeLoop_eq max_iters 0 0 hM fuel hf, specCount_origin]
  refine ⟨he, ?_, hc, ?_⟩
  · intro width height x0 y0 x1 y1 data row col hx hy
    unfold pixelBody
    rw [hx, hy, pixelLoop_some, he]
  · intro hf3 data
    have hrun := mandel_eq log fuel data max_iters 3 3 (-1) (-1) 1 1 hM
      (by norm_num) (by norm_num) hf hf3 hf3
    refine ⟨_, hrun, ?_⟩
    have hcell := mandel_some_cell log fuel data _ max_iters 3 3 (-1) (-1) 1 1 hM hf hrun
      1 1 (by norm_num) (by norm_num)
    have h4 : 1 * 3 + 1 = 4 := rfl
    rw [h4] at hcell
    rw [hcell]
    unfold pixelVal
    simp only
    rw [hc.1, hc.2, planeCount_some, specCount_origin]

theorem origin_never_escapes_witness :
    (1 ≤ 10 ∧ 10 < 2 ^ 32 ∧ 10 < 11) ∧
    (escapeLoop 10 0 0 11 0 0 0 = some 10 ∧
    (∀ (width height : Nat) (x0 y0 x1 y1 : ℚ) (data : Nat → ℚ) (row col : Nat),
      planeX width x0 x1 col = some 0 → planeY height y0 y1 row = some 0 →
      pixelBody (fun q => q) 11 10 width height x0 y0 x1 y1 data row col
        = some (store data ((row * width + col) % 2 ^ 64) ((fun q => q) ((10 : Nat) : ℚ)))) ∧
    (planeX 3 (-1) 1 1 = some 0 ∧ planeY 3 (-1) 1 1 = some 0) ∧
    (3 < 11 → ∀ data : Nat → ℚ,
      ∃ field, mandel (fun q => q) 11 data 10 3 3 (-1) (-1) 1 1 = some field ∧
        field 4 = (fun q => q) ((10 : Nat) : ℚ))) :=
  ⟨by decide, origin_never_escapes (fun q => q) 11 10 (by decide) (by decide) (by decide)⟩

end Jbcs

namespace Jbcs

theorem escapeLoop_far (M : Nat) (px py : ℚ) (h1 : 1 ≤ M) (hfar : 4 ≤ px * px + py * py)
    (fuel : Nat) (hf : 2 ≤ fuel) : escapeLoop M px py fuel 0 0 0 = some 1 := by
  obtain ⟨f, rfl⟩ : ∃ f, fuel = f + 2 := ⟨fuel - 2, by omega⟩
  have hstep : escapeLoop M px py (f + 2) 0 0 0 = escapeLoop M px py (f + 1) 1 px py := by
    rw [escapeLoop]
    have hc : 0 < M ∧ (0 : ℚ) * 0 + 0 * 0 < 4 := ⟨by omega, by norm_num⟩
    rw [if_pos hc]
    norm_num
  rw [hstep, escapeLoop]
  have hn : ¬ (1 < M ∧ px * px + py * py < 4) := fun h => absurd hfar (not_le.mpr h.2)
  rw [if_neg hn]

/-- C9: a point far outside the set escapes within 2 iterations: for
`max_iters ≥ 1` and a plane point with `px² + py² ≥ 4`, such as `(3, 3)`, the inner
loop runs once from `z = 0`, reaches `z = c` and is left with `n = 1 ≤ 2`, and the
body stores `log 1` for a pixel that maps to such a point. -/
theorem far_point_escapes_within_two {V : Type} (log : ℚ → V) (fuel max_iters : Nat)
    (px py : ℚ) (h1 : 1 ≤ max_iters) (hfar : 4 ≤ px * px + py * py) (hf : 2 ≤ fuel) :
    (∃ n : Nat, escapeLoop max_iters px py fuel 0 0 0 = some n ∧ n = 1 ∧ n ≤ 2) ∧
    escapeLoop max_iters 3 3 fuel 0 0 0 = some 1 ∧
    orbit px py 1 = (px, py) ∧
    (∀ (width height : Nat) (x0 y0 x1 y1 : ℚ) (data : Nat → V) (row col : Nat),
      planeX width x0 x1 col = some px → planeY height y0 y1 row = some py →
      pixelBody log fuel max_iters width height x0 y0 x1 y1 data row col
        = some (store data ((row * width + col) % 2 ^ 64) (log ((1 : Nat) : ℚ)))) := by
  have he := escapeLoop_far max_iters px py h1 hfar fuel hf
  refine ⟨⟨1, he, rfl, by norm_num⟩,
    escapeLoop_far max_iters 3 3 h1 (by norm_num) fuel hf, ?_, ?_⟩
  · simp [orbit, orbitStep]
  · intro width height x0 y0 x1 y1 data row col hx hy
    unfold pixelBody
    rw [hx, hy, pixelLoop_some, he]

theorem far_point_escapes_within_two_witness :
    (1 ≤ 1000 ∧ (4 : ℚ) ≤ 3 * 3 + 3 * 3 ∧ 2 ≤ 1001) ∧
    ((∃ n : Nat, escapeLoop 1000 3 3 1001 0 0 0 = some n ∧ n = 1 ∧ n ≤ 2) ∧
    escapeLoop 1000 3 3 1001 0 0 0 = some 1 ∧
    orbit 3 3 1 = (3, 3) ∧
    (∀ (width height : Nat) (x0 y0 x1 y1 : ℚ) (data : Nat → ℚ) (row col : Nat),
      planeX width x0 x1 col = some 3 → planeY height y0 y1 row = some 3 →
      pixelBody (fun q => q) 1001 1000 width height x0 y0 x1 y1 data row col
        = some (store data ((row * width + col) % 2 ^ 64) ((fun q => q) ((1 : Nat) : ℚ))))) :=
  ⟨⟨by decide, by norm_num, by decide⟩,
    far_point_escapes_within_two (fun q => q) 1001 1000 3 3 (by decide) (by norm_num)
      (by decide)⟩

/-! ## mandel.c: the 3 by 3 scenario -/

/-- C10: for `width = 3`, `height = 3`, `max_iters = 10` and the window
`(-1, -1, 1, 1)` the pixels map, in row-major order, to the nine points with
`px, py ∈ {-1, 0, 1}` (row 0 is `py = -1`), and `mandel` returns the field whose
cells `0..8` are the logarithms of the counts `3, 10, 2, 10, 10, 2, 3, 10, 2`. -/
theorem mandel_3x3_scenario {V : Type} (log : ℚ → V) (fuel : Nat) (data : Nat → V)
    (hf : 10 < fuel) :
    (rowMajor 3 3).map (fun p => (planeX 3 (-1) 1 p.2, planeY 3 (-1) 1 p.1))
      = [(some (-1), some (-1)), (some 0, some (-1)), (some 1, some (-1)),
          (some (-1), some 0), (some 0, some 0), (some 1, some 0),
          (some (-1), some 1), (some 0, some 1), (some 1, some 1)] ∧
    (rowMajor 3 3).map (pixelCount fuel 10 3 3 (-1) (-1) 1 1)
      = [some 3, some 10, some 2, some 10, some 10, some 2, some 3, some 10, some 2] ∧
    ∃ field, mandel log fuel data 10 3 3 (-1) (-1) 1 1 = some field ∧
      (List.range 9).map field
        = ([3, 10, 2, 10, 10, 2, 3, 10, 2] : List Nat).map (fun n => log (n : ℚ)) := by
  have hM : 10 < 2 ^ 32 := by norm_num
  have hcount : ∀ p : Nat × Nat, pixelCount fuel 10 3 3 (-1) (-1) 1 1 p
      = some (planeCount 10 (planeX 3 (-1) 1 p.2) (planeY 3 (-1) 1 p.1)) :=
    fun p => pixelLoop_eq 10 _ _ hM fuel hf
  have hspec : (rowMajor 3 3).map
      (fun p => planeCount 10 (planeX 3 (-1) 1 p.2) (planeY 3 (-1) 1 p.1))
      = [3, 10, 2, 10, 10, 2, 3, 10, 2] := by decide!
  have hrun := mandel_eq log fuel data 10 3 3 (-1) (-1) 1 1 hM
    (by norm_num) (by norm_num) hf (by omega) (by omega)
  refine ⟨by decide!, ?_, _, hrun, ?_⟩
  · have : (rowMajor 3 3).map (pixelCount fuel 10 3 3 (-1) (-1) 1 1)
        = ((rowMajor 3 3).map
            (fun p => planeCount 10 (planeX 3 (-1) 1 p.2) (planeY 3 (-1) 1 p.1))).map some := by
      rw [List.map_map]
      exact List.map_congr_left (fun p _ => hcount p)
    rw [this, hspec]
    rfl
  · have hcell : ∀ row col, row < 3 → col < 3 →
        (List.foldl (pixelStore log 10 3 3 (-1) (-1) 1 1) data (rowMajor 3 3)) (row * 3 + col)
          = log ((planeCount 10 (planeX 3 (-1) 1 col) (planeY 3 (-1) 1 row) : Nat) : ℚ) :=
      fun row col hr hc =>
        mandel_some_cell log fuel data _ 10 3 3 (-1) (-1) 1 1 hM hf hrun row col hr hc
    have e00 := hcell 0 0 (by norm_num) (by norm_num)
    have e01 := hcell 0 1 (by norm_num) (by norm_num)
    have e02 := hcell 0 2 (by norm_num) (by norm_num)
    have e10 := hcell 1 0 (by norm_num) (by norm_num)
    have e11 := hcell 1 1 (by norm_num) (by norm_num)
    have e12 := hcell 1 2 (by norm_num) (by norm_num)
    have e20 := hcell 2 0 (by norm_num) (by norm_num)
    have e21 := hcell 2 1 (by norm_num) (by norm_num)
    have e22 := hcell 2 2 (by norm_num) (by norm_num)
    have s00 : planeCount 10 (planeX 3 (-1) 1 0) (planeY 3 (-1) 1 0) = 3 := by decide!
    have s01 : planeCount 10 (planeX 3 (-1) 1 1) (planeY 3 (-1) 1 0) = 10 := by decide!
    have s02 : planeCount 10 (planeX 3 (-1) 1 2) (planeY 3 (-1) 1 0) = 2 := by decide!
    have s10 : planeCount 10 (planeX 3 (-1) 1 0) (planeY 3 (-1) 1 1) = 10 := by decide!
    have s11 : planeCount 10 (planeX 3 (-1) 1 1) (planeY 3 (-1) 1 1) = 10 := by decide!
    have s12 : planeCount 10 (planeX 3 (-1) 1 2) (planeY 3 (-1) 1 1) = 2 := by decide!
    have s20 : planeCount 10 (planeX 3 (-1) 1 0) (planeY 3 (-1) 1 2) = 3 := by decide!
    have s21 : planeCount 10 (planeX 3 (-1) 1 1) (planeY 3 (-1) 1 2) = 10 := by decide!
    have s22 : planeCount 10 (planeX 3 (-1) 1 2) (planeY 3 (-1) 1 2) = 2 := by decide!
    rw [s00] at e00
    rw [s01] at e01
    rw [s02] at e02
    rw [s10] at e10
    rw [s11] at e11
    rw [s12] at e12
    rw [s20] at e20
    rw [s21] at e21
    rw [s22] at e22
    have hlist : ∀ g : Nat → V, (List.range 9).map g
        = [g (0 * 3 + 0), g (0 * 3 + 1), g (0 * 3 + 2), g (1 * 3 + 0), g (1 * 3 + 1),
            g (1 * 3 + 2), g (2 * 3 + 0), g (2 * 3 + 1), g (2 * 3 + 2)] := fun g => rfl
    rw [hlist, e00, e01, e02, e10, e11, e12, e20, e21, e22]
    rfl

theorem mandel_3x3_scenario_witness :
    10 < 11 ∧
    ((rowMajor 3 3).map (fun p => (planeX 3 (-1) 1 p.2, planeY 3 (-1) 1 p.1))
      = [(some (-1), some (-1)), (some 0, some (-1)), (some 1, some (-1)),
          (some (-1), some 0), (some 0, some 0), (some 1, some 0),
          (some (-1), some 1), (some 0, some 1), (some 1, some 1)] ∧
    (rowMajor 3 3).map (pixelCount 11 10 3 3 (-1) (-1) 1 1)
      = [some 3, some 10, some 2, some 10, some 10, some 2, some 3, some 10, some 2] ∧
    ∃ field, mandel (fun q => q) 11 (fun _ => 0) 10 3 3 (-1) (-1) 1 1 = some field ∧
      (List.range 9).map field
        = ([3, 10, 2, 10, 10, 2, 3, 10, 2] : List Nat).map (fun n => (fun q => q) (n : ℚ))) :=
  ⟨by decide, mandel_3x3_scenario (fun q => q) 11 (fun _ => 0) (by decide)⟩

end Jbcs

namespace Jbcs

/-! ## pi.c: the three strategies -/

theorem drawPairs_length {σ : Type} (drand48 : σ → ℚ × σ) :
    ∀ (n : Nat) (s : σ), (drawPairs drand48 n s).1.length = n := by
  intro n
  induction n with
  | zero => intro s; rfl
  | succ n ih => intro s; simp [drawPairs, ih]

theorem pi_serial_loop_eq {σ : Type} (drand48 : σ → ℚ × σ) (N : Nat) (hN : N < 2 ^ 64) :
    ∀ (fuel i hits : Nat) (s : σ), i ≤ N → N - i < fuel →
      pi_serial_loop drand48 N fuel i hits s
        = some ((drawPairs drand48 (N - i) s).1.foldl (fun hits p => hitStep hits p.1 p.2) hits,
            (drawPairs drand48 (N - i) s).2) := by
  intro fuel
  induction fuel with
  | zero => intro i hits s _ h; omega
  | succ f ih =>
    intro i hits s hi hf
    rw [pi_serial_loop]
    by_cases hc : i < N
    · rw [if_pos hc]
      have hmod : (i + 1) % 2 ^ 64 = i + 1 := Nat.mod_eq_of_lt (by omega)
      simp only [hmod]
      rw [ih (i + 1) _ _ hc (by omega)]
      obtain ⟨e, he⟩ : ∃ e, N - i = e + 1 := ⟨N - i - 1, by omega⟩
      have he2 : N - (i + 1) = e := by omega
      rw [he, he2]
      rfl
    · rw [if_neg hc]
      have : N - i = 0 := by omega
      rw [this]
      rfl

theorem countHits_eq_countP (samples : List (ℚ × ℚ)) (h : samples.length < 2 ^ 64) :
    countHits samples = samples.countP isHit := by
  rw [countHits_eq]
  apply Nat.mod_eq_of_lt
  exact lt_of_le_of_lt (List.countP_le_length _) h

theorem pi_serial_eq {σ : Type} (drand48 : σ → ℚ × σ) (fuel N : Nat) (s : σ)
    (hN : N < 2 ^ 64) (hf : N < fuel) :
    pi_serial drand48 fuel N s
      = some (4 * (countHits (drawPairs drand48 N s).1 : ℚ) / (N : ℚ),
          (drawPairs drand48 N s).2) := by
  unfold pi_serial
  rw [pi_serial_loop_eq drand48 N hN fuel 0 0 s (Nat.zero_le _) (by omega)]
  rfl

theorem omp2Body_iterate {σ : Type} (drand48_r : σ → ℚ × σ) :
    ∀ (n : Nat) (s : σ) (hits : Nat),
      (omp2Body drand48_r)^[n] (s, hits)
        = ((drawPairs drand48_r n s).2,
            (drawPairs drand48_r n s).1.foldl (fun hits p => hitStep hits p.1 p.2) hits) := by
  intro n
  induction n with
  | zero => intro s hits; rfl
  | succ n ih =>
    intro s hits
    rw [Function.iterate_succ_apply]
    have hb : omp2Body drand48_r (s, hits)
        = ((drand48_r (drand48_r s).2).2,
            hitStep hits (drand48_r s).1 (drand48_r (drand48_r s).2).1) := rfl
    rw [hb, ih]
    rfl

theorem workerHits_eq {σ : Type} (srand48_r : Nat → σ) (drand48_r : σ → ℚ × σ)
    (seedk n : Nat) :
    workerHits srand48_r drand48_r seedk n
      = countHits (drawPairs drand48_r n (srand48_r seedk)).1 := by
  unfold workerHits
  rw [omp2Body_iterate]
  rfl

theorem sum_range_bump (f g : Nat → Nat) (k : Nat) (hk : g k = f k + 1)
    (hne : ∀ j, j ≠ k → g j = f j) :
    ∀ T : Nat, k < T →
      ((List.range T).map g).sum = ((List.range T).map f).sum + 1 := by
  intro T
  induction T with
  | zero => intro h; omega
  | succ T ih =>
    intro hlt
    rw [List.range_succ, List.map_append, List.map_append, List.sum_append, List.sum_append]
    simp only [List.map_cons, List.map_nil, List.sum_cons, List.sum_nil, Nat.add_zero]
    by_cases hkT : k = T
    · subst hkT
      have hsame : (List.range k).map g = (List.range k).map f := by
        apply List.map_congr_left
        intro j hj
        exact hne j (by have := List.mem_range.mp hj; omega)
      rw [hsame, hk]
      omega
    · rw [ih (by omega), hne T (fun h => hkT h.symm)]
      omega

theorem sum_workerLoad (T : Nat) :
    ∀ sched : List (Nat × Nat), (∀ ik, ik ∈ sched → ik.2 < T) →
      ((List.range T).map (workerLoad sched)).sum = sched.length := by
  intro sched
  induction sched with
  | nil =>
    intro _
    have : (List.range T).map (workerLoad []) = (List.range T).map (fun _ => 0) :=
      List.map_congr_left (fun k _ => rfl)
    rw [this]
    simp
  | cons ik rest ih =>
    intro hall
    have hk := hall ik (List.mem_cons_self _ _)
    rw [sum_range_bump (workerLoad rest) (workerLoad (ik :: rest)) ik.2
      (by rw [workerLoad_cons]; simp)
      (by intro j hj; rw [workerLoad_cons]; simp [hj]) T hk,
      ih (fun q hq => hall q (List.mem_cons_of_mem _ hq))]
    rfl

theorem length_flatMap_sum {α : Type} (f : Nat → List α) (l : List Nat) :
    (l.flatMap f).length = (l.map (fun k => (f k).length)).sum := by
  induction l with
  | nil => rfl
  | cons a l ih => simp [List.flatMap_cons, ih]

theorem reduceSum_countHits (T : Nat) (f : Nat → List (ℚ × ℚ)) :
    reduceSum 0 ((List.range T).map (fun k => countHits (f k)))
      = countHits ((List.range T).flatMap f) := by
  rw [reduceSum_eq _ 0 (by norm_num), Nat.zero_add]
  have h := sum_countHits_mod ((List.range T).map f)
  rw [List.map_map] at h
  have hfl : ((List.range T).map f).flatten = (List.range T).flatMap f := by
    rw [List.flatMap_def]
  rw [hfl] at h
  exact h

end Jbcs

namespace Jbcs

theorem countHits_concat (l : List (ℚ × ℚ)) (p : ℚ × ℚ) :
    countHits (l ++ [p]) = hitStep (countHits l) p.1 p.2 := by
  unfold countHits
  rw [List.foldl_append]
  rfl

theorem omp1Step_hits {σ : Type} (drand48 : σ → ℚ × σ) (st : Omp1State σ) (k : Nat)
    (h : ∀ j, st.hits j = countHits (st.samples j)) :
    ∀ j, (omp1Step drand48 st k).hits j = countHits ((omp1Step drand48 st k).samples j) := by
  intro j
  unfold omp1Step
  cases hp : st.pending k with
  | none => exact h j
  | some x =>
    simp only
    by_cases hj : j = k
    · rw [if_pos hj, if_pos hj, countHits_concat, h k]
    · rw [if_neg hj, if_neg hj]; exact h j

theorem omp1Step_draws {σ : Type} (drand48 : σ → ℚ × σ) (st : Omp1State σ) (k : Nat) :
    omp1Draws (omp1Step drand48 st k) k = omp1Draws st k + 1 ∧
      ∀ j, j ≠ k → omp1Draws (omp1Step drand48 st k) j = omp1Draws st j := by
  unfold omp1Draws omp1Step
  cases hp : st.pending k with
  | none =>
    constructor
    · simp [hp]
    · intro j hj; simp [hj]
  | some x =>
    constructor
    · simp [hp]; omega
    · intro j hj; simp [hj]

theorem omp1_foldl_invariant {σ : Type} (drand48 : σ → ℚ × σ) (T : Nat) :
    ∀ (events : List Nat) (st : Omp1State σ), (∀ k, k ∈ events → k < T) →
      (∀ j, st.hits j = countHits (st.samples j)) →
      (∀ j, (events.foldl (omp1Step drand48) st).hits j
          = countHits ((events.foldl (omp1Step drand48) st).samples j)) ∧
        ((List.range T).map (omp1Draws (events.foldl (omp1Step drand48) st))).sum
          = ((List.range T).map (omp1Draws st)).sum + events.length := by
  intro events
  induction events with
  | nil => intro st _ h; exact ⟨h, rfl⟩
  | cons k rest ih =>
    intro st hall h
    rw [List.foldl_cons]
    obtain ⟨h1, h2⟩ := ih (omp1Step drand48 st k)
      (fun q hq => hall q (List.mem_cons_of_mem _ hq)) (omp1Step_hits drand48 st k h)
    refine ⟨h1, ?_⟩
    rw [h2, sum_range_bump (omp1Draws st) (omp1Draws (omp1Step drand48 st k)) k
      (omp1Step_draws drand48 st k).1 (omp1Step_draws drand48 st k).2 T
      (hall k (List.mem_cons_self _ _)), List.length_cons]
    omega

theorem omp1_valid_run {σ : Type} (drand48 : σ → ℚ × σ) (T N : Nat) (events : List Nat)
    (s : σ) (hv : Omp1Valid drand48 T N events s) :
    ((List.range T).flatMap (omp1Exec drand48 events s).samples).length = N ∧
      reduceSum 0 ((List.range T).map (omp1Exec drand48 events s).hits)
        = countHits ((List.range T).flatMap (omp1Exec drand48 events s).samples) := by
  obtain ⟨hall, hlen, hpend⟩ := hv
  have hinit : ∀ j, (omp1Init s).hits j = countHits ((omp1Init s).samples j) := fun _ => rfl
  obtain ⟨h1, h2⟩ := omp1_foldl_invariant drand48 T events (omp1Init s) hall hinit
  have h0 : ((List.range T).map (omp1Draws (omp1Init s))).sum = 0 := by
    have : (List.range T).map (omp1Draws (omp1Init s)) = (List.range T).map (fun _ => 0) :=
      List.map_congr_left (fun k _ => rfl)
    rw [this]; simp
  rw [h0, Nat.zero_add, hlen] at h2
  have hd : (List.range T).map (omp1Draws (events.foldl (omp1Step drand48) (omp1Init s)))
      = (List.range T).map
          (fun k => 2 * ((omp1Exec drand48 events s).samples k).length) := by
    apply List.map_congr_left
    intro k hk
    unfold omp1Draws
    have := hpend k (List.mem_range.mp hk)
    unfold omp1Exec at this ⊢
    rw [this]
    simp
  rw [hd] at h2
  have hmul : ((List.range T).map
      (fun k => 2 * ((omp1Exec drand48 events s).samples k).length)).sum
      = 2 * ((List.range T).map
          (fun k => ((omp1Exec drand48 events s).samples k).length)).sum := by
    generalize List.range T = l
    induction l with
    | nil => rfl
    | cons a l ih => simp only [List.map_cons, List.sum_cons, ih]; ring
  rw [hmul] at h2
  constructor
  · rw [length_flatMap_sum]; omega
  · have hh : (List.range T).map (omp1Exec drand48 events s).hits
        = (List.range T).map (fun k => countHits ((omp1Exec drand48 events s).samples k)) :=
      List.map_congr_left (fun k _ => h1 k)
    rw [hh, reduceSum_countHits]

theorem omp1_single_worker {σ : Type} (drand48 : σ → ℚ × σ) :
    ∀ (n : Nat) (st : Omp1State σ), st.pending 0 = none →
      ((List.replicate (2 * n) 0).foldl (omp1Step drand48) st).gen
          = (drawPairs drand48 n st.gen).2 ∧
        ((List.replicate (2 * n) 0).foldl (omp1Step drand48) st).hits 0
          = (drawPairs drand48 n st.gen).1.foldl (fun hits p => hitStep hits p.1 p.2)
              (st.hits 0) ∧
        ((List.replicate (2 * n) 0).foldl (omp1Step drand48) st).pending 0 = none := by
  intro n
  induction n with
  | zero => intro st hp; exact ⟨rfl, rfl, hp⟩
  | succ n ih =>
    intro st hp
    have hrep : List.replicate (2 * (n + 1)) 0 = 0 :: 0 :: List.replicate (2 * n) 0 := by
      have : 2 * (n + 1) = (2 * n + 1) + 1 := by ring
      rw [this, List.replicate_succ, List.replicate_succ]
    rw [hrep, List.foldl_cons, List.foldl_cons]
    have hs1 : (omp1Step drand48 st 0).pending 0 = some (drand48 st.gen).1 ∧
        (omp1Step drand48 st 0).gen = (drand48 st.gen).2 ∧
        (omp1Step drand48 st 0).hits 0 = st.hits 0 := by
      unfold omp1Step; rw [hp]; simp
    obtain ⟨hp1, hg1, hh1⟩ := hs1
    have hs2 : (omp1Step drand48 (omp1Step drand48 st 0) 0).pending 0 = none ∧
        (omp1Step drand48 (omp1Step drand48 st 0) 0).gen
          = (drand48 (drand48 st.gen).2).2 ∧
        (omp1Step drand48 (omp1Step drand48 st 0) 0).hits 0
          = hitStep (st.hits 0) (drand48 st.gen).1 (drand48 (drand48 st.gen).2).1 := by
      generalize omp1Step drand48 st 0 = st1 at hp1 hg1 hh1
      unfold omp1Step; rw [hp1]; simp [hg1, hh1]
    obtain ⟨hp2, hg2, hh2⟩ := hs2
    obtain ⟨i1, i2, i3⟩ := ih _ hp2
    rw [hg2] at i1 i2
    rw [hh2] at i2
    exact ⟨i1, i2, i3⟩

/-- C11: for `N ≥ 1` each of the three strategies returns `4 * hits / N`, where
`hits` is the number of the `N` sample pairs it drew that pass `x² + y² < 1`:
`pi_serial` on the pairs drawn in order from the generator, `pi_omp1` (under any
interleaving of its workers) on the pairs its workers formed from the shared
generator, `pi_omp2` (under any schedule) on the pairs its workers drew from
their private streams; and run by a single worker from the same generator state
`pi_omp1` returns the value of `pi_serial` and leaves the same generator state. -/
theorem three_strategies_same_estimator {σ τ : Type} (drand48 : σ → ℚ × σ)
    (srand48_r : Nat → τ) (drand48_r : τ → ℚ × τ) (fuel N T seed : Nat) (s : σ)
    (events : List Nat) (sched : List (Nat × Nat))
    (hN1 : 1 ≤ N) (hN : N < 2 ^ 64) (hf : N < fuel)
    (hev : Omp1Valid drand48 T N events s)
    (hlen : sched.length = N) (hsched : ∀ ik, ik ∈ sched → ik.2 < T) :
    ((drawPairs drand48 N s).1.length = N ∧
      pi_serial drand48 fuel N s
        = some (4 * ((drawPairs drand48 N s).1.countP isHit : ℚ) / (N : ℚ),
            (drawPairs drand48 N s).2)) ∧
    (((List.range T).flatMap (omp1Exec drand48 events s).samples).length = N ∧
      (pi_omp1 drand48 T N events s).1
        = 4 * (((List.range T).flatMap (omp1Exec drand48 events s).samples).countP isHit : ℚ)
            / (N : ℚ)) ∧
    (((List.range T).flatMap (fun k =>
          (drawPairs drand48_r (workerLoad sched k) (srand48_r ((seed + k) % 2 ^ 64))).1)).length
        = N ∧
      pi_omp2 srand48_r drand48_r seed T N sched
        = 4 * (((List.range T).flatMap (fun k =>
            (drawPairs drand48_r (workerLoad sched k)
              (srand48_r ((seed + k) % 2 ^ 64))).1)).countP isHit : ℚ) / (N : ℚ)) ∧
    pi_serial drand48 fuel N s = some (pi_omp1 drand48 1 N (List.replicate (2 * N) 0) s) := by
  have _ := hN1
  have hser : pi_serial drand48 fuel N s
      = some (4 * ((drawPairs drand48 N s).1.countP isHit : ℚ) / (N : ℚ),
          (drawPairs drand48 N s).2) := by
    rw [pi_serial_eq drand48 fuel N s hN hf,
      countHits_eq_countP _ (by rw [drawPairs_length]; exact hN)]
  refine ⟨⟨drawPairs_length drand48 N s, hser⟩, ?_, ?_, ?_⟩
  · obtain ⟨h1, h2⟩ := omp1_valid_run drand48 T N events s hev
    refine ⟨h1, ?_⟩
    unfold pi_omp1
    simp only
    rw [h2, countHits_eq_countP _ (by rw [h1]; exact hN)]
  · have hl : ((List.range T).flatMap (fun k =>
          (drawPairs drand48_r (workerLoad sched k)
            (srand48_r ((seed + k) % 2 ^ 64))).1)).length = N := by
      rw [length_flatMap_sum]
      have : (List.range T).map (fun k =>
          ((drawPairs drand48_r (workerLoad sched k)
            (srand48_r ((seed + k) % 2 ^ 64))).1).length)
          = (List.range T).map (workerLoad sched) :=
        List.map_congr_left (fun k _ => drawPairs_length drand48_r _ _)
      rw [this, sum_workerLoad T sched hsched, hlen]
    refine ⟨hl, ?_⟩
    unfold pi_omp2 omp2Hits
    have hw : (List.range T).map
        (fun k => (omp2Exec drand48_r sched (omp2Init srand48_r seed) k).2)
        = (List.range T).map (fun k => countHits
            ((drawPairs drand48_r (workerLoad sched k)
              (srand48_r ((seed + k) % 2 ^ 64))).1)) := by
      apply List.map_congr_left
      intro k _
      rw [omp2_worker_hits, workerHits_eq]
    rw [hw, reduceSum_countHits T (fun k =>
      (drawPairs drand48_r (workerLoad sched k) (srand48_r ((seed + k) % 2 ^ 64))).1),
      countHits_eq_countP _ (by rw [hl]; exact hN)]
  · rw [pi_serial_eq drand48 fuel N s hN hf]
    obtain ⟨g1, g2, _⟩ := omp1_single_worker drand48 N (omp1Init s) rfl
    unfold pi_omp1
    have hg : (omp1Exec drand48 (List.replicate (2 * N) 0) s).gen
        = (drawPairs drand48 N s).2 := g1
    have hh : (omp1Exec drand48 (List.replicate (2 * N) 0) s).hits 0
        = countHits (drawPairs drand48 N s).1 := g2
    have hr : reduceSum 0 ((List.range 1).map
        (omp1Exec drand48 (List.replicate (2 * N) 0) s).hits)
        = countHits (drawPairs drand48 N s).1 := by
      have h1 : (List.range 1).map (omp1Exec drand48 (List.replicate (2 * N) 0) s).hits
          = [(omp1Exec drand48 (List.replicate (2 * N) 0) s).hits 0] := rfl
      rw [h1, hh, reduceSum_eq _ 0 (by norm_num)]
      simp only [List.sum_cons, List.sum_nil, Nat.add_zero, Nat.zero_add]
      rw [countHits_eq]
      exact Nat.mod_mod _ _
    rw [hr, hg]

theorem three_strategies_same_estimator_witness :
    (1 ≤ 2 ∧ 2 < 2 ^ 64 ∧ 2 < 3 ∧
      Omp1Valid (streamDraw (fun k => if k = 2 then 1 else 1 / 2)) 2 2 [0, 1, 1, 0] 0 ∧
      [(0, 0), (1, 1)].length = 2 ∧ ∀ ik, ik ∈ [(0, 0), (1, 1)] → ik.2 < 2) ∧
    (((drawPairs (streamDraw (fun k => if k = 2 then 1 else 1 / 2)) 2 0).1.length = 2 ∧
      pi_serial (streamDraw (fun k => if k = 2 then 1 else 1 / 2)) 3 2 0
        = some (4 * ((drawPairs (streamDraw (fun k => if k = 2 then 1 else 1 / 2)) 2 0).1.countP
              isHit : ℚ) / ((2 : Nat) : ℚ),
            (drawPairs (streamDraw (fun k => if k = 2 then 1 else 1 / 2)) 2 0).2)) ∧
    (((List.range 2).flatMap
        (omp1Exec (streamDraw (fun k => if k = 2 then 1 else 1 / 2)) [0, 1, 1, 0] 0).samples).length
        = 2 ∧
      (pi_omp1 (streamDraw (fun k => if k = 2 then 1 else 1 / 2)) 2 2 [0, 1, 1, 0] 0).1
        = 4 * (((List.range 2).flatMap
            (omp1Exec (streamDraw (fun k => if k = 2 then 1 else 1 / 2))
              [0, 1, 1, 0] 0).samples).countP isHit : ℚ) / ((2 : Nat) : ℚ)) ∧
    (((List.range 2).flatMap (fun k =>
          (drawPairs (streamDraw (fun j => if j = 9 then 1 else 1 / 2))
            (workerLoad [(0, 0), (1, 1)] k) ((fun n : Nat => n) ((7 + k) % 2 ^ 64))).1)).length
        = 2 ∧
      pi_omp2 (fun n : Nat => n) (streamDraw (fun j => if j = 9 then 1 else 1 / 2)) 7 2 2
          [(0, 0), (1, 1)]
        = 4 * (((List.range 2).flatMap (fun k =>
            (drawPairs (streamDraw (fun j => if j = 9 then 1 else 1 / 2))
              (workerLoad [(0, 0), (1, 1)] k)
              ((fun n : Nat => n) ((7 + k) % 2 ^ 64))).1)).countP isHit : ℚ)
            / ((2 : Nat) : ℚ)) ∧
    pi_serial (streamDraw (fun k => if k = 2 then 1 else 1 / 2)) 3 2 0
      = some (pi_omp1 (streamDraw (fun k => if k = 2 then 1 else 1 / 2)) 1 2
          (List.replicate (2 * 2) 0) 0)) :=
  ⟨⟨by decide, by decide, by decide, by unfold Omp1Valid; decide!, rfl, by decide⟩,
    three_strategies_same_estimator (streamDraw (fun k => if k = 2 then 1 else 1 / 2))
      (fun n : Nat => n) (streamDraw (fun j => if j = 9 then 1 else 1 / 2)) 3 2 2 7 0
      [0, 1, 1, 0] [(0, 0), (1, 1)] (by decide) (by decide) (by decide)
      (by unfold Omp1Valid; decide!) rfl
      (by decide)⟩

end Jbcs

namespace Jbcs

/-! ## mandel.c: `hsv_to_rgb` -/

theorem u32_of_lt (n : Nat) (h : n < 2 ^ 32) : u32 n = n := Nat.mod_eq_of_lt h

theorem u32sub_of_le (a b : Nat) (ha : a < 2 ^ 32) (hb : b ≤ a) : u32sub a b = a - b := by
  unfold u32sub
  omega

theorem hsv_f_eq (h : Nat) : hsv_f h = (h % 600 * 1000) / 600 ∧ hsv_f h ≤ 998 := by
  unfold hsv_f
  have h1 : h % 600 * 1000 < 2 ^ 32 := by omega
  rw [u32_of_lt _ h1]
  exact ⟨rfl, by omega⟩

theorem scaled_le (a b : Nat) (hb : b ≤ 1000) : a * b / 1000 ≤ a := by
  apply Nat.div_le_of_le_mul
  rw [Nat.mul_comm 1000 a]
  exact Nat.mul_le_mul_left a hb

theorem prod_lt (a b : Nat) (ha : a ≤ 1000) (hb : b ≤ 1000) : a * b < 2 ^ 32 := by
  have : a * b ≤ 1000 * 1000 := Nat.mul_le_mul ha hb
  omega

theorem hsv_p_eq (s v : Nat) (hs : s ≤ 1000) (hv : v ≤ 1000) :
    hsv_p s v = v * (1000 - s) / 1000 ∧ hsv_p s v ≤ v := by
  unfold hsv_p
  rw [u32sub_of_le 1000 s (by norm_num) hs, u32_of_lt _ (prod_lt v (1000 - s) hv (by omega))]
  exact ⟨rfl, scaled_le v (1000 - s) (by omega)⟩

theorem hsv_q_eq (h s v : Nat) (hs : s ≤ 1000) (hv : v ≤ 1000) :
    hsv_q h s v = v * (1000 - s * hsv_f h / 1000) / 1000 ∧ hsv_q h s v ≤ v := by
  have hf := (hsv_f_eq h).2
  have h1 : s * hsv_f h / 1000 ≤ s := scaled_le s (hsv_f h) (by omega)
  unfold hsv_q
  rw [u32_of_lt _ (prod_lt s (hsv_f h) hs (by omega)),
    u32sub_of_le 1000 _ (by norm_num) (by omega),
    u32_of_lt _ (prod_lt v _ hv (by omega))]
  exact ⟨rfl, scaled_le v _ (by omega)⟩

theorem hsv_t_eq (h s v : Nat) (hs : s ≤ 1000) (hv : v ≤ 1000) :
    hsv_t h s v = v * (1000 - s * (1000 - hsv_f h) / 1000) / 1000 ∧ hsv_t h s v ≤ v := by
  have hf := (hsv_f_eq h).2
  have h1 : s * (1000 - hsv_f h) / 1000 ≤ s := scaled_le s (1000 - hsv_f h) (by omega)
  unfold hsv_t
  rw [u32sub_of_le 1000 (hsv_f h) (by norm_num) (by omega),
    u32_of_lt _ (prod_lt s (1000 - hsv_f h) hs (by omega)),
    u32sub_of_le 1000 _ (by norm_num) (by omega),
    u32_of_lt _ (prod_lt v _ hv (by omega))]
  exact ⟨rfl, scaled_le v _ (by omega)⟩

theorem channel_eq (c : Nat) (hc : c ≤ 1000) : channel c = 255 * c / 1000 ∧ channel c ≤ 255 := by
  unfold channel u8
  rw [u32_of_lt _ (by omega)]
  have h1 : 255 * c / 1000 ≤ 255 := by omega
  exact ⟨Nat.mod_eq_of_lt (by omega), by rw [Nat.mod_eq_of_lt (by omega)]; exact h1⟩

theorem hsv_full_q (h : Nat) : hsv_q h 1000 1000 = 1000 - hsv_f h := by
  have hf := (hsv_f_eq h).2
  rw [(hsv_q_eq h 1000 1000 (le_refl _) (le_refl _)).1]
  omega

theorem hsv_full_t (h : Nat) : hsv_t h 1000 1000 = hsv_f h := by
  have hf := (hsv_f_eq h).2
  rw [(hsv_t_eq h 1000 1000 (le_refl _) (le_refl _)).1]
  omega

theorem hsv_full_p : hsv_p 1000 1000 = 0 := by decide

theorem channel_full : channel 1000 = 255 ∧ channel 0 = 0 := by decide

/-- The triple `hsv_to_rgb` writes at full saturation and value, by sector. -/
theorem hsvCore_full (rgb : Nat × Nat × Nat) (h : Nat) (hh : h ≤ 3599) :
    hsvCore rgb h 1000 1000
      = if h / 600 = 0 then (255, channel (hsv_f h), 0)
        else if h / 600 = 1 then (channel (1000 - hsv_f h), 255, 0)
        else if h / 600 = 2 then (0, 255, channel (hsv_f h))
        else if h / 600 = 3 then (0, channel (1000 - hsv_f h), 255)
        else if h / 600 = 4 then (channel (hsv_f h), 0, 255)
        else (255, 0, channel (1000 - hsv_f h)) := by
  have hsec : h / 600 ≤ 5 := by omega
  unfold hsvCore
  rw [if_neg (by norm_num), hsv_full_q, hsv_full_t, hsv_full_p, channel_full.1, channel_full.2]
  generalize h / 600 = sec at hsec
  interval_cases sec <;> rfl

end Jbcs

namespace Jbcs

theorem hsvCore_none (rgb : Nat × Nat × Nat) (h s v : Nat) (hs : s ≠ 0) (hsec : 6 ≤ h / 600) :
    hsvCore rgb h s v = rgb := by
  unfold hsvCore
  rw [if_neg hs]
  obtain ⟨k, hk⟩ : ∃ k, h / 600 = k + 6 := ⟨h / 600 - 6, by omega⟩
  rw [hk]
  rfl

theorem hsvCore_some (rgb rgb' : Nat × Nat × Nat) (h s v : Nat) (hsec : h / 600 ≤ 5) :
    hsvCore rgb h s v = hsvCore rgb' h s v := by
  unfold hsvCore
  by_cases hs : s = 0
  · rw [if_pos hs, if_pos hs]
  · rw [if_neg hs, if_neg hs]
    generalize h / 600 = sec at hsec
    interval_cases sec <;> rfl

theorem toU32_natCast {F : Type} [LinearOrderedField F] [FloorRing F] (n : Nat)
    (hn : n < 2 ^ 32) : toU32 ((n : Nat) : F) = n := by
  unfold toU32
  rw [Int.floor_natCast, Int.toNat_ofNat]
  exact Nat.mod_eq_of_lt hn

theorem toU32_sat {F : Type} [LinearOrderedField F] [FloorRing F] :
    toU32 ((1 : F) * 1000) = 1000 := by
  have h : (1 : F) * 1000 = ((1000 : Nat) : F) := by norm_num
  rw [h, toU32_natCast 1000 (by norm_num)]

theorem toU32_hue {F : Type} [LinearOrderedField F] [FloorRing F] (hue : F)
    (h0 : 0 ≤ hue) (h1 : hue < 1) : toU32 (hue * 3600) ≤ 3599 := by
  unfold toU32
  have hlt : ⌊hue * 3600⌋ < 3600 := by
    rw [Int.floor_lt]
    have : hue * 3600 < 1 * 3600 := by
      apply mul_lt_mul_of_pos_right h1 (by norm_num)
    simpa using this
  have hge : 0 ≤ ⌊hue * 3600⌋ := Int.floor_nonneg.mpr (by positivity)
  have : Int.toNat ⌊hue * 3600⌋ ≤ 3599 := by omega
  exact le_trans (Nat.mod_le _ _) this

theorem sector_triple (sec a b : Nat) (hsec : sec ≤ 5) (ha : a ≤ 255) (hb : b ≤ 255) :
    max (if sec = 0 then (255, a, 0) else if sec = 1 then (b, 255, 0)
          else if sec = 2 then (0, 255, a) else if sec = 3 then (0, b, 255)
          else if sec = 4 then (a, 0, 255) else ((255, 0, b) : Nat × Nat × Nat)).1
        (max (if sec = 0 then (255, a, 0) else if sec = 1 then (b, 255, 0)
          else if sec = 2 then (0, 255, a) else if sec = 3 then (0, b, 255)
          else if sec = 4 then (a, 0, 255) else ((255, 0, b) : Nat × Nat × Nat)).2.1
          (if sec = 0 then (255, a, 0) else if sec = 1 then (b, 255, 0)
          else if sec = 2 then (0, 255, a) else if sec = 3 then (0, b, 255)
          else if sec = 4 then (a, 0, 255) else ((255, 0, b) : Nat × Nat × Nat)).2.2) = 255 ∧
    min (if sec = 0 then (255, a, 0) else if sec = 1 then (b, 255, 0)
          else if sec = 2 then (0, 255, a) else if sec = 3 then (0, b, 255)
          else if sec = 4 then (a, 0, 255) else ((255, 0, b) : Nat × Nat × Nat)).1
        (min (if sec = 0 then (255, a, 0) else if sec = 1 then (b, 255, 0)
          else if sec = 2 then (0, 255, a) else if sec = 3 then (0, b, 255)
          else if sec = 4 then (a, 0, 255) else ((255, 0, b) : Nat × Nat × Nat)).2.1
          (if sec = 0 then (255, a, 0) else if sec = 1 then (b, 255, 0)
          else if sec = 2 then (0, 255, a) else if sec = 3 then (0, b, 255)
          else if sec = 4 then (a, 0, 255) else ((255, 0, b) : Nat × Nat × Nat)).2.2) = 0 := by
  interval_cases sec <;> simp <;> omega

/-- C16: at full saturation and value (`sat = 1`, `val = 1`, so `s = v = 1000`) and
for every hue with `h = floor(3600 * hue)` in `[0, 3599]`, the triple `hsv_to_rgb`
writes has largest channel `255` and smallest channel `0`, and its remaining
channel is `255 * f / 1000` (sectors 0, 2, 4) or `255 * (1000 - f) / 1000`
(sectors 1, 3, 5) with `f = ((h mod 600) * 1000) / 600`; hue `0` gives
`(255, 0, 0)`. -/
theorem hsv_full_saturation_and_value {F : Type} [LinearOrderedField F] [FloorRing F]
    (rgb : Nat × Nat × Nat) (hue : F) (hh : toU32 (hue * 3600) ≤ 3599) :
    toU32 ((1 : F) * 1000) = 1000 ∧
    hsv_to_rgb rgb hue 1 1
      = (if toU32 (hue * 3600) / 600 = 0 then
          (255, 255 * ((toU32 (hue * 3600) % 600 * 1000) / 600) / 1000, 0)
        else if toU32 (hue * 3600) / 600 = 1 then
          (255 * (1000 - (toU32 (hue * 3600) % 600 * 1000) / 600) / 1000, 255, 0)
        else if toU32 (hue * 3600) / 600 = 2 then
          (0, 255, 255 * ((toU32 (hue * 3600) % 600 * 1000) / 600) / 1000)
        else if toU32 (hue * 3600) / 600 = 3 then
          (0, 255 * (1000 - (toU32 (hue * 3600) % 600 * 1000) / 600) / 1000, 255)
        else if toU32 (hue * 3600) / 600 = 4 then
          (255 * ((toU32 (hue * 3600) % 600 * 1000) / 600) / 1000, 0, 255)
        else (255, 0, 255 * (1000 - (toU32 (hue * 3600) % 600 * 1000) / 600) / 1000)) ∧
    max (hsv_to_rgb rgb hue 1 1).1
        (max (hsv_to_rgb rgb hue 1 1).2.1 (hsv_to_rgb rgb hue 1 1).2.2) = 255 ∧
    min (hsv_to_rgb rgb hue 1 1).1
        (min (hsv_to_rgb rgb hue 1 1).2.1 (hsv_to_rgb rgb hue 1 1).2.2) = 0 ∧
    hsv_to_rgb rgb (0 : F) 1 1 = (255, 0, 0) := by
  have hzero : hsv_to_rgb rgb (0 : F) 1 1 = (255, 0, 0) := by
    unfold hsv_to_rgb
    have h0 : toU32 ((0 : F) * 3600) = 0 := by
      have : (0 : F) * 3600 = ((0 : Nat) : F) := by norm_num
      rw [this, toU32_natCast 0 (by norm_num)]
    rw [h0, toU32_sat, hsvCore_full rgb 0 (by norm_num)]
    decide
  have hform : hsv_to_rgb rgb hue 1 1
      = (if toU32 (hue * 3600) / 600 = 0 then
          (255, 255 * ((toU32 (hue * 3600) % 600 * 1000) / 600) / 1000, 0)
        else if toU32 (hue * 3600) / 600 = 1 then
          (255 * (1000 - (toU32 (hue * 3600) % 600 * 1000) / 600) / 1000, 255, 0)
        else if toU32 (hue * 3600) / 600 = 2 then
          (0, 255, 255 * ((toU32 (hue * 3600) % 600 * 1000) / 600) / 1000)
        else if toU32 (hue * 3600) / 600 = 3 then
          (0, 255 * (1000 - (toU32 (hue * 3600) % 600 * 1000) / 600) / 1000, 255)
        else if toU32 (hue * 3600) / 600 = 4 then
          (255 * ((toU32 (hue * 3600) % 600 * 1000) / 600) / 1000, 0, 255)
        else (255, 0, 255 * (1000 - (toU32 (hue * 3600) % 600 * 1000) / 600) / 1000)) := by
    unfold hsv_to_rgb
    rw [toU32_sat, hsvCore_full rgb _ hh]
    generalize toU32 (hue * 3600) = h
    obtain ⟨hfe, hf⟩ := hsv_f_eq h
    rw [(channel_eq (hsv_f h) (by omega)).1, (channel_eq (1000 - hsv_f h) (by omega)).1, hfe]
  have hb1 : 255 * ((toU32 (hue * 3600) % 600 * 1000) / 600) / 1000 ≤ 255 := by omega
  have hb2 : 255 * (1000 - (toU32 (hue * 3600) % 600 * 1000) / 600) / 1000 ≤ 255 := by omega
  have hsec : toU32 (hue * 3600) / 600 ≤ 5 := by omega
  have hs := sector_triple _ _ _ hsec hb1 hb2
  refine ⟨toU32_sat, hform, ?_, ?_, hzero⟩
  · rw [hform]; exact hs.1
  · rw [hform]; exact hs.2

set_option maxRecDepth 100000 in
theorem hsv_full_saturation_and_value_witness :
    toU32 (((1 : ℚ) / 2) * 3600) ≤ 3599 ∧
    (toU32 ((1 : ℚ) * 1000) = 1000 ∧
    hsv_to_rgb (0, 0, 6) ((1 : ℚ) / 2) 1 1
      = (if toU32 (((1 : ℚ) / 2) * 3600) / 600 = 0 then
          (255, 255 * ((toU32 (((1 : ℚ) / 2) * 3600) % 600 * 1000) / 600) / 1000, 0)
        else if toU32 (((1 : ℚ) / 2) * 3600) / 600 = 1 then
          (255 * (1000 - (toU32 (((1 : ℚ) / 2) * 3600) % 600 * 1000) / 600) / 1000, 255, 0)
        else if toU32 (((1 : ℚ) / 2) * 3600) / 600 = 2 then
          (0, 255, 255 * ((toU32 (((1 : ℚ) / 2) * 3600) % 600 * 1000) / 600) / 1000)
        else if toU32 (((1 : ℚ) / 2) * 3600) / 600 = 3 then
          (0, 255 * (1000 - (toU32 (((1 : ℚ) / 2) * 3600) % 600 * 1000) / 600) / 1000, 255)
        else if toU32 (((1 : ℚ) / 2) * 3600) / 600 = 4 then
          (255 * ((toU32 (((1 : ℚ) / 2) * 3600) % 600 * 1000) / 600) / 1000, 0, 255)
        else (255, 0,
          255 * (1000 - (toU32 (((1 : ℚ) / 2) * 3600) % 600 * 1000) / 600) / 1000)) ∧
    max (hsv_to_rgb (0, 0, 6) ((1 : ℚ) / 2) 1 1).1
        (max (hsv_to_rgb (0, 0, 6) ((1 : ℚ) / 2) 1 1).2.1
          (hsv_to_rgb (0, 0, 6) ((1 : ℚ) / 2) 1 1).2.2) = 255 ∧
    min (hsv_to_rgb (0, 0, 6) ((1 : ℚ) / 2) 1 1).1
        (min (hsv_to_rgb (0, 0, 6) ((1 : ℚ) / 2) 1 1).2.1
          (hsv_to_rgb (0, 0, 6) ((1 : ℚ) / 2) 1 1).2.2) = 0 ∧
    hsv_to_rgb (0, 0, 6) (0 : ℚ) 1 1 = (255, 0, 0)) :=
  ⟨toU32_hue _ (by norm_num) (by norm_num),
    hsv_full_saturation_and_value (0, 0, 6) ((1 : ℚ) / 2)
      (toU32_hue _ (by norm_num) (by norm_num))⟩

end Jbcs

namespace Jbcs

/-- C19: for `s ≤ 1000`, `v ≤ 1000` and every 32-bit `h`, the `uint32_t`
arithmetic of `hsv_to_rgb` never wraps: `f ≤ 998`, the three subtractions from
`1000` do not underflow, every product is below `2^32`, so `f`, `p`, `q`, `t` have
their values in unbounded arithmetic, `p`, `q`, `t ≤ v`, and the value stored into
a channel is at most `255`, equal to the byte it becomes. -/
theorem hsv_arithmetic_never_wraps (h s v : Nat) (hs : s ≤ 1000) (hv : v ≤ 1000)
    (hh : h < 2 ^ 32) :
    (hsv_f h = (h % 600 * 1000) / 600 ∧ hsv_f h ≤ 998) ∧
    (s ≤ 1000 ∧ s * hsv_f h / 1000 ≤ 1000 ∧ hsv_f h ≤ 1000 ∧
      s * (1000 - hsv_f h) / 1000 ≤ 1000 ∧
      u32sub 1000 s = 1000 - s ∧
      u32sub 1000 (hsv_f h) = 1000 - hsv_f h ∧
      u32sub 1000 (s * hsv_f h / 1000) = 1000 - s * hsv_f h / 1000 ∧
      u32sub 1000 (s * (1000 - hsv_f h) / 1000) = 1000 - s * (1000 - hsv_f h) / 1000) ∧
    (h % 600 * 1000 < 2 ^ 32 ∧ v * (1000 - s) < 2 ^ 32 ∧ s * hsv_f h < 2 ^ 32 ∧
      s * (1000 - hsv_f h) < 2 ^ 32 ∧ v * (1000 - s * hsv_f h / 1000) < 2 ^ 32 ∧
      v * (1000 - s * (1000 - hsv_f h) / 1000) < 2 ^ 32 ∧ 255 * v < 2 ^ 32 ∧
      255 * hsv_p s v < 2 ^ 32 ∧ 255 * hsv_q h s v < 2 ^ 32 ∧ 255 * hsv_t h s v < 2 ^ 32) ∧
    (hsv_p s v = v * (1000 - s) / 1000 ∧
      hsv_q h s v = v * (1000 - s * hsv_f h / 1000) / 1000 ∧
      hsv_t h s v = v * (1000 - s * (1000 - hsv_f h) / 1000) / 1000 ∧
      hsv_p s v ≤ v ∧ hsv_q h s v ≤ v ∧ hsv_t h s v ≤ v) ∧
    (channel v = 255 * v / 1000 ∧ channel (hsv_p s v) = 255 * hsv_p s v / 1000 ∧
      channel (hsv_q h s v) = 255 * hsv_q h s v / 1000 ∧
      channel (hsv_t h s v) = 255 * hsv_t h s v / 1000 ∧
      255 * v / 1000 ≤ 255 ∧ 255 * hsv_p s v / 1000 ≤ 255 ∧
      255 * hsv_q h s v / 1000 ≤ 255 ∧ 255 * hsv_t h s v / 1000 ≤ 255) ∧
    (∀ rgb : Nat × Nat × Nat, rgb.1 ≤ 255 → rgb.2.1 ≤ 255 → rgb.2.2 ≤ 255 →
      (hsvCore rgb h s v).1 ≤ 255 ∧ (hsvCore rgb h s v).2.1 ≤ 255 ∧
        (hsvCore rgb h s v).2.2 ≤ 255) := by
  have _ := hh
  obtain ⟨hfe, hf⟩ := hsv_f_eq h
  obtain ⟨hpe, hp⟩ := hsv_p_eq s v hs hv
  obtain ⟨hqe, hq⟩ := hsv_q_eq h s v hs hv
  obtain ⟨hte, ht⟩ := hsv_t_eq h s v hs hv
  have a1 : s * hsv_f h / 1000 ≤ s := scaled_le s (hsv_f h) (by omega)
  have a2 : s * (1000 - hsv_f h) / 1000 ≤ s := scaled_le s (1000 - hsv_f h) (by omega)
  have cv := channel_eq v hv
  have cp := channel_eq (hsv_p s v) (by omega)
  have cq := channel_eq (hsv_q h s v) (by omega)
  have ct := channel_eq (hsv_t h s v) (by omega)
  refine ⟨⟨hfe, hf⟩, ⟨hs, by omega, by omega, by omega,
      u32sub_of_le 1000 s (by norm_num) hs,
      u32sub_of_le 1000 _ (by norm_num) (by omega),
      u32sub_of_le 1000 _ (by norm_num) (by omega),
      u32sub_of_le 1000 _ (by norm_num) (by omega)⟩,
    ⟨by omega, prod_lt v _ hv (by omega), prod_lt s _ hs (by omega),
      prod_lt s _ hs (by omega), prod_lt v _ hv (by omega), prod_lt v _ hv (by omega),
      by omega, by omega, by omega, by omega⟩,
    ⟨hpe, hqe, hte, hp, hq, ht⟩,
    ⟨cv.1, cp.1, cq.1, ct.1, by omega, by omega, by omega, by omega⟩, ?_⟩
  intro rgb r1 r2 r3
  unfold hsvCore
  by_cases hs0 : s = 0
  · rw [if_pos hs0]; exact ⟨cv.2, cv.2, cv.2⟩
  · rw [if_neg hs0]
    rcases Nat.lt_or_ge (h / 600) 6 with hsec | hsec
    · have hsec5 : h / 600 ≤ 5 := by omega
      generalize h / 600 = sec at hsec5
      interval_cases sec
      · exact ⟨cv.2, ct.2, cp.2⟩
      · exact ⟨cq.2, cv.2, cp.2⟩
      · exact ⟨cp.2, cv.2, ct.2⟩
      · exact ⟨cp.2, cq.2, cv.2⟩
      · exact ⟨ct.2, cp.2, cv.2⟩
      · exact ⟨cv.2, cp.2, cq.2⟩
    · obtain ⟨k, hk⟩ : ∃ k, h / 600 = k + 6 := ⟨h / 600 - 6, by omega⟩
      rw [hk]
      exact ⟨r1, r2, r3⟩

theorem hsv_arithmetic_never_wraps_witness :
    (700 ≤ 1000 ∧ 900 ≤ 1000 ∧ 4000000000 < 2 ^ 32) ∧
    ((hsv_f 4000000000 = (4000000000 % 600 * 1000) / 600 ∧ hsv_f 4000000000 ≤ 998) ∧
    (700 ≤ 1000 ∧ 700 * hsv_f 4000000000 / 1000 ≤ 1000 ∧ hsv_f 4000000000 ≤ 1000 ∧
      700 * (1000 - hsv_f 4000000000) / 1000 ≤ 1000 ∧
      u32sub 1000 700 = 1000 - 700 ∧
      u32sub 1000 (hsv_f 4000000000) = 1000 - hsv_f 4000000000 ∧
      u32sub 1000 (700 * hsv_f 4000000000 / 1000) = 1000 - 700 * hsv_f 4000000000 / 1000 ∧
      u32sub 1000 (700 * (1000 - hsv_f 4000000000) / 1000)
        = 1000 - 700 * (1000 - hsv_f 4000000000) / 1000) ∧
    (4000000000 % 600 * 1000 < 2 ^ 32 ∧ 900 * (1000 - 700) < 2 ^ 32 ∧
      700 * hsv_f 4000000000 < 2 ^ 32 ∧
      700 * (1000 - hsv_f 4000000000) < 2 ^ 32 ∧
      900 * (1000 - 700 * hsv_f 4000000000 / 1000) < 2 ^ 32 ∧
      900 * (1000 - 700 * (1000 - hsv_f 4000000000) / 1000) < 2 ^ 32 ∧ 255 * 900 < 2 ^ 32 ∧
      255 * hsv_p 700 900 < 2 ^ 32 ∧ 255 * hsv_q 4000000000 700 900 < 2 ^ 32 ∧
      255 * hsv_t 4000000000 700 900 < 2 ^ 32) ∧
    (hsv_p 700 900 = 900 * (1000 - 700) / 1000 ∧
      hsv_q 4000000000 700 900 = 900 * (1000 - 700 * hsv_f 4000000000 / 1000) / 1000 ∧
      hsv_t 4000000000 700 900
        = 900 * (1000 - 700 * (1000 - hsv_f 4000000000) / 1000) / 1000 ∧
      hsv_p 700 900 ≤ 900 ∧ hsv_q 4000000000 700 900 ≤ 900 ∧
      hsv_t 4000000000 700 900 ≤ 900) ∧
    (channel 900 = 255 * 900 / 1000 ∧ channel (hsv_p 700 900) = 255 * hsv_p 700 900 / 1000 ∧
      channel (hsv_q 4000000000 700 900) = 255 * hsv_q 4000000000 700 900 / 1000 ∧
      channel (hsv_t 4000000000 700 900) = 255 * hsv_t 4000000000 700 900 / 1000 ∧
      255 * 900 / 1000 ≤ 255 ∧ 255 * hsv_p 700 900 / 1000 ≤ 255 ∧
      255 * hsv_q 4000000000 700 900 / 1000 ≤ 255 ∧
      255 * hsv_t 4000000000 700 900 / 1000 ≤ 255) ∧
    (∀ rgb : Nat × Nat × Nat, rgb.1 ≤ 255 → rgb.2.1 ≤ 255 → rgb.2.2 ≤ 255 →
      (hsvCore rgb 4000000000 700 900).1 ≤ 255 ∧ (hsvCore rgb 4000000000 700 900).2.1 ≤ 255 ∧
        (hsvCore rgb 4000000000 700 900).2.2 ≤ 255)) :=
  ⟨by decide, hsv_arithmetic_never_wraps 4000000000 700 900 (by decide) (by decide)
    (by decide)⟩

/-- C20: `hsv_to_rgb` writes the output triple if and only if `s = 0` or
`h / 600 ≤ 5`: its result does not depend on the bytes passed in exactly in that
case; when `s ≠ 0` and `h ≥ 3600` (as for `hue = 1.0` exactly) no case matches and
the three bytes are returned as passed; when `s = 0` all three channels are the
grey value `(255 * v) / 1000`, whatever `h`. -/
theorem hsv_writes_iff_sector_in_range (h s v : Nat) :
    ((∀ rgb rgb' : Nat × Nat × Nat, hsvCore rgb h s v = hsvCore rgb' h s v) ↔
      (s = 0 ∨ h / 600 ≤ 5)) ∧
    (s ≠ 0 → 3600 ≤ h → ∀ rgb : Nat × Nat × Nat, hsvCore rgb h s v = rgb) ∧
    (s = 0 → ∀ rgb : Nat × Nat × Nat,
      hsvCore rgb h s v = (channel v, channel v, channel v)) ∧
    (v ≤ 1000 → channel v = 255 * v / 1000) ∧
    (toU32 ((1 : ℚ) * 3600) = 3600 ∧
      ∀ rgb : Nat × Nat × Nat, hsv_to_rgb rgb (1 : ℚ) 1 1 = rgb) := by
  refine ⟨⟨?_, ?_⟩, ?_, ?_, ?_, ?_⟩
  · intro hall
    by_contra hc
    rw [not_or] at hc
    have hsec : 6 ≤ h / 600 := by omega
    have e1 := hsvCore_none (0, 0, 0) h s v hc.1 hsec
    have e2 := hsvCore_none (1, 0, 0) h s v hc.1 hsec
    have := hall (0, 0, 0) (1, 0, 0)
    rw [e1, e2] at this
    exact absurd this (by decide)
  · rintro (hs | hsec) rgb rgb'
    · unfold hsvCore; rw [if_pos hs, if_pos hs]
    · exact hsvCore_some rgb rgb' h s v hsec
  · intro hs hh rgb
    exact hsvCore_none rgb h s v hs (by omega)
  · intro hs rgb
    unfold hsvCore; rw [if_pos hs]
  · intro hv
    exact (channel_eq v hv).1
  · have h1 : toU32 ((1 : ℚ) * 3600) = 3600 := by
      have : (1 : ℚ) * 3600 = ((3600 : Nat) : ℚ) := by norm_num
      rw [this, toU32_natCast 3600 (by norm_num)]
    refine ⟨h1, fun rgb => ?_⟩
    unfold hsv_to_rgb
    rw [h1, toU32_sat]
    exact hsvCore_none rgb 3600 1000 1000 (by norm_num) (by norm_num)

end Jbcs

namespace Jbcs

/-! ## Points that escape at a prescribed step, and the wrap of the counter `i` -/

theorem axisOrbit_continuous (k : Nat) : Continuous (fun c : ℝ => axisOrbit c k) := by
  induction k with
  | zero => exact continuous_const
  | succ k ih => exact (ih.pow 2).add continuous_id

theorem axisOrbit_nonneg (c : ℝ) (hc : 0 ≤ c) (k : Nat) : 0 ≤ axisOrbit c k := by
  cases k with
  | zero => exact le_refl _
  | succ k => exact add_nonneg (sq_nonneg _) hc

theorem axisOrbit_mono_point (c c' : ℝ) (hc : 0 ≤ c) (hcc : c ≤ c') (k : Nat) :
    axisOrbit c k ≤ axisOrbit c' k := by
  induction k with
  | zero => exact le_refl _
  | succ k ih =>
    exact add_le_add (pow_le_pow_left₀ (axisOrbit_nonneg c hc k) ih 2) hcc

theorem axisOrbit_mono_step (c : ℝ) (hc : 0 ≤ c) (k : Nat) :
    axisOrbit c k ≤ axisOrbit c (k + 1) := by
  induction k with
  | zero => exact axisOrbit_nonneg c hc 1
  | succ k ih =>
    exact add_le_add (pow_le_pow_left₀ (axisOrbit_nonneg c hc k) ih 2) (le_refl c)

theorem axisOrbit_mono_le (c : ℝ) (hc : 0 ≤ c) (j k : Nat) (hjk : j ≤ k) :
    axisOrbit c j ≤ axisOrbit c k := by
  induction hjk with
  | refl => exact le_refl _
  | step _ ih => exact le_trans ih (axisOrbit_mono_step c hc _)

theorem axisOrbit_zero (k : Nat) : axisOrbit (0 : ℝ) k = 0 := by
  induction k with
  | zero => rfl
  | succ k ih => simp [axisOrbit, ih]

theorem axisOrbit_cast (q : ℚ) (k : Nat) : ((axisOrbit q k : ℚ) : ℝ) = axisOrbit (q : ℝ) k := by
  induction k with
  | zero => simp [axisOrbit]
  | succ k ih => simp [axisOrbit, ih]

theorem orbit_axis (q : ℚ) (k : Nat) : orbit q 0 k = (axisOrbit q k, 0) := by
  induction k with
  | zero => rfl
  | succ k ih =>
    rw [orbit, ih]
    simp [orbitStep, axisOrbit]
    ring

theorem exists_real_escape (K : Nat) :
    ∃ q : ℚ, (∀ j, j ≤ K → axisOrbit (q : ℝ) j < 2) ∧ 2 ≤ axisOrbit (q : ℝ) (K + 1) ∧
      0 ≤ (q : ℝ) := by
  have hcont := axisOrbit_continuous (K + 1)
  have hivt := intermediate_value_Icc (show (0 : ℝ) ≤ 2 by norm_num) hcont.continuousOn
  have hmem : (2 : ℝ) ∈ Set.Icc (axisOrbit (0 : ℝ) (K + 1)) (axisOrbit (2 : ℝ) (K + 1)) := by
    constructor
    · rw [axisOrbit_zero]; norm_num
    · show (2 : ℝ) ≤ axisOrbit 2 K ^ 2 + 2
      nlinarith [sq_nonneg (axisOrbit (2 : ℝ) K)]
  obtain ⟨c, ⟨hc0, _⟩, hc⟩ := hivt hmem
  have hc' : axisOrbit c K ^ 2 + c = 2 := hc
  have hcpos : 0 < c := by
    rcases hc0.lt_or_eq with h | h
    · exact h
    · rw [← h, axisOrbit_zero] at hc'
      norm_num at hc'
  have ha0 := axisOrbit_nonneg c hc0 K
  have ha : axisOrbit c K < 2 := by nlinarith
  have hopen : IsOpen {x : ℝ | axisOrbit x K < 2} :=
    isOpen_lt (axisOrbit_continuous K) continuous_const
  obtain ⟨ε, hε, hball⟩ := Metric.isOpen_iff.mp hopen c ha
  obtain ⟨q, hq1, hq2⟩ := exists_rat_btwn (show c < c + ε by linarith)
  have hq0 : (0 : ℝ) ≤ (q : ℝ) := by linarith
  have hin : (q : ℝ) ∈ Metric.ball c ε := by
    rw [Metric.mem_ball, Real.dist_eq, abs_lt]
    constructor <;> linarith
  have hqK : axisOrbit (q : ℝ) K < 2 := hball hin
  refine ⟨q, ?_, ?_, hq0⟩
  · intro j hj
    exact lt_of_le_of_lt (axisOrbit_mono_le (q : ℝ) hq0 j K hj) hqK
  · calc (2 : ℝ) = axisOrbit c (K + 1) := hc.symm
      _ ≤ axisOrbit (q : ℝ) (K + 1) := axisOrbit_mono_point c q hc0 hq1.le (K + 1)

/-- For every `K ≥ 1` there is a rational point of the real axis whose orbit first
leaves the disc `|z|² < 4` at step `K` exactly. -/
theorem exists_escape_at (K : Nat) (hK : 1 ≤ K) :
    ∃ q : ℚ, (∀ j, j < K → normSq (orbit q 0 j) < 4) ∧ 4 ≤ normSq (orbit q 0 K) := by
  obtain ⟨K', rfl⟩ : ∃ K', K = K' + 1 := ⟨K - 1, by omega⟩
  obtain ⟨q, hlt, hge, hq0⟩ := exists_real_escape K'
  refine ⟨q, ?_, ?_⟩
  · intro j hj
    have h1 := hlt j (by omega)
    have h0 := axisOrbit_nonneg (q : ℝ) hq0 j
    rw [orbit_axis]
    have : ((normSq (axisOrbit q j, 0) : ℚ) : ℝ) < ((4 : ℚ) : ℝ) := by
      simp only [normSq]
      push_cast
      rw [axisOrbit_cast]
      nlinarith
    exact_mod_cast this
  · rw [orbit_axis]
    have : ((4 : ℚ) : ℝ) ≤ ((normSq (axisOrbit q (K' + 1), 0) : ℚ) : ℝ) := by
      simp only [normSq]
      push_cast
      rw [axisOrbit_cast]
      nlinarith
    exact_mod_cast this

/-- While the orbit stays in the disc and the bound is at least `2^32`, the inner
loop keeps running and its counter is the step number modulo `2^32`. -/
theorem escapeLoop_run (M : Nat) (px py : ℚ) (hM : 2 ^ 32 ≤ M) :
    ∀ (n fuel j : Nat), (∀ m, j ≤ m → m < j + n → normSq (orbit px py m) < 4) →
      escapeLoop M px py (fuel + n) (j % 2 ^ 32) (orbit px py j).1 (orbit px py j).2
        = escapeLoop M px py fuel ((j + n) % 2 ^ 32) (orbit px py (j + n)).1
            (orbit px py (j + n)).2 := by
  intro n
  induction n with
  | zero => intro fuel j _; rfl
  | succ n ih =>
    intro fuel j hin
    have hfuel : fuel + (n + 1) = (fuel + n) + 1 := by ring
    rw [hfuel, escapeLoop]
    have hcond : j % 2 ^ 32 < M ∧
        (orbit px py j).1 * (orbit px py j).1 + (orbit px py j).2 * (orbit px py j).2 < 4 := by
      refine ⟨lt_of_lt_of_le (Nat.mod_lt _ (by norm_num)) hM, ?_⟩
      exact hin j (le_refl _) (by omega)
    rw [if_pos hcond]
    have hmod : (j % 2 ^ 32 + 1) % 2 ^ 32 = (j + 1) % 2 ^ 32 := by omega
    rw [hmod]
    have := ih fuel (j + 1) (fun m h1 h2 => hin m (by omega) (by omega))
    have hj : j + 1 + n = j + (n + 1) := by ring
    rw [hj] at this
    exact this

/-- With `max_iters = 2^32` there is a plane point for which the inner loop is
left with `i = 0`: the counter has wrapped when the orbit escapes. -/
theorem exists_count_zero :
    ∃ q : ℚ, ∀ fuel, 2 ^ 32 < fuel → escapeLoop (2 ^ 32) q 0 fuel 0 0 0 = some 0 := by
  obtain ⟨q, hlt, hge⟩ := exists_escape_at (2 ^ 32) (by norm_num)
  refine ⟨q, ?_⟩
  intro fuel hf
  obtain ⟨f, rfl⟩ : ∃ f, fuel = (f + 1) + 2 ^ 32 := ⟨fuel - 2 ^ 32 - 1, by omega⟩
  have hrun := escapeLoop_run (2 ^ 32) q 0 (le_refl _) (2 ^ 32) (f + 1) 0
    (fun m _ h2 => hlt m (by omega))
  have h0 : (0 : Nat) % 2 ^ 32 = 0 := rfl
  have h1 : (0 + 2 ^ 32) % 2 ^ 32 = 0 := by norm_num
  rw [h0, h1] at hrun
  have ho : orbit q 0 0 = (0, 0) := rfl
  rw [ho] at hrun
  rw [hrun, escapeLoop]
  have hn : ¬ (0 < 2 ^ 32 ∧
      (orbit q 0 (0 + 2 ^ 32)).1 * (orbit q 0 (0 + 2 ^ 32)).1
        + (orbit q 0 (0 + 2 ^ 32)).2 * (orbit q 0 (0 + 2 ^ 32)).2 < 4) := by
    intro h
    have h4 : 4 ≤ normSq (orbit q 0 (0 + 2 ^ 32)) := by
      rw [Nat.zero_add]; exact hge
    exact absurd h.2 (not_lt.mpr h4)
  rw [if_neg hn]

end Jbcs

namespace Jbcs

/-! ## mandel.c: runs with any iteration bound -/

theorem colLoop_fill {V : Type} (log : ℚ → V) (fuel M width height : Nat)
    (x0 y0 x1 y1 : ℚ) (h : Nat) (hw : width < 2 ^ 32) :
    ∀ (k w : Nat) (data : Nat → V), w ≤ width → width - w < k →
      colLoop log fuel M width height x0 y0 x1 y1 h k w data
        = fillPixels log fuel M width height x0 y0 x1 y1
            ((List.range' w (width - w)).map (fun c => (h, c))) data := by
  intro k
  induction k with
  | zero => intro w data _ hk; omega
  | succ k ih =>
    intro w data hle hk
    rw [colLoop]
    by_cases hc : w < width
    · rw [if_pos hc]
      obtain ⟨d, hd⟩ : ∃ d, width - w = d + 1 := ⟨width - w - 1, by omega⟩
      have hd2 : width - (w + 1) = d := by omega
      rw [hd, List.range'_succ, List.map_cons, fillPixels_cons]
      cases hpb : pixelBody log fuel M width height x0 y0 x1 y1 data h w with
      | none => rfl
      | some d1 =>
        have hmod : (w + 1) % 2 ^ 32 = w + 1 := Nat.mod_eq_of_lt (by omega)
        simp only [hmod, Option.some_bind]
        rw [ih (w + 1) d1 hc (by omega), hd2]
    · rw [if_neg hc]
      have : width - w = 0 := by omega
      rw [this]; rfl

theorem rowLoop_fill {V : Type} (log : ℚ → V) (fuel M width height : Nat)
    (x0 y0 x1 y1 : ℚ) (hw : width < 2 ^ 32) (hfw : width < fuel) (hh : height < 2 ^ 32) :
    ∀ (k h : Nat) (data : Nat → V), h ≤ height → height - h < k →
      rowLoop log fuel M width height x0 y0 x1 y1 k h data
        = fillPixels log fuel M width height x0 y0 x1 y1
            ((List.range' h (height - h)).flatMap
              (fun r => (List.range width).map (fun c => (r, c)))) data := by
  intro k
  induction k with
  | zero => intro h data _ hk; omega
  | succ k ih =>
    intro h data hle hk
    rw [rowLoop]
    by_cases hc : h < height
    · rw [if_pos hc,
        colLoop_fill log fuel M width height x0 y0 x1 y1 h hw fuel 0 data
          (Nat.zero_le _) (by omega)]
      obtain ⟨d, hd⟩ : ∃ d, height - h = d + 1 := ⟨height - h - 1, by omega⟩
      have hd2 : height - (h + 1) = d := by omega
      rw [hd, List.range'_succ, List.flatMap_cons, fillPixels_append, Nat.sub_zero,
        ← List.range_eq_range']
      cases hrow : fillPixels log fuel M width height x0 y0 x1 y1
          ((List.range width).map (fun c => (h, c))) data with
      | none => rfl
      | some d1 =>
        have hmod : (h + 1) % 2 ^ 32 = h + 1 := Nat.mod_eq_of_lt (by omega)
        simp only [hmod, Option.some_bind]
        rw [ih (h + 1) d1 hc (by omega), hd2]
    · rw [if_neg hc]
      have : height - h = 0 := by omega
      rw [this]; rfl

/-- On a grid with dimensions below `2^32` and with fuel for the two pixel loops,
`mandel` is the run of its loop body over the row-major pixel list. -/
theorem mandel_fill {V : Type} (log : ℚ → V) (fuel : Nat) (data : Nat → V)
    (M width height : Nat) (x0 y0 x1 y1 : ℚ)
    (hw : width < 2 ^ 32) (hh : height < 2 ^ 32) (hfw : width < fuel) (hfh : height < fuel) :
    mandel log fuel data M width height x0 y0 x1 y1
      = fillPixels log fuel M width height x0 y0 x1 y1 (rowMajor width height) data := by
  unfold mandel
  rw [rowLoop_fill log fuel M width height x0 y0 x1 y1 hw hfw hh fuel 0 data
    (Nat.zero_le _) (by omega), Nat.sub_zero, ← List.range_eq_range']
  rfl

theorem rowMajor_length (width height : Nat) :
    (rowMajor width height).length = width * height := by
  unfold rowMajor
  rw [length_flatMap_sum]
  simp only [List.length_map, List.length_range]
  rw [List.map_const', List.sum_replicate, List.length_range]
  simp [Nat.mul_comm]

theorem mandel_none_of_count_none {V : Type} (log : ℚ → V) (fuel : Nat) (data : Nat → V)
    (M width height : Nat) (x0 y0 x1 y1 : ℚ) (p : Nat × Nat)
    (hp : p ∈ rowMajor width height)
    (hnone : pixelCount fuel M width height x0 y0 x1 y1 p = none) :
    mandel log fuel data M width height x0 y0 x1 y1 = none := by
  cases hrun : mandel log fuel data M width height x0 y0 x1 y1 with
  | none => rfl
  | some field =>
    obtain ⟨_, _, hfill⟩ := mandel_some log fuel data field M width height x0 y0 x1 y1 hrun
    obtain ⟨i, hi⟩ := counts_of_fill log fuel M width height x0 y0 x1 y1 _ data field hfill p hp
    rw [hnone] at hi
    cases hi

end Jbcs

namespace Jbcs

/-! ## mandel.c: when `log(0)` is stored -/

theorem planeX_flat (width : Nat) (x0 : ℚ) (w : Nat) (hw : sizePred width ≠ 0) :
    planeX width x0 x0 w = some x0 := by
  rw [planeX_of_ne_zero width x0 x0 w hw]; congr 1; simp

theorem planeY_flat (height : Nat) (y0 : ℚ) (h : Nat) (hh : sizePred height ≠ 0) :
    planeY height y0 y0 h = some y0 := by
  rw [planeY_of_ne_zero height y0 y0 h hh]; congr 1; simp

theorem sizePred_two : sizePred 2 ≠ 0 := by decide

theorem escapeLoop_first (M : Nat) (px py : ℚ) (h1 : 1 ≤ M) (fuel : Nat) :
    escapeLoop M px py (fuel + 1) 0 0 0 = escapeLoop M px py fuel 1 px py := by
  rw [escapeLoop]
  have hc : 0 < M ∧ (0 : ℚ) * 0 + 0 * 0 < 4 := ⟨by omega, by norm_num⟩
  rw [if_pos hc]
  norm_num

/-- A run of the inner loop that is left within `2^32` evaluations of its test
has not wrapped its counter: the count is at least the counter it started from. -/
theorem escapeLoop_ge (M : Nat) (px py : ℚ) :
    ∀ (fuel i : Nat) (x y : ℚ) (n : Nat), i + fuel ≤ 2 ^ 32 →
      escapeLoop M px py fuel i x y = some n → i ≤ n := by
  intro fuel
  induction fuel with
  | zero => intro i x y n _ h; cases h
  | succ f ih =>
    intro i x y n hle h
    rw [escapeLoop] at h
    by_cases hc : i < M ∧ x * x + y * y < 4
    · rw [if_pos hc] at h
      rcases Nat.eq_zero_or_pos f with hf0 | hfpos
      · subst hf0
        cases h
      · have hmod : (i + 1) % 2 ^ 32 = i + 1 := Nat.mod_eq_of_lt (by omega)
        rw [hmod] at h
        have := ih (i + 1) _ _ n (by omega) h
        omega
    · rw [if_neg hc] at h
      have : i = n := Option.some.inj h
      omega

/-- For any bound `max_iters ≥ 1`, a run of the inner loop from `z = 0` that is
left within `2^32` evaluations of its test is left with a count of at least `1`. -/
theorem escapeLoop_count_pos (M : Nat) (px py : ℚ) (h1 : 1 ≤ M) (fuel n : Nat)
    (hfuel : fuel ≤ 2 ^ 32) (h : escapeLoop M px py fuel 0 0 0 = some n) : 1 ≤ n := by
  obtain ⟨f, rfl⟩ : ∃ f, fuel = f + 1 := by
    rcases Nat.eq_zero_or_pos fuel with h0 | hpos
    · subst h0; cases h
    · exact ⟨fuel - 1, by omega⟩
  rw [escapeLoop_first M px py h1 f] at h
  exact escapeLoop_ge M px py f 1 px py n (by omega) h

/-- In exact arithmetic, with `max_iters = 2^32`, which is not `0`, there is a
rational window for which every pixel of the 2 by 2 grid is left with the count
`0`, the 32-bit counter having wrapped when the orbit escapes, and `mandel`
returns a field whose cell `0` is `log 0`. -/
theorem count_zero_with_nonzero_max_iters :
    ∃ x0 : ℚ, (2 : Nat) ^ 32 ≠ 0 ∧
      pixelCount (2 ^ 32 + 1) (2 ^ 32) 2 2 x0 0 x0 0 (0, 0) = some 0 ∧
      ∃ field, mandel (fun q : ℚ => q) (2 ^ 32 + 1) (fun _ => 1) (2 ^ 32) 2 2 x0 0 x0 0
          = some field ∧ field 0 = ((0 : Nat) : ℚ) := by
  obtain ⟨q, hq⟩ := exists_count_zero
  have hcount : ∀ p : Nat × Nat,
      pixelCount (2 ^ 32 + 1) (2 ^ 32) 2 2 q 0 q 0 p = some 0 := by
    intro p
    unfold pixelCount
    rw [planeX_flat 2 q p.2 sizePred_two, planeY_flat 2 0 p.1 sizePred_two, pixelLoop_some]
    exact hq _ (by norm_num)
  refine ⟨q, by norm_num, hcount (0, 0), ?_⟩
  have hfill := fill_of_counts (fun q : ℚ => q) (2 ^ 32 + 1) (2 ^ 32) 2 2 q 0 q 0
    (rowMajor 2 2) (fun p _ => ⟨0, hcount p⟩) (fun _ => 1)
  rw [← mandel_fill (fun q : ℚ => q) (2 ^ 32 + 1) (fun _ => 1) (2 ^ 32) 2 2 q 0 q 0
    (by norm_num) (by norm_num) (by norm_num) (by norm_num)] at hfill
  refine ⟨_, hfill, ?_⟩
  have hmaj : rowMajor 2 2 = [(0, 0), (0, 1), (1, 0), (1, 1)] := by decide
  rw [hmaj]
  simp only [List.foldl_cons, List.foldl_nil, codeStore, hcount, store, pixelIdx]
  norm_num

/-- For `max_iters < 2^32` and every grid, window and pixel, the count `n` passed
to `log` is `0` if and only if `max_iters = 0`; for every `max_iters ≥ 1` the
starting point passes the test `0 < 4`, so the loop performs at least one
iteration; for `max_iters = 0` the body stores `log 0` for every pixel, without
clamping. -/
theorem log_zero_only_for_zero_max_iters (fuel max_iters width height : Nat)
    (x0 y0 x1 y1 : ℚ) (row col : Nat) (hM : max_iters < 2 ^ 32) (hf : max_iters < fuel) :
    (∃ n : Nat, pixelCount fuel max_iters width height x0 y0 x1 y1 (row, col) = some n ∧
      (n = 0 ↔ max_iters = 0)) ∧
    (∀ (M : Nat) (px py : ℚ) (f : Nat), 1 ≤ M →
      escapeLoop M px py (f + 1) 0 0 0 = escapeLoop M px py f 1 px py) ∧
    (∀ (V : Type) (log : ℚ → V) (data : Nat → V) (f : Nat),
      pixelBody log (f + 1) 0 width height x0 y0 x1 y1 data row col
        = some (store data ((row * width + col) % 2 ^ 64) (log ((0 : Nat) : ℚ)))) := by
  refine ⟨?_, fun M px py f h1 => escapeLoop_first M px py h1 f, ?_⟩
  · have hl := planeCount_le max_iters (planeX width x0 x1 col) (planeY height y0 y1 row)
    have hp : 1 ≤ max_iters →
        1 ≤ planeCount max_iters (planeX width x0 x1 col) (planeY height y0 y1 row) :=
      planeCount_pos max_iters (planeX width x0 x1 col) (planeY height y0 y1 row)
    refine ⟨planeCount max_iters (planeX width x0 x1 col) (planeY height y0 y1 row),
      pixelLoop_eq max_iters _ _ hM fuel hf, ?_⟩
    constructor
    · intro h0
      by_contra hne
      have := hp (by omega)
      omega
    · intro h0
      omega
  · intro V log data f
    have h0 := planeCount_le 0 (planeX width x0 x1 col) (planeY height y0 y1 row)
    rw [pixelBody_eq log (f + 1) 0 width height x0 y0 x1 y1 data row col (by norm_num)
      (by omega)]
    simp only [pixelStore, pixelVal, pixelIdx, Nat.le_zero.mp h0]

theorem log_zero_only_for_zero_max_iters_witness :
    (10 < 2 ^ 32 ∧ 10 < 11) ∧
    ((∃ n : Nat, pixelCount 11 10 3 3 (-1) (-1) 1 1 (0, 0) = some n ∧ (n = 0 ↔ 10 = 0)) ∧
    (∀ (M : Nat) (px py : ℚ) (f : Nat), 1 ≤ M →
      escapeLoop M px py (f + 1) 0 0 0 = escapeLoop M px py f 1 px py) ∧
    (∀ (V : Type) (log : ℚ → V) (data : Nat → V) (f : Nat),
      pixelBody log (f + 1) 0 3 3 (-1) (-1) 1 1 data 0 0
        = some (store data ((0 * 3 + 0) % 2 ^ 64) (log ((0 : Nat) : ℚ))))) :=
  ⟨by decide, log_zero_only_for_zero_max_iters 11 10 3 3 (-1) (-1) 1 1 0 0
    (by decide) (by decide)⟩

end Jbcs

namespace Jbcs

/-! ## mandel.c: normalisation of the field -/

theorem hue_range (M n : Nat) (h1 : 1 ≤ n) (hn : n ≤ M) (hM : M < 2 ^ 32) :
    0 ≤ hueOf (fun q : ℚ => Real.log (q : ℝ)) M (Real.log ((n : ℚ) : ℝ)) ∧
      hueOf (fun q : ℚ => Real.log (q : ℝ)) M (Real.log ((n : ℚ) : ℝ)) < 1 := by
  unfold hueOf
  have hmod : (M + 1) % 2 ^ 64 = M + 1 := Nat.mod_eq_of_lt (by omega)
  have hc1 : (((n : ℚ) : ℝ)) = (n : ℝ) := by norm_cast
  have hc2 : ((((M + 1) % 2 ^ 64 : Nat) : ℚ) : ℝ) = (M : ℝ) + 1 := by
    rw [hmod]; push_cast; ring
  simp only [hc1, hc2]
  have hn1 : (1 : ℝ) ≤ (n : ℝ) := by exact_mod_cast h1
  have hnM : (n : ℝ) ≤ (M : ℝ) := by exact_mod_cast hn
  have hnum : 0 ≤ Real.log (n : ℝ) := Real.log_nonneg hn1
  have hden : 0 < Real.log ((M : ℝ) + 1) := Real.log_pos (by linarith)
  have hlt : Real.log (n : ℝ) < Real.log ((M : ℝ) + 1) :=
    Real.log_lt_log (by linarith) (by linarith)
  exact ⟨div_nonneg hnum hden.le, (div_lt_one hden).mpr hlt⟩

/-- In exact arithmetic, with `max_iters = 2^32 ≥ 1` there is a rational window
for which the loop body stores `log 0` for a pixel, and for any `log` that is
negative at `0` (as `log(0) = -∞` is) and positive at `max_iters + 1` the hue of
that cell is negative. -/
theorem hue_negative_when_counter_wraps :
    ∃ x0 : ℚ, 1 ≤ (2 : Nat) ^ 32 ∧
      (∀ (log : ℚ → ℝ) (data : Nat → ℝ),
        pixelBody log (2 ^ 32 + 1) (2 ^ 32) 2 2 x0 0 x0 0 data 0 0
          = some (store data ((0 * 2 + 0) % 2 ^ 64) (log ((0 : Nat) : ℚ)))) ∧
      ∀ log : ℚ → ℝ, log ((0 : Nat) : ℚ) < 0 →
        0 < log ((((2 ^ 32 + 1) % 2 ^ 64 : Nat)) : ℚ) →
        ¬ (0 ≤ hueOf log (2 ^ 32) (log ((0 : Nat) : ℚ))) := by
  obtain ⟨q, hq⟩ := exists_count_zero
  refine ⟨q, by norm_num, ?_, ?_⟩
  · intro log data
    unfold pixelBody
    rw [planeX_flat 2 q 0 sizePred_two, planeY_flat 2 0 0 sizePred_two, pixelLoop_some,
      hq _ (by norm_num)]
  · intro log h0 hpos
    unfold hueOf
    exact not_le.mpr (div_neg_of_neg_of_pos h0 hpos)

/-- For `1 ≤ max_iters < 2^32` and every cell value `log n` the
loop body of `mandel` stores, the hue `log n / log (max_iters + 1)` passed to
`hsv_to_rgb` satisfies `0 ≤ hue < 1`, so `h = floor(3600 * hue) ≤ 3599` and the
sector `h / 600` is at most `5`; with `s = 1000 ≠ 0` one of the six cases is taken
and all three bytes are assigned: the colour does not depend on the bytes passed
in, its largest channel is `255`, and it is not the initial `{0, 0, 6}`. -/
theorem normalized_hue_selects_a_sector (fuel max_iters width height : Nat)
    (x0 y0 x1 y1 : ℚ) (data : Nat → ℝ) (row col : Nat)
    (h1 : 1 ≤ max_iters) (hM : max_iters < 2 ^ 32) (hf : max_iters < fuel) :
    ∃ n : Nat,
      pixelBody (fun q : ℚ => Real.log (q : ℝ)) fuel max_iters width height x0 y0 x1 y1
          data row col
        = some (store data ((row * width + col) % 2 ^ 64) (Real.log ((n : ℚ) : ℝ))) ∧
      0 ≤ hueOf (fun q : ℚ => Real.log (q : ℝ)) max_iters (Real.log ((n : ℚ) : ℝ)) ∧
      hueOf (fun q : ℚ => Real.log (q : ℝ)) max_iters (Real.log ((n : ℚ) : ℝ)) < 1 ∧
      toU32 (hueOf (fun q : ℚ => Real.log (q : ℝ)) max_iters (Real.log ((n : ℚ) : ℝ)) * 3600)
        ≤ 3599 ∧
      toU32 (hueOf (fun q : ℚ => Real.log (q : ℝ)) max_iters (Real.log ((n : ℚ) : ℝ)) * 3600)
        / 600 ≤ 5 ∧
      toU32 ((1 : ℝ) * 1000) = 1000 ∧
      (∀ rgb : Nat × Nat × Nat,
        hsv_to_rgb rgb
            (hueOf (fun q : ℚ => Real.log (q : ℝ)) max_iters (Real.log ((n : ℚ) : ℝ))) 1 1
          = encodeCell (fun q : ℚ => Real.log (q : ℝ)) max_iters (Real.log ((n : ℚ) : ℝ))) ∧
      max (encodeCell (fun q : ℚ => Real.log (q : ℝ)) max_iters (Real.log ((n : ℚ) : ℝ))).1
        (max
          (encodeCell (fun q : ℚ => Real.log (q : ℝ)) max_iters (Real.log ((n : ℚ) : ℝ))).2.1
          (encodeCell (fun q : ℚ => Real.log (q : ℝ)) max_iters (Real.log ((n : ℚ) : ℝ))).2.2)
        = 255 ∧
      encodeCell (fun q : ℚ => Real.log (q : ℝ)) max_iters (Real.log ((n : ℚ) : ℝ))
        ≠ (0, 0, 6) := by
  have hp := planeCount_pos max_iters (planeX width x0 x1 col) (planeY height y0 y1 row) h1
  have hl := planeCount_le max_iters (planeX width x0 x1 col) (planeY height y0 y1 row)
  obtain ⟨hue0, hue1⟩ := hue_range max_iters _ hp hl hM
  have hh := toU32_hue _ hue0 hue1
  have hind : ∀ rgb : Nat × Nat × Nat,
      hsv_to_rgb rgb (hueOf (fun q : ℚ => Real.log (q : ℝ)) max_iters
          (Real.log (((planeCount max_iters (planeX width x0 x1 col)
            (planeY height y0 y1 row) : Nat) : ℚ) : ℝ))) 1 1
        = encodeCell (fun q : ℚ => Real.log (q : ℝ)) max_iters
          (Real.log (((planeCount max_iters (planeX width x0 x1 col)
            (planeY height y0 y1 row) : Nat) : ℚ) : ℝ)) := by
    intro rgb
    unfold encodeCell hsv_to_rgb
    exact hsvCore_some _ _ _ _ _ (by omega)
  have hmax : max (encodeCell (fun q : ℚ => Real.log (q : ℝ)) max_iters
        (Real.log (((planeCount max_iters (planeX width x0 x1 col)
          (planeY height y0 y1 row) : Nat) : ℚ) : ℝ))).1
      (max (encodeCell (fun q : ℚ => Real.log (q : ℝ)) max_iters
        (Real.log (((planeCount max_iters (planeX width x0 x1 col)
          (planeY height y0 y1 row) : Nat) : ℚ) : ℝ))).2.1
        (encodeCell (fun q : ℚ => Real.log (q : ℝ)) max_iters
        (Real.log (((planeCount max_iters (planeX width x0 x1 col)
          (planeY height y0 y1 row) : Nat) : ℚ) : ℝ))).2.2) = 255 := by
    unfold encodeCell
    unfold hsv_to_rgb
    rw [toU32_sat, hsvCore_full _ _ hh]
    have c1 := (channel_eq (hsv_f (toU32 (hueOf (fun q : ℚ => Real.log (q : ℝ)) max_iters
        (Real.log (((planeCount max_iters (planeX width x0 x1 col)
          (planeY height y0 y1 row) : Nat) : ℚ) : ℝ)) * 3600)))
        (by have := (hsv_f_eq (toU32 (hueOf (fun q : ℚ => Real.log (q : ℝ)) max_iters
              (Real.log (((planeCount max_iters (planeX width x0 x1 col)
                (planeY height y0 y1 row) : Nat) : ℚ) : ℝ)) * 3600))).2
            omega)).2
    have c2 := (channel_eq (1000 - hsv_f (toU32 (hueOf (fun q : ℚ => Real.log (q : ℝ))
        max_iters (Real.log (((planeCount max_iters (planeX width x0 x1 col)
          (planeY height y0 y1 row) : Nat) : ℚ) : ℝ)) * 3600))) (by omega)).2
    exact (sector_triple _ _ _ (by omega) c1 c2).1
  have hsec : toU32 (hueOf (fun q : ℚ => Real.log (q : ℝ)) max_iters
      (Real.log (((planeCount max_iters (planeX width x0 x1 col)
        (planeY height y0 y1 row) : Nat) : ℚ) : ℝ)) * 3600) / 600 ≤ 5 := by omega
  refine ⟨planeCount max_iters (planeX width x0 x1 col) (planeY height y0 y1 row),
    pixelBody_eq _ fuel max_iters width height x0 y0 x1 y1 data row col hM hf,
    hue0, hue1, hh, hsec, toU32_sat, hind, hmax, ?_⟩
  intro heq
  rw [heq] at hmax
  exact absurd hmax (by decide)

theorem normalized_hue_selects_a_sector_witness :
    (1 ≤ 10 ∧ 10 < 2 ^ 32 ∧ 10 < 11) ∧
    ∃ n : Nat,
      pixelBody (fun q : ℚ => Real.log (q : ℝ)) 11 10 3 3 (-1) (-1) 1 1 (fun _ => 0) 1 1
        = some (store (fun _ => 0) ((1 * 3 + 1) % 2 ^ 64) (Real.log ((n : ℚ) : ℝ))) ∧
      0 ≤ hueOf (fun q : ℚ => Real.log (q : ℝ)) 10 (Real.log ((n : ℚ) : ℝ)) ∧
      hueOf (fun q : ℚ => Real.log (q : ℝ)) 10 (Real.log ((n : ℚ) : ℝ)) < 1 ∧
      toU32 (hueOf (fun q : ℚ => Real.log (q : ℝ)) 10 (Real.log ((n : ℚ) : ℝ)) * 3600)
        ≤ 3599 ∧
      toU32 (hueOf (fun q : ℚ => Real.log (q : ℝ)) 10 (Real.log ((n : ℚ) : ℝ)) * 3600)
        / 600 ≤ 5 ∧
      toU32 ((1 : ℝ) * 1000) = 1000 ∧
      (∀ rgb : Nat × Nat × Nat,
        hsv_to_rgb rgb
            (hueOf (fun q : ℚ => Real.log (q : ℝ)) 10 (Real.log ((n : ℚ) : ℝ))) 1 1
          = encodeCell (fun q : ℚ => Real.log (q : ℝ)) 10 (Real.log ((n : ℚ) : ℝ))) ∧
      max (encodeCell (fun q : ℚ => Real.log (q : ℝ)) 10 (Real.log ((n : ℚ) : ℝ))).1
        (max
          (encodeCell (fun q : ℚ => Real.log (q : ℝ)) 10 (Real.log ((n : ℚ) : ℝ))).2.1
          (encodeCell (fun q : ℚ => Real.log (q : ℝ)) 10 (Real.log ((n : ℚ) : ℝ))).2.2)
        = 255 ∧
      encodeCell (fun q : ℚ => Real.log (q : ℝ)) 10 (Real.log ((n : ℚ) : ℝ)) ≠ (0, 0, 6) :=
  ⟨by decide, normalized_hue_selects_a_sector 11 10 3 3 (-1) (-1) 1 1 (fun _ => 0) 1 1
    (by decide) (by decide) (by decide)⟩

end Jbcs

namespace Jbcs

/-! ## pi.c: `main` and the worker seeds -/

/-- C13: `main` of pi.c returns `1` if and only if `argc > 2`, and then calls none
of the strategies; otherwise it returns `0` after calling `pi_serial`, `pi_omp1`
and `pi_omp2` in this order with the same `N`, which is `strtoul(argv[1])` for
`argc = 2` and `10^8` when no argument is given. -/
theorem pi_main_usage (strtoul : String → Nat) (argc : Int) (argv : List String) :
    ((pi_main strtoul argc argv).1 = 1 ↔ argc > 2) ∧
    (argc > 2 → pi_main strtoul argc argv = (1, [])) ∧
    (¬ argc > 2 → ∃ N : Nat,
      pi_main strtoul argc argv = (0, [PiCall.serial N, PiCall.omp1 N, PiCall.omp2 N]) ∧
      (argc = 2 → N = strtoul (argv.headD "")) ∧
      (argc ≠ 2 → N = 100000000)) := by
  unfold pi_main
  by_cases h : argc > 2
  · simp [h]
  · simp only [h, if_false]
    refine ⟨by simp, by simp, fun _ => ?_⟩
    by_cases h2 : argc = 2
    · exact ⟨strtoul (argv.headD ""), by simp [h2], fun _ => rfl, fun hne => absurd h2 hne⟩
    · exact ⟨100000000, by simp [h2], fun he => absurd he h2, fun _ => rfl⟩

/-- C15: in `pi_omp2` worker `k` seeds its private stream with `seed + k` taken
modulo `2^64`, where `seed` is the one value drawn before the parallel region; the
initial state of a worker depends on `seed` and `k` alone, and distinct worker
indices below the worker count (itself at most `2^64`) get distinct seeds. -/
theorem worker_seeds_distinct {σ : Type} (srand48_r : Nat → σ) (seed T : Nat)
    (hT : T ≤ 2 ^ 64) :
    (∀ k : Nat, omp2Init srand48_r seed k = (srand48_r ((seed + k) % 2 ^ 64), 0)) ∧
    (∀ (drand48_r : σ → ℚ × σ) (sched : List (Nat × Nat)) (k : Nat),
      omp2Exec drand48_r sched (omp2Init srand48_r seed) k
        = (omp2Body drand48_r)^[workerLoad sched k]
            (srand48_r ((seed + k) % 2 ^ 64), 0)) ∧
    (∀ i j : Nat, i < T → j < T → i ≠ j → (seed + i) % 2 ^ 64 ≠ (seed + j) % 2 ^ 64) := by
  refine ⟨fun k => rfl, fun drand48_r sched k => ?_, ?_⟩
  · rw [omp2Exec_worker]; rfl
  · intro i j hi hj hne he
    omega

theorem worker_seeds_distinct_witness :
    (4 ≤ 2 ^ 64) ∧
    ((∀ k : Nat, omp2Init (fun n : Nat => n) (2 ^ 64 - 2) k
        = ((fun n : Nat => n) ((2 ^ 64 - 2 + k) % 2 ^ 64), 0)) ∧
    (∀ (drand48_r : Nat → ℚ × Nat) (sched : List (Nat × Nat)) (k : Nat),
      omp2Exec drand48_r sched (omp2Init (fun n : Nat => n) (2 ^ 64 - 2)) k
        = (omp2Body drand48_r)^[workerLoad sched k]
            ((fun n : Nat => n) ((2 ^ 64 - 2 + k) % 2 ^ 64), 0)) ∧
    (∀ i j : Nat, i < 4 → j < 4 → i ≠ j →
      (2 ^ 64 - 2 + i) % 2 ^ 64 ≠ (2 ^ 64 - 2 + j) % 2 ^ 64)) :=
  ⟨by decide, worker_seeds_distinct (fun n : Nat => n) (2 ^ 64 - 2) 4 (by decide)⟩

end Jbcs

namespace Jbcs

/-! ## mandel.c: points of the disc `|c| ≤ 1/4` -/

theorem orbitStep_small (px py : ℚ) (hc : px * px + py * py ≤ 1 / 16) (z : ℚ × ℚ)
    (hz : normSq z ≤ 1 / 4) : normSq (orbitStep px py z) ≤ 1 / 4 := by
  obtain ⟨x, y⟩ := z
  unfold normSq at hz ⊢
  unfold orbitStep
  simp only at hz ⊢
  have hs0 : 0 ≤ x * x + y * y := by nlinarith [mul_self_nonneg x, mul_self_nonneg y]
  have hA : (x * x - y * y) * (x * x - y * y) + (2 * x * y) * (2 * x * y)
      = (x * x + y * y) * (x * x + y * y) := by ring
  have hA16 : (x * x + y * y) * (x * x + y * y) ≤ 1 / 16 := by nlinarith
  have hC0 : 0 ≤ px * px + py * py := by nlinarith [mul_self_nonneg px, mul_self_nonneg py]
  have hcs : ((x * x - y * y) * px + (2 * x * y) * py) * ((x * x - y * y) * px + (2 * x * y) * py)
      ≤ ((x * x + y * y) * (x * x + y * y)) * (px * px + py * py) := by
    nlinarith [sq_nonneg ((x * x - y * y) * py - (2 * x * y) * px)]
  have hD2 : ((x * x - y * y) * px + (2 * x * y) * py) * ((x * x - y * y) * px + (2 * x * y) * py)
      ≤ 1 / 256 := by
    calc _ ≤ ((x * x + y * y) * (x * x + y * y)) * (px * px + py * py) := hcs
      _ ≤ (1 / 16) * (1 / 16) := mul_le_mul hA16 hc hC0 (by norm_num)
      _ = 1 / 256 := by norm_num
  have hD : (x * x - y * y) * px + (2 * x * y) * py ≤ 1 / 16 := by
    by_contra hcon
    push_neg at hcon
    nlinarith
  nlinarith

theorem orbit_small (px py : ℚ) (hc : px * px + py * py ≤ 1 / 16) (k : Nat) :
    normSq (orbit px py k) ≤ 1 / 4 := by
  induction k with
  | zero => norm_num [orbit, normSq]
  | succ k ih => exact orbitStep_small px py hc _ ih

theorem specCount_small (px py : ℚ) (hc : px * px + py * py ≤ 1 / 16) (M : Nat) :
    specCount M px py = M := by
  apply specCount_eq M px py M (le_refl _)
  · intro j _
    have := orbit_small px py hc j
    linarith
  · intro h; exact absurd h (lt_irrefl _)

/-- C18: a plane point with `px² + py² ≤ 1/16` never escapes: `|z_k|² ≤ 1/4` holds
along its orbit, so the test `x² + y² < 4` holds at every step and for every
`max_iters < 2^32` the inner loop is left with `n = max_iters` and the body stores
`log max_iters`; on the grid of `main` no pixel maps to `px = 0`, and the pixel
`(750, 1250)` next to the plane origin, which maps to `(5/3998, 3/2998)`, is such
a point. -/
theorem small_points_never_escape (px py : ℚ) (hc : px * px + py * py ≤ 1 / 16) :
    (∀ k : Nat, normSq (orbit px py k) ≤ 1 / 4) ∧
    (∀ k : Nat, (orbit px py k).1 * (orbit px py k).1
      + (orbit px py k).2 * (orbit px py k).2 < 4) ∧
    (∀ max_iters fuel : Nat, max_iters < 2 ^ 32 → max_iters < fuel →
      escapeLoop max_iters px py fuel 0 0 0 = some max_iters) ∧
    (∀ (V : Type) (log : ℚ → V) (max_iters fuel width height : Nat) (x0 y0 x1 y1 : ℚ)
      (data : Nat → V) (row col : Nat), max_iters < 2 ^ 32 → max_iters < fuel →
      planeX width x0 x1 col = some px → planeY height y0 y1 row = some py →
      pixelBody log fuel max_iters width height x0 y0 x1 y1 data row col
        = some (store data ((row * width + col) % 2 ^ 64) (log (max_iters : ℚ)))) ∧
    ((∀ w : Nat, ∃ a : ℚ, planeX 2000 (-5 / 2) (3 / 2) w = some a ∧ a ≠ 0) ∧
      planeX 2000 (-5 / 2) (3 / 2) 1250 = some (5 / 3998) ∧
      planeY 1500 (-3 / 2) (3 / 2) 750 = some (3 / 2998) ∧
      (5 / 3998 : ℚ) * (5 / 3998) + (3 / 2998) * (3 / 2998) ≤ 1 / 16) := by
  have hloop : ∀ max_iters fuel : Nat, max_iters < 2 ^ 32 → max_iters < fuel →
      escapeLoop max_iters px py fuel 0 0 0 = some max_iters := by
    intro M fuel hM hf
    rw [escapeLoop_eq M px py hM fuel hf, specCount_small px py hc M]
  have hz : sizePred 2000 ≠ 0 := by decide
  have hz2 : sizePred 1500 ≠ 0 := by decide
  have hs : ((sizePred 2000 : Nat) : ℚ) = 1999 := by
    rw [sizePred_eq 2000 (by norm_num) (by norm_num)]; norm_num
  have hs2 : ((sizePred 1500 : Nat) : ℚ) = 1499 := by
    rw [sizePred_eq 1500 (by norm_num) (by norm_num)]; norm_num
  refine ⟨orbit_small px py hc, ?_, hloop, ?_, ?_, ?_, ?_, ?_⟩
  · intro k
    have := orbit_small px py hc k
    unfold normSq at this
    linarith
  · intro V log M fuel width height x0 y0 x1 y1 data row col hM hf hx hy
    unfold pixelBody
    rw [hx, hy, pixelLoop_some, hloop M fuel hM hf]
  · intro w
    refine ⟨_, planeX_of_ne_zero 2000 (-5 / 2) (3 / 2) w hz, ?_⟩
    rw [hs]
    intro h
    have h8 : (8 : ℚ) * (w : ℚ) = 9995 := by linarith
    have h8n : 8 * w = 9995 := by exact_mod_cast h8
    omega
  · rw [planeX_of_ne_zero 2000 (-5 / 2) (3 / 2) 1250 hz, hs]
    norm_num
  · rw [planeY_of_ne_zero 1500 (-3 / 2) (3 / 2) 750 hz2, hs2]
    norm_num
  · norm_num

theorem small_points_never_escape_witness :
    ((1 : ℚ) / 5 * (1 / 5) + (-1 / 10) * (-1 / 10) ≤ 1 / 16) ∧
    ((∀ k : Nat, normSq (orbit (1 / 5) (-1 / 10) k) ≤ 1 / 4) ∧
    (∀ k : Nat, (orbit (1 / 5) (-1 / 10) k).1 * (orbit (1 / 5) (-1 / 10) k).1
      + (orbit (1 / 5) (-1 / 10) k).2 * (orbit (1 / 5) (-1 / 10) k).2 < 4) ∧
    (∀ max_iters fuel : Nat, max_iters < 2 ^ 32 → max_iters < fuel →
      escapeLoop max_iters (1 / 5) (-1 / 10) fuel 0 0 0 = some max_iters) ∧
    (∀ (V : Type) (log : ℚ → V) (max_iters fuel width height : Nat) (x0 y0 x1 y1 : ℚ)
      (data : Nat → V) (row col : Nat), max_iters < 2 ^ 32 → max_iters < fuel →
      planeX width x0 x1 col = some (1 / 5) → planeY height y0 y1 row = some (-1 / 10) →
      pixelBody log fuel max_iters width height x0 y0 x1 y1 data row col
        = some (store data ((row * width + col) % 2 ^ 64) (log (max_iters : ℚ)))) ∧
    ((∀ w : Nat, ∃ a : ℚ, planeX 2000 (-5 / 2) (3 / 2) w = some a ∧ a ≠ 0) ∧
      planeX 2000 (-5 / 2) (3 / 2) 1250 = some (5 / 3998) ∧
      planeY 1500 (-3 / 2) (3 / 2) 750 = some (3 / 2998) ∧
      (5 / 3998 : ℚ) * (5 / 3998) + (3 / 2998) * (3 / 2998) ≤ 1 / 16)) :=
  ⟨by norm_num, small_points_never_escape (1 / 5) (-1 / 10) (by norm_num)⟩

end Jbcs

namespace Jbcs

/-! ## mandel.c: termination -/

theorem escapeLoop_never_returns (M : Nat) (hM : 2 ^ 32 ≤ M) (fuel : Nat) :
    escapeLoop M 0 0 fuel 0 0 0 = none := by
  have hrun := escapeLoop_run M 0 0 hM fuel 0 0 (fun m _ _ => by
    rw [orbit_origin]; norm_num [normSq])
  have h0 : (0 : Nat) % 2 ^ 32 = 0 := rfl
  have ho : orbit 0 0 0 = (0, 0) := rfl
  rw [h0, ho, Nat.zero_add] at hrun
  rw [hrun]
  rfl

theorem mandel_none_of_not_some {V : Type} (r : Option (Nat → V))
    (h : ∀ field, r = some field → False) : r = none := by
  cases r with
  | none => rfl
  | some field => exact absurd rfl (h field)

/-- C17: `mandel` terminates when `width`, `height` and `max_iters` are below
`2^32`: it returns a field, having run its body once for each of the
`width * height` pixels of the row-major list, and for each pixel the inner loop
is left after at most `max_iters` iterations. For a bound of `2^32` or more the
32-bit counter is always below the bound, the comparison never fails and the loop
is not left through it: `mandel` does not return when `height ≥ 2^32`, nor when
`width ≥ 2^32` and there is a row, and for `max_iters ≥ 2^32` the inner loop never
returns on the point `c = 0`, so `mandel` does not return on the 3 by 3 grid over
`(-1, -1, 1, 1)`. -/
theorem mandel_terminates_below_two_pow_32 {V : Type} (log : ℚ → V)
    (max_iters width height : Nat) (x0 y0 x1 y1 : ℚ) :
    (max_iters < 2 ^ 32 → width < 2 ^ 32 → height < 2 ^ 32 →
      ∀ (fuel : Nat) (data : Nat → V), max_iters < fuel → width < fuel → height < fuel →
        (∃ field, mandel log fuel data max_iters width height x0 y0 x1 y1 = some field) ∧
        mandel log fuel data max_iters width height x0 y0 x1 y1
          = fillPixels log fuel max_iters width height x0 y0 x1 y1
              (rowMajor width height) data ∧
        (rowMajor width height).length = width * height ∧
        ∀ p : Nat × Nat, ∃ n : Nat, n ≤ max_iters ∧
          pixelCount (max_iters + 1) max_iters width height x0 y0 x1 y1 p = some n) ∧
    (2 ^ 32 ≤ height → ∀ (fuel : Nat) (data : Nat → V),
      mandel log fuel data max_iters width height x0 y0 x1 y1 = none) ∧
    (2 ^ 32 ≤ width → 0 < height → ∀ (fuel : Nat) (data : Nat → V),
      mandel log fuel data max_iters width height x0 y0 x1 y1 = none) ∧
    (2 ^ 32 ≤ max_iters →
      (∀ fuel : Nat, escapeLoop max_iters 0 0 fuel 0 0 0 = none) ∧
      ∀ (fuel : Nat) (data : Nat → V),
        mandel log fuel data max_iters 3 3 (-1) (-1) 1 1 = none) ∧
    (∀ bound i : Nat, 2 ^ 32 ≤ bound → i % 2 ^ 32 < bound) := by
  refine ⟨?_, ?_, ?_, ?_, ?_⟩
  · intro hM hw hh fuel data hfM hfw hfh
    refine ⟨⟨_, mandel_eq log fuel data max_iters width height x0 y0 x1 y1 hM hw hh hfM hfw hfh⟩,
      mandel_fill log fuel data max_iters width height x0 y0 x1 y1 hw hh hfw hfh,
      rowMajor_length width height, ?_⟩
    intro p
    exact ⟨_, planeCount_le max_iters _ _,
      pixelLoop_eq max_iters _ _ hM (max_iters + 1) (by omega)⟩
  · intro hh fuel data
    apply mandel_none_of_not_some
    intro field hrun
    have := (mandel_some log fuel data field max_iters width height x0 y0 x1 y1 hrun).1
    omega
  · intro hw hpos fuel data
    apply mandel_none_of_not_some
    intro field hrun
    have := (mandel_some log fuel data field max_iters width height x0 y0 x1 y1 hrun).2.1 hpos
    omega
  · intro hM
    refine ⟨escapeLoop_never_returns max_iters hM, ?_⟩
    intro fuel data
    apply mandel_none_of_count_none log fuel data max_iters 3 3 (-1) (-1) 1 1 (1, 1)
      (by decide)
    unfold pixelCount
    have hx : planeX 3 (-1) 1 1 = some 0 := by decide!
    have hy : planeY 3 (-1) 1 1 = some 0 := by decide!
    simp only [hx, hy]
    rw [pixelLoop_some]
    exact escapeLoop_never_returns max_iters hM fuel
  · intro bound i hb
    exact lt_of_lt_of_le (Nat.mod_lt _ (by norm_num)) hb

end Jbcs
